import Mathlib

/-!
# Expression compiler, symbol table and machine-code encoder

A shallow embedding of `symbol_table.c`, `assembly.c`, `machine_code.c` and
`usage_counter.c`.

* C strings are `List Char` (the terminating NUL is the end of the list).
* `int` registers are `Int`; the failure sentinel is `-1` as in the source.
* A `FILE *out` opened for writing is the list of the `fprintf` writes made
  to it, in order; the text of the stream is their concatenation.
* The process-wide variables (`table`, `symbol_count`, `next_reg`,
  `temp_next`) are fields of explicit state records that are passed along.
-/

namespace Compiler

/-! ## Character classes of `<ctype.h>` (the "C" locale) -/

/-- The `isspace` class: space, `\t`, `\n`, `\v`, `\f`, `\r`. -/
def isspace (c : Char) : Bool :=
  c.toNat = 32 || (9 ≤ c.toNat && c.toNat ≤ 13)

/-- The `isdigit` class: `0` .. `9`. -/
def isdigit (c : Char) : Bool :=
  48 ≤ c.toNat && c.toNat ≤ 57

/-- The `isalpha` class: `A` .. `Z` and `a` .. `z`. -/
def isalpha (c : Char) : Bool :=
  (65 ≤ c.toNat && c.toNat ≤ 90) || (97 ≤ c.toNat && c.toNat ≤ 122)

/-- The `isalnum` class. -/
def isalnum (c : Char) : Bool :=
  isalpha c || isdigit c

/-! ## symbol_table.c -/

/-- Modelled from the spec: the header `symbol_table.h` is not among the
sources, so its four constants are parameters of the development.  The spec
calls them the closed permanent interval `[REG_MIN, REG_MAX]`, the fixed
maximum symbol count and the size of a name buffer. -/
structure Config where
  REG_MIN : Int
  REG_MAX : Int
  MAX_SYMBOLS : Nat
  MAX_NAME_LEN : Nat
  deriving DecidableEq, Repr

/-- One slot of `table`: a name and its register. -/
structure SymEntry where
  name : List Char
  reg : Int
  deriving DecidableEq, Repr

/-- The symbol table: `table` holds the slots `0 .. symbol_count-1` of the C
array (the slots above `symbol_count` are never read), `next_reg` is the
cursor. -/
structure SymTab where
  table : List SymEntry
  next_reg : Int
  deriving DecidableEq, Repr

/-- The variable `symbol_count`: the number of slots in use. -/
def SymTab.symbol_count (s : SymTab) : Nat := s.table.length

/-- The function `SymbolInit`. -/
def SymbolInit (cfg : Config) : SymTab :=
  { table := [], next_reg := cfg.REG_MIN }

/-- The loop of `GetRegisterOfTheSymbol` over the slots in use. -/
def lookupSlots : List SymEntry → List Char → Int
  | [], _ => -1
  | e :: es, name => if e.name = name then e.reg else lookupSlots es name

/-- The function `GetRegisterOfTheSymbol`: `-1` when the name is not found. -/
def GetRegisterOfTheSymbol (s : SymTab) (name : List Char) : Int :=
  lookupSlots s.table name

/-- The function `AllocateRegisterForTheSymbol`: the returned register (or
`-1`) and the table afterwards.  `strncpy` keeps the first
`MAX_NAME_LEN-1` characters of the name. -/
def AllocateRegisterForTheSymbol (cfg : Config) (s : SymTab) (name : List Char) :
    Int × SymTab :=
  let r := GetRegisterOfTheSymbol s name
  if r ≠ -1 then (r, s)
  else if s.symbol_count ≥ cfg.MAX_SYMBOLS then (-1, s)
  else if s.next_reg > cfg.REG_MAX then (-1, s)
  else
    (s.next_reg,
      { table := s.table ++ [{ name := name.take (cfg.MAX_NAME_LEN - 1), reg := s.next_reg }],
        next_reg := s.next_reg + 1 })

/-- A sequence of calls of `AllocateRegisterForTheSymbol`, one per name in
order: the registers returned and the table afterwards. -/
def allocateAll (cfg : Config) : SymTab → List (List Char) → List Int × SymTab
  | s, [] => ([], s)
  | s, name :: names =>
    ((AllocateRegisterForTheSymbol cfg s name).1
        :: (allocateAll cfg (AllocateRegisterForTheSymbol cfg s name).2 names).1,
      (allocateAll cfg (AllocateRegisterForTheSymbol cfg s name).2 names).2)

/-- The function `PrintAll`: one write per slot in use, in slot order. -/
def PrintAll (s : SymTab) : List String :=
  s.table.map fun e => String.mk e.name ++ " -> r" ++ toString e.reg ++ "\n"

/-! ## assembly.c: the temporary pool -/

/-- The static `temp_start`. -/
def temp_start : Int := 20

/-- The static `temp_max`. -/
def temp_max : Int := 30

/-- The function `NewTempRegister` on the variable `temp_next`: the register
handed out and the new `temp_next`. -/
def NewTempRegister (temp_next : Int) : Int × Int :=
  let r := temp_next
  let temp_next := temp_next + 1
  if temp_next > temp_max then (r, temp_start) else (r, temp_next)

/-- The state the compiler threads: the temporary cursor, the symbol table
and the writes to `out`. -/
structure CompState where
  temp_next : Int
  sym : SymTab
  out : List String
  deriving DecidableEq, Repr

/-- The function `AssemblyInit`. -/
def AssemblyInit (st : CompState) : CompState :=
  { st with temp_next := temp_start }

/-- The function `ResetTempRegister`. -/
def ResetTempRegister (st : CompState) : CompState :=
  { st with temp_next := temp_start }

/-- Upper-case hexadecimal digits of a natural number, most significant
first, as `%llX` prints them; `fuel` bounds the number of digits. -/
def hexDigitsAux : Nat → Nat → List Char → List Char
  | 0, _, acc => acc
  | fuel + 1, n, acc =>
    let d := n % 16
    let c := if d < 10 then Char.ofNat (48 + d) else Char.ofNat (55 + d)
    if n / 16 = 0 then c :: acc else hexDigitsAux fuel (n / 16) (c :: acc)

/-- The conversion `%llX` of a non-negative value. -/
def hexUpper (n : Nat) : String := String.mk (hexDigitsAux (n + 1) n [])

/-- Reduction of an integer to the range of `long long` (64-bit two's
complement). -/
def wrap64 (v : Int) : Int := (v + 2 ^ 63) % 2 ^ 64 - 2 ^ 63

/-- The function `GenerateLoadImmediate`: the line written to `out`. -/
def GenerateLoadImmediate (reg : Int) (imm : Int) : String :=
  if imm > 15 then
    "daddiu r" ++ toString reg ++ ", r0, #0x" ++ hexUpper imm.toNat ++ "\n"
  else if imm < -15 then
    "daddiu r" ++ toString reg ++ ", r0, #-" ++ "0X" ++ hexUpper ((wrap64 (-imm)) % 2 ^ 64).toNat ++ "\n"
  else
    "daddiu r" ++ toString reg ++ ", r0, #" ++ toString imm ++ "\n"

/-- The function `GenerateBinOp`: the line written to `out`. -/
def GenerateBinOp (op_mnemonic : String) (dst r1 r2 : Int) : String :=
  op_mnemonic ++ " r" ++ toString dst ++ ", r" ++ toString r1 ++ ", r" ++ toString r2 ++ "\n"

/-! ## assembly.c: the recursive-descent expression compiler -/

/-- The function `SkipSpacesPtr`: the pointer moved to the next character
that is not whitespace. -/
def SkipSpacesPtr : List Char → List Char
  | [] => []
  | c :: cs => if isspace c then SkipSpacesPtr cs else c :: cs

/-- The digit loop of `Parse_F`: the value read (in `long long`) and the
pointer after the digits. -/
def readDigits : Int → List Char → Int × List Char
  | val, [] => (val, [])
  | val, c :: cs =>
    if isdigit c then readDigits (wrap64 (val * 10 + ((c.toNat : Int) - 48))) cs
    else (val, c :: cs)

/-- The name loop of `Parse_F`: `name` is the buffer filled so far (at most
127 characters are kept, the rest of the identifier is skipped). -/
def readName : List Char → List Char → List Char × List Char
  | name, [] => (name, [])
  | name, c :: cs =>
    if isalnum c || c = '_' then
      readName (if name.length < 127 then name ++ [c] else name) cs
    else (name, c :: cs)

/-- What a parsing function returns: the result register, the pointer
afterwards and the state afterwards. -/
abbrev ParseResult := Int × List Char × CompState

/-- One emitted binary operation into a fresh temporary: the common body of
the four operator branches after both operands are known. -/
def emitBinOp (op_mnemonic : String) (left right : Int) (st : CompState) : Int × CompState :=
  let (dst, tn) := NewTempRegister st.temp_next
  let dst := if dst = -1 then left else dst
  (dst, { st with temp_next := tn, out := st.out ++ [GenerateBinOp op_mnemonic dst left right] })

mutual

/-- The function `Parse_F`. Every call or loop iteration takes one unit of
`fuel`; `none` means the fuel ran out. -/
def Parse_F (cfg : Config) : Nat → List Char → CompState → Option ParseResult
  | 0, _, _ => none
  | fuel + 1, p, st =>
    match SkipSpacesPtr p with
    | [] => some (0, [], st)
    | c :: cs =>
      if c = '(' then
        match Parse_E cfg fuel cs st with
        | none => none
        | some (r, p1, st1) =>
          match SkipSpacesPtr p1 with
          | [] => some (r, [], st1)
          | d :: ds => if d = ')' then some (r, ds, st1) else some (r, d :: ds, st1)
      else if isdigit c then
        let (val, p1) := readDigits 0 (c :: cs)
        let (r, tn) := NewTempRegister st.temp_next
        let r := if r = -1 then temp_start else r
        some (r, p1, { st with temp_next := tn, out := st.out ++ [GenerateLoadImmediate r val] })
      else if isalpha c || c = '_' then
        let (name, p1) := readName [] (c :: cs)
        let reg := GetRegisterOfTheSymbol st.sym name
        if reg = -1 then
          let (reg, sym) := AllocateRegisterForTheSymbol cfg st.sym name
          some (reg, p1, { st with sym := sym })
        else some (reg, p1, st)
      else some (0, c :: cs, st)

/-- The function `Parse_T` up to its loop. -/
def Parse_T (cfg : Config) : Nat → List Char → CompState → Option ParseResult
  | 0, _, _ => none
  | fuel + 1, p, st =>
    match Parse_F cfg fuel p st with
    | none => none
    | some (left, p1, st1) => Parse_T_loop cfg fuel left p1 st1

/-- The `while(1)` loop of `Parse_T`, entered with the running result
`left`. -/
def Parse_T_loop (cfg : Config) : Nat → Int → List Char → CompState → Option ParseResult
  | 0, _, _, _ => none
  | fuel + 1, left, p, st =>
    match SkipSpacesPtr p with
    | [] => some (left, [], st)
    | c :: cs =>
      if c = '*' then
        match Parse_F cfg fuel (SkipSpacesPtr cs) st with
        | none => none
        | some (right, p1, st1) =>
          let (dst, st2) := emitBinOp "dmul" left right st1
          Parse_T_loop cfg fuel dst p1 st2
      else if c = '/' then
        match Parse_F cfg fuel (SkipSpacesPtr cs) st with
        | none => none
        | some (right, p1, st1) =>
          let (dst, st2) := emitBinOp "ddiv" left right st1
          Parse_T_loop cfg fuel dst p1 st2
      else if c = '+' || c = '-' || c = ';' then some (left, c :: cs, st)
      else Parse_T_loop cfg fuel left cs st

/-- The function `Parse_E` up to its loop. -/
def Parse_E (cfg : Config) : Nat → List Char → CompState → Option ParseResult
  | 0, _, _ => none
  | fuel + 1, p, st =>
    match Parse_T cfg fuel p st with
    | none => none
    | some (left, p1, st1) => Parse_E_loop cfg fuel left p1 st1

/-- The `while(1)` loop of `Parse_E`, entered with the running result
`left`.  The subtraction branch calls `AssemblyInit()` right after consuming
the `-`, as line 176 of the source does. -/
def Parse_E_loop (cfg : Config) : Nat → Int → List Char → CompState → Option ParseResult
  | 0, _, _, _ => none
  | fuel + 1, left, p, st =>
    match SkipSpacesPtr p with
    | [] => some (left, [], st)
    | c :: cs =>
      if c = '+' then
        match Parse_T cfg fuel (SkipSpacesPtr cs) st with
        | none => none
        | some (right, p1, st1) =>
          let (dst, st2) := emitBinOp "daddu" left right st1
          Parse_E_loop cfg fuel dst p1 st2
      else if c = '-' then
        match Parse_T cfg fuel (SkipSpacesPtr cs) (AssemblyInit st) with
        | none => none
        | some (right, p1, st1) =>
          let (dst, st2) := emitBinOp "dsubu" left right st1
          Parse_E_loop cfg fuel dst p1 st2
      else if c = ';' then some (left, c :: cs, st)
      else Parse_E_loop cfg fuel left cs st

end

/-! ## assembly.c: the statement compiler -/

/-- Modelled from the spec: the statement kinds of the missing header
(`STMT_DECL`, `STMT_ASSIGN`); `STMT_UNKNOWN` stands for every other value the
C field can hold ("a statement whose kind is neither declaration nor
assignment"). -/
inductive StmtType where
  | STMT_DECL
  | STMT_ASSIGN
  | STMT_UNKNOWN
  deriving DecidableEq, Repr

/-- Modelled from the spec: the record `Statement` of the missing header,
"kind, lhs name, rhs text (may be empty for bare declarations), raw source
text". -/
structure Statement where
  type : StmtType
  lhs : List Char
  rhs : List Char
  raw : List Char
  deriving DecidableEq, Repr

/-- The function `AssemblyGenerateDeclaration`: the `int` returned and the
state afterwards; `none` only when the expression parser ran out of fuel. A
null `stmt` is `none` in the argument. -/
def AssemblyGenerateDeclaration (cfg : Config) (fuel : Nat) (stmt : Option Statement)
    (st : CompState) : Option (Int × CompState) :=
  match stmt with
  | none => some (0, st)
  | some s =>
    if s.type ≠ StmtType.STMT_DECL then some (0, st)
    else
      let (reg, sym) := AllocateRegisterForTheSymbol cfg st.sym s.lhs
      let st := { st with sym := sym }
      if reg = -1 then some (0, st)
      else if s.rhs ≠ [] then
        match Parse_E cfg fuel s.rhs st with
        | none => none
        | some (rres, _, st1) =>
          if rres ≠ reg then
            some (1, { st1 with out := st1.out ++
              ["daddu r" ++ toString reg ++ ", r" ++ toString rres ++ ", r0\n"] })
          else some (1, st1)
      else
        some (1, { st with out := st.out ++ [GenerateLoadImmediate reg 0] })

/-- Value of a character as a digit of `strtol` or `%i` (letters count from
ten), when it is one. -/
def digitVal (c : Char) : Option Nat :=
  if isdigit c then some (c.toNat - 48)
  else if 97 ≤ c.toNat && c.toNat ≤ 122 then some (c.toNat - 87)
  else if 65 ≤ c.toNat && c.toNat ≤ 90 then some (c.toNat - 55)
  else none

/-- The digit loop of `strtol`, `atoi` and `%i` in a given base: the value
accumulated and the rest of the text. -/
def scanDigits (base : Nat) : Nat → List Char → Nat × List Char
  | acc, [] => (acc, [])
  | acc, c :: cs =>
    match digitVal c with
    | some d => if d < base then scanDigits base (acc * base + d) cs else (acc, c :: cs)
    | none => (acc, c :: cs)

/-- Whether the text starts with a digit of the base. -/
def startsWithDigit (base : Nat) : List Char → Bool
  | [] => false
  | c :: _ => match digitVal c with
    | some d => decide (d < base)
    | none => false

/-- The unsigned part of a number in the syntax of `strtol(_, _, 0)` and of
`%i`: `0x`/`0X` and a hexadecimal digit start a hexadecimal number, another
leading `0` an octal one, otherwise decimal.  `none` when no digit is
there. -/
def scanMagnitude (s : List Char) : Option (Nat × List Char) :=
  match s with
  | '0' :: x :: rest =>
    if (x = 'x' || x = 'X') && startsWithDigit 16 rest then some (scanDigits 16 0 rest)
    else some (scanDigits 8 0 (x :: rest))
  | _ =>
    if startsWithDigit 10 s then some (scanDigits 10 0 s) else none

/-- An optionally signed number after optional whitespace, as
`strtol(_, _, 0)` and `%i` read it. -/
def scanSigned (s : List Char) : Option (Int × List Char) :=
  match SkipSpacesPtr s with
  | '-' :: rest => (scanMagnitude rest).map fun r => (-(r.1 : Int), r.2)
  | '+' :: rest => (scanMagnitude rest).map fun r => ((r.1 : Int), r.2)
  | rest => (scanMagnitude rest).map fun r => ((r.1 : Int), r.2)

/-- Saturation to the range of `long` (64 bits). -/
def clampLong (v : Int) : Int :=
  if v > 2 ^ 63 - 1 then 2 ^ 63 - 1 else if v < -(2 ^ 63) then -(2 ^ 63) else v

/-- The call `strtol(rhs, &endptr, 0)`: the value and the text at `endptr`
(the whole `rhs` with value 0 when no number is there). -/
def strtol0 (rhs : List Char) : Int × List Char :=
  match scanSigned rhs with
  | some (v, rest) => (clampLong v, rest)
  | none => (0, rhs)

/-- The function `AssemblyGenerateAssignment`. -/
def AssemblyGenerateAssignment (cfg : Config) (fuel : Nat) (stmt : Option Statement)
    (st : CompState) : Option (Int × CompState) :=
  match stmt with
  | none => some (0, st)
  | some s =>
    if s.type ≠ StmtType.STMT_ASSIGN then some (0, st)
    else
      let lhs_reg := GetRegisterOfTheSymbol st.sym s.lhs
      let (lhs_reg, sym) :=
        if lhs_reg = -1 then AllocateRegisterForTheSymbol cfg st.sym s.lhs else (lhs_reg, st.sym)
      let st := { st with sym := sym }
      if lhs_reg = -1 then some (0, st)
      else
        let (imm_val, endptr) := strtol0 s.rhs
        if endptr = [] then
          some (1, { st with out := st.out ++
            ["daddiu r" ++ toString lhs_reg ++ ", r0, #" ++ toString imm_val ++ "\n"] })
        else
          match Parse_E cfg fuel s.rhs st with
          | none => none
          | some (rres, _, st1) =>
            if rres ≠ lhs_reg then
              some (1, { st1 with out := st1.out ++
                ["daddu r" ++ toString lhs_reg ++ ", r" ++ toString rres ++ ", r0\n"] })
            else some (1, st1)

/-- The function `GenerateAssemblyStatement` (`out` is an open stream). -/
def GenerateAssemblyStatement (cfg : Config) (fuel : Nat) (stmt : Option Statement)
    (st : CompState) : Option (Int × CompState) :=
  match stmt with
  | none => some (0, st)
  | some s =>
    let st := ResetTempRegister st
    if s.type = StmtType.STMT_DECL then AssemblyGenerateDeclaration cfg fuel (some s) st
    else if s.type = StmtType.STMT_ASSIGN then AssemblyGenerateAssignment cfg fuel (some s) st
    else some (0, st)

/-! ## machine_code.c -/

/-- The call `atoi`: optional whitespace, optional sign, decimal digits. -/
def atoi (s : List Char) : Int :=
  match SkipSpacesPtr s with
  | '-' :: rest => -((scanDigits 10 0 rest).1 : Int)
  | '+' :: rest => ((scanDigits 10 0 rest).1 : Int)
  | rest => ((scanDigits 10 0 rest).1 : Int)

/-- The function `RegisterNumber`. -/
def RegisterNumber (r : List Char) : Int :=
  match r with
  | [] => -1
  | c :: rest =>
    if c ≠ 'r' then -1
    else
      let n := atoi rest
      if n < 0 ∨ n > 31 then -1 else n

/-- Conversion of an `int` argument to a `uint8_t` parameter. -/
def toU8 (v : Int) : Nat := (v % 256).toNat

/-- Conversion of an `int` argument to `int16_t` and then to `uint16_t`. -/
def toU16 (v : Int) : Nat := (v % 65536).toNat

/-- The function `Encode_R_Type` on its `uint8_t` parameters; the result is
a `uint32_t`. -/
def Encode_R_Type (rs rt rd shamt funct : Nat) : Nat :=
  ((((((0 <<< 26) ||| (rs <<< 21)) ||| (rt <<< 16)) ||| (rd <<< 11)) ||| (shamt <<< 6)) ||| funct)
    % 2 ^ 32

/-- The function `Encode_I_Type`; `imm` is the `int` the caller passes. -/
def Encode_I_Type (opcode rs rt : Nat) (imm : Int) : Nat :=
  ((((opcode <<< 26) ||| (rs <<< 21)) ||| (rt <<< 16)) ||| (toU16 imm &&& 0xFFFF)) % 2 ^ 32

/-- A literal run of a `sscanf` format: the input after it, when the input
starts with it. -/
def matchLit : List Char → List Char → Option (List Char)
  | [], s => some s
  | _ :: _, [] => none
  | l :: ls, c :: cs => if l = c then matchLit ls cs else none

/-- The longest run of at most `width` characters satisfying `ok`, and the
input after it. -/
def scanRun (ok : Char → Bool) : Nat → List Char → List Char × List Char
  | 0, s => ([], s)
  | _ + 1, [] => ([], [])
  | width + 1, c :: cs =>
    if ok c then ((c :: (scanRun ok width cs).1), (scanRun ok width cs).2) else ([], c :: cs)

/-- The conversion `%7[^,]`: one to seven characters other than a comma (no
leading whitespace is skipped). -/
def scanNotComma7 (s : List Char) : Option (List Char × List Char) :=
  let r := scanRun (fun c => c != ',') 7 s
  if r.1 = [] then none else some r

/-- The conversion `%7s`: whitespace is skipped, then one to seven
characters that are not whitespace. -/
def scanWord7 (s : List Char) : Option (List Char × List Char) :=
  let r := scanRun (fun c => !isspace c) 7 (SkipSpacesPtr s)
  if r.1 = [] then none else some r

/-- The test `sscanf(line, "daddiu %7[^,], %7[^,], #%i", r1, r2, &imm) == 3`:
the three values read.  The immediate is kept as a mathematical integer (a
number outside `int` is undefined in C). -/
def scanDaddiu (line : List Char) : Option (List Char × List Char × Int) :=
  (matchLit "daddiu".toList line).bind fun s0 =>
  (scanNotComma7 (SkipSpacesPtr s0)).bind fun t1 =>
  (matchLit [','] t1.2).bind fun s1 =>
  (scanNotComma7 (SkipSpacesPtr s1)).bind fun t2 =>
  (matchLit [','] t2.2).bind fun s2 =>
  (matchLit ['#'] (SkipSpacesPtr s2)).bind fun s3 =>
  (scanSigned s3).bind fun v =>
  some (t1.1, t2.1, v.1)

/-- The test `sscanf(line, "<mnemonic> %7[^,], %7[^,], %7s", r1, r2, r3) == 3`:
the three tokens read. -/
def scanRType (mnemonic : String) (line : List Char) :
    Option (List Char × List Char × List Char) :=
  (matchLit mnemonic.toList line).bind fun s0 =>
  (scanNotComma7 (SkipSpacesPtr s0)).bind fun t1 =>
  (matchLit [','] t1.2).bind fun s1 =>
  (scanNotComma7 (SkipSpacesPtr s1)).bind fun t2 =>
  (matchLit [','] t2.2).bind fun s2 =>
  (scanWord7 s2).bind fun t3 =>
  some (t1.1, t2.1, t3.1)

/-- The body of one R-type branch of `MachineFromAssembly`: the code word
when all three registers are valid (`matched = 1`). -/
def encodeRType (funct : Nat) (r1 r2 r3 : List Char) : Option Nat :=
  let rd := RegisterNumber r1
  let rs := RegisterNumber r2
  let rt := RegisterNumber r3
  if rd ≥ 0 ∧ rs ≥ 0 ∧ rt ≥ 0 then some (Encode_R_Type (toU8 rs) (toU8 rt) (toU8 rd) 0 funct)
  else none

/-- The `if`/`else if` chain of `MachineFromAssembly` on one line: the code
word when `matched` is set. -/
def encodeLine (line : List Char) : Option Nat :=
  match scanDaddiu line with
  | some (r1, r2, imm) =>
    let rt := RegisterNumber r1
    let rs := RegisterNumber r2
    if rt ≥ 0 ∧ rs ≥ 0 then some (Encode_I_Type 0x19 (toU8 rs) (toU8 rt) imm) else none
  | none =>
    match scanRType "daddu" line with
    | some (r1, r2, r3) => encodeRType 0x21 r1 r2 r3
    | none =>
      match scanRType "dsubu" line with
      | some (r1, r2, r3) => encodeRType 0x23 r1 r2 r3
      | none =>
        match scanRType "dmul" line with
        | some (r1, r2, r3) => encodeRType 0x18 r1 r2 r3
        | none =>
          match scanRType "ddiv" line with
          | some (r1, r2, r3) => encodeRType 0x1A r1 r2 r3
          | none => none

/-- The six-or-four fields that `MachineFromAssembly` extracts from a code
word. -/
structure Fields where
  opcode : Nat
  rs : Nat
  rt : Nat
  rd : Nat
  shamt : Nat
  funct : Nat
  imm : Nat
  deriving DecidableEq, Repr

/-- The field extraction of `MachineFromAssembly`. -/
def extractFields (code : Nat) : Fields :=
  { opcode := (code >>> 26) &&& 0x3F
    rs := (code >>> 21) &&& 0x1F
    rt := (code >>> 16) &&& 0x1F
    rd := (code >>> 11) &&& 0x1F
    shamt := (code >>> 6) &&& 0x1F
    funct := code &&& 0x3F
    imm := code &&& 0xFFFF }

/-- The conversion `%0<width>b`: binary digits, zero-padded to `width`. -/
def fmtBin (width n : Nat) : String :=
  let ds := Nat.toDigits 2 n
  String.mk (List.replicate (width - ds.length) '0' ++ ds)

/-- The conversion `%08X`: upper-case hexadecimal digits, zero-padded to
eight. -/
def fmtHex8 (n : Nat) : String :=
  let ds := hexDigitsAux (n + 1) n []
  String.mk (List.replicate (8 - ds.length) '0' ++ ds)

/-- The text written for a matched line: the field breakdown and the
hexadecimal word. -/
def renderWord (code : Nat) : String :=
  let f := extractFields code
  if f.opcode = 0 then
    fmtBin 6 f.opcode ++ " " ++ fmtBin 5 f.rs ++ " " ++ fmtBin 5 f.rt ++ " " ++ fmtBin 5 f.rd ++ " "
      ++ fmtBin 5 f.shamt ++ " " ++ fmtBin 6 f.funct ++ " : 0x" ++ fmtHex8 code
  else
    fmtBin 6 f.opcode ++ " " ++ fmtBin 5 f.rs ++ " " ++ fmtBin 5 f.rt ++ " " ++ fmtBin 16 f.imm
      ++ " : 0x" ++ fmtHex8 code

/-- The lines that successive calls `fgets(_, size, in)` return on a stream:
each ends after a newline or after `size-1` characters; `cur` is the part of
the current line already read. -/
def fgetsLines (size : Nat) : List Char → List Char → List (List Char)
  | [], cur => if cur = [] then [] else [cur]
  | c :: cs, cur =>
    if c.toNat = 10 ∨ cur.length + 2 ≥ size then (cur ++ [c]) :: fgetsLines size cs []
    else fgetsLines size cs (cur ++ [c])

/-- The statement `line[strcspn(line, "\r\n")] = 0`. -/
def stripEol (line : List Char) : List Char :=
  line.takeWhile fun c => c.toNat != 13 && c.toNat != 10

/-- The `while(fgets(...))` loop of `MachineFromAssembly` over the lines
still to be read; `out` is what has been written so far.  The peek reads the
next line and seeks back, so the next line stays first in `rest`. -/
def encodeLoop : List (List Char) → List String → List String
  | [], out => out
  | raw :: rest, out =>
    let line := stripEol raw
    match SkipSpacesPtr line with
    | [] => encodeLoop rest out
    | c :: _ =>
      if c = '#' then encodeLoop rest out
      else
        match encodeLine line with
        | none => encodeLoop rest out
        | some code =>
          let out := out ++ [renderWord code]
          match rest with
          | [] => encodeLoop rest out
          | peek :: _ =>
            match SkipSpacesPtr peek with
            | [] => encodeLoop rest (out ++ ["\n\n"])
            | q :: _ =>
              if q = '#' then encodeLoop rest (out ++ ["\n\n"])
              else encodeLoop rest (out ++ ["\n"])

/-- The function `MachineFromAssembly` on the text of the assembly file: the
writes to the output file (both files are taken to open). -/
def MachineFromAssembly (asm_text : List Char) : List String :=
  encodeLoop (fgetsLines 256 asm_text []) []

/-! ## usage_counter.c -/

/-- One record of `vars`: a name and its occurrence count. -/
structure VarUsage where
  name : List Char
  count : Int
  deriving DecidableEq, Repr

/-- The search loop of `AddVariableUsage`: the records with the count of the
first one named `name` incremented, or `none` when there is none. -/
def bumpUsage : List VarUsage → List Char → Option (List VarUsage)
  | [], _ => none
  | v :: vs, name =>
    if v.name = name then some ({ v with count := v.count + 1 } :: vs)
    else (bumpUsage vs name).map fun r => v :: r

/-- The function `AddVariableUsage` on the records in use (`var_count` is
their number); `name` is a non-null C string. -/
def AddVariableUsage (cfg : Config) (vars : List VarUsage) (name : List Char) : List VarUsage :=
  match name with
  | [] => vars
  | c :: _ =>
    if isdigit c then vars
    else
      match bumpUsage vars name with
      | some vars1 => vars1
      | none =>
        if vars.length < cfg.MAX_SYMBOLS then
          vars ++ [{ name := name.take (cfg.MAX_NAME_LEN - 1), count := 1 }]
        else vars

/-- The function `CountVarsInExpression`: `token` is the buffer filled so
far (`i` is its length).  A token of 128 characters or more overruns the
buffer in C; here all its characters are kept. -/
def CountVarsInExpression (cfg : Config) : List Char → List Char → List VarUsage → List VarUsage
  | [], token, vars => if token ≠ [] then AddVariableUsage cfg vars token else vars
  | c :: expr, token, vars =>
    if isalnum c || c = '_' then CountVarsInExpression cfg expr (token ++ [c]) vars
    else if token ≠ [] then CountVarsInExpression cfg expr [] (AddVariableUsage cfg vars token)
    else CountVarsInExpression cfg expr token vars

/-- Step 1 of `AnalyzeVariableUsage`: the records after all statements were
counted, starting from `var_count = 0`. -/
def countUsage (cfg : Config) (stmts : List Statement) : List VarUsage :=
  stmts.foldl (fun vars s => CountVarsInExpression cfg s.rhs [] (AddVariableUsage cfg vars s.lhs)) []

/-- The body of the inner loop of the sort: `vars[i]` and `vars[j]` are
exchanged when `vars[j].count > vars[i].count`. -/
def swapIfGreater (vars : List VarUsage) (i j : Nat) : List VarUsage :=
  match vars[i]?, vars[j]? with
  | some a, some b => if b.count > a.count then (vars.set i b).set j a else vars
  | _, _ => vars

/-- The inner loop of the sort from index `j`, with `n` iterations left. -/
def sortInner (i : Nat) : Nat → Nat → List VarUsage → List VarUsage
  | 0, _, vars => vars
  | n + 1, j, vars => sortInner i n (j + 1) (swapIfGreater vars i j)

/-- The outer loop of the sort from index `i`, with `n` iterations left: the
inner loop runs over `j = i+1 .. var_count-1`. -/
def sortOuter : Nat → Nat → List VarUsage → List VarUsage
  | 0, _, vars => vars
  | n + 1, i, vars => sortOuter n (i + 1) (sortInner i (vars.length - (i + 1)) (i + 1) vars)

/-- Step 2 of `AnalyzeVariableUsage`: `i` runs over `0 .. var_count-2`. -/
def sortByCount (vars : List VarUsage) : List VarUsage :=
  sortOuter (vars.length - 1) 0 vars

/-- Step 3 of `AnalyzeVariableUsage`: the symbol table is reset and the
first `REG_MAX - REG_MIN + 1` records are registered in order. -/
def reseed (cfg : Config) (vars : List VarUsage) : SymTab :=
  (allocateAll cfg (SymbolInit cfg)
    ((vars.take (cfg.REG_MAX - cfg.REG_MIN + 1).toNat).map fun v => v.name)).2

/-- The function `AnalyzeVariableUsage`: the sorted records left in `vars`
and the symbol table afterwards. -/
def AnalyzeVariableUsage (cfg : Config) (stmts : List Statement) : List VarUsage × SymTab :=
  let vars := sortByCount (countUsage cfg stmts)
  (vars, reseed cfg vars)

/-! ## Sample states used by the concrete evaluations -/

/-- A state at the start of an expression: a fresh temporary pool, the
variables `a`, `b`, `c` bound to `r1`, `r2`, `r3`, nothing written. -/
def boundABC : CompState :=
  { temp_next := temp_start
    sym := { table := [⟨['a'], 1⟩, ⟨['b'], 2⟩, ⟨['c'], 3⟩], next_reg := 4 }
    out := [] }

/-- A state in which only `x` is bound (to `r1`), with the temporary cursor
left somewhere in its window by an earlier statement. -/
def boundX : CompState :=
  { temp_next := 26
    sym := { table := [⟨['x'], 1⟩], next_reg := 2 }
    out := [] }

/-- A sample of the constants of the missing header: permanent registers
`r1 .. r19` (below the temporaries `r20 .. r30`), 64 symbols, names kept to 31
characters. -/
def sampleConfig : Config :=
  { REG_MIN := 1, REG_MAX := 19, MAX_SYMBOLS := 64, MAX_NAME_LEN := 32 }

/-- A name of 32 characters, one more than `sampleConfig` keeps. -/
def longName : List Char := List.replicate 32 'v'

/-- The symbol-table states the program can be in: `SymbolInit` followed by
any calls of `AllocateRegisterForTheSymbol`. -/
inductive Reachable (cfg : Config) : SymTab → Prop where
  | init : Reachable cfg (SymbolInit cfg)
  | alloc (s : SymTab) (name : List Char) :
      Reachable cfg s → Reachable cfg (AllocateRegisterForTheSymbol cfg s name).2

/-! ## Vocabulary for the statements about expressions -/

/-- A character of an identifier after its first. -/
def isIdentChar (c : Char) : Bool := isalnum c || c = '_'

/-- An identifier as `Parse_F` recognises one: a letter or underscore, then
letters, digits and underscores. -/
def isIdent : List Char → Bool
  | [] => false
  | c :: cs => (isalpha c || c = '_') && cs.all isIdentChar

/-- The text after a token does not continue it: it is empty or starts with
a character that is neither a letter, a digit nor an underscore. -/
def endsToken : List Char → Bool
  | [] => true
  | c :: _ => !(isalnum c || c = '_')

/-- One operand of an expression: an integer literal (its digits) or a
variable (its name). -/
inductive Operand where
  | lit (digits : List Char)
  | var (name : List Char)
  deriving DecidableEq, Repr

/-- The source text of an operand. -/
def Operand.text : Operand → List Char
  | Operand.lit ds => ds
  | Operand.var n => n

/-- A well-formed operand: a literal is a non-empty run of digits; a
variable is an identifier that the symbol table binds, under the name
`Parse_F` reads (its first 127 characters). -/
def Operand.ok (sym : SymTab) : Operand → Bool
  | Operand.lit ds => !ds.isEmpty && ds.all isdigit
  | Operand.var n => isIdent n && decide (GetRegisterOfTheSymbol sym (n.take 127) ≠ -1)

/-- The register an operand ends up in and the state after reading it: a
literal takes the next temporary and is loaded into it, a bound variable is
its permanent register and changes nothing. -/
def Operand.run (o : Operand) (st : CompState) : Int × CompState :=
  match o with
  | Operand.lit ds =>
    let t := NewTempRegister st.temp_next
    let r := if t.1 = -1 then temp_start else t.1
    (r, { st with temp_next := t.2,
                  out := st.out ++ [GenerateLoadImmediate r (readDigits 0 ds).1] })
  | Operand.var n => (GetRegisterOfTheSymbol st.sym (n.take 127), st)

/-- The text at which the loop of `Parse_T` stops: the end, `+`, `-` or
`;`. -/
def stopsTerm : List Char → Bool
  | [] => true
  | c :: _ => c = '+' || c = '-' || c = ';'

/-- One step of a `+`/`-` chain: the whitespace before the operator, the
operator, the whitespace after it and the variable name. -/
structure Link where
  pre : List Char
  op : Char
  post : List Char
  name : List Char
  deriving DecidableEq, Repr

/-- A well-formed step: whitespace where whitespace is meant, the operator
is `+` or `-`, the name is an identifier bound in the symbol table. -/
def Link.ok (sym : SymTab) (l : Link) : Bool :=
  l.pre.all isspace && l.post.all isspace && (l.op = '+' || l.op = '-')
    && (Operand.var l.name).ok sym

/-- The mnemonic that `Parse_E` emits for an operator. -/
def Link.mnemonic (l : Link) : String :=
  if l.op = '+' then "daddu" else "dsubu"

/-- The text of the steps of a chain, followed by `tail`. -/
def chainText : List Link → List Char → List Char
  | [], tail => tail
  | l :: ls, tail => l.pre ++ (l.op :: (l.post ++ (l.name ++ chainText ls tail)))

/-- The lines of a left-threaded chain: step `i` with destination `dsts[i]`
is the line `op dsts[i], left, reg(v_i)`, where `left` is the previous
destination (the argument `left` for the first step). -/
def chainLines (sym : SymTab) : Int → List Link → List Int → List String
  | left, l :: ls, d :: ds =>
    GenerateBinOp l.mnemonic d left (GetRegisterOfTheSymbol sym (l.name.take 127))
      :: chainLines sym d ls ds
  | _, _, _ => []

/-! ## Vocabulary for the statements about the encoder -/

/-- The assembly line `daddiu r<rt>, r<rs>, #<imm>` with the three numbers in
decimal, as `fprintf` with `%d` writes it (without the newline). -/
def daddiuLine (rt rs : Nat) (imm : Int) : List Char :=
  ("daddiu r" ++ toString rt ++ ", r" ++ toString rs ++ ", #" ++ toString imm).toList

/-- The value of a 16-bit field read as a two's-complement number. -/
def int16Value (u : Nat) : Int :=
  if u < 32768 then (u : Int) else (u : Int) - 65536

/-- The assembly line `<mnemonic> r<rd>, r<rs>, r<rt>` with the three numbers
in decimal, as `GenerateBinOp` writes it (without the newline). -/
def rTypeLine (mnemonic : String) (rd rs rt : Nat) : List Char :=
  (mnemonic ++ " r" ++ toString rd ++ ", r" ++ toString rs ++ ", r" ++ toString rt).toList

/-! ## Vocabulary for the statements about the tables and the analyzer -/

/-- The variable `temp_next` after `k` calls of `NewTempRegister` that
follow a reset of the pool. -/
def tempNextAfter : Nat → Int
  | 0 => temp_start
  | k + 1 => (NewTempRegister (tempNextAfter k)).2

/-- The symbol table of `sampleConfig` with all nineteen permanent
registers taken: `a` .. `s` bound to `r1` .. `r19`. -/
def fullTable : SymTab :=
  (allocateAll sampleConfig (SymbolInit sampleConfig)
    ("abcdefghijklmnopqrs".toList.map fun c => [c])).2

/-- The slots that registering `names` in order writes, from register `r`
upwards. -/
def entriesFrom : Int → List (List Char) → List SymEntry
  | _, [] => []
  | r, name :: names => { name := name, reg := r } :: entriesFrom (r + 1) names

/-- The inner loop of the sort seen on the list: `x` is `vars[i]`, the list
is `vars[i+1 ..]`.  The result is the final `vars[i]` and the final
`vars[i+1 ..]`: an element with a strictly larger count takes the place of
`x`, and `x` takes the place of that element. -/
def bubble : VarUsage → List VarUsage → VarUsage × List VarUsage
  | x, [] => (x, [])
  | x, y :: ys =>
    if y.count > x.count then ((bubble y ys).1, x :: (bubble y ys).2)
    else ((bubble x ys).1, y :: (bubble x ys).2)

/-- The outer loop of the sort seen on the list: `n` rounds of `bubble`,
each on the part after the previous heads. -/
def selSort : Nat → List VarUsage → List VarUsage
  | 0, l => l
  | _ + 1, [] => []
  | n + 1, x :: t => (bubble x t).1 :: selSort n (bubble x t).2

/-- The tokens that `CountVarsInExpression` passes to `AddVariableUsage`, in
order: the maximal runs of letters, digits and underscores (`token` is the
run being read). -/
def exprTokens : List Char → List Char → List (List Char)
  | [], token => if token ≠ [] then [token] else []
  | c :: expr, token =>
    if isalnum c || c = '_' then exprTokens expr (token ++ [c])
    else if token ≠ [] then token :: exprTokens expr []
    else exprTokens expr token

/-- All names that `AnalyzeVariableUsage` passes to `AddVariableUsage`, in
order: for each statement its `lhs` and then the tokens of its `rhs`. -/
def usageNames : List Statement → List (List Char)
  | [] => []
  | s :: stmts => (s.lhs :: exprTokens s.rhs []) ++ usageNames stmts

/-- Two statements in which `x` is referenced five times, `y` twice and
`_z1` once. -/
def usageSample : List Statement :=
  [{ type := StmtType.STMT_DECL, lhs := ['y'], rhs := "x + x*2 + _z1".toList, raw := [] },
   { type := StmtType.STMT_ASSIGN, lhs := ['x'], rhs := "x - (y + x) + 12".toList, raw := [] }]

/-- A name of 31 characters, the first 31 characters of `longName`. -/
def name31 : List Char := List.replicate 31 'v'

/-- Three statements in which `name31` occurs three times, `m` twice and
`longName` four times. -/
def usageLong : List Statement :=
  [{ type := StmtType.STMT_ASSIGN, lhs := name31, rhs := name31 ++ " + ".toList ++ name31,
     raw := [] },
   { type := StmtType.STMT_ASSIGN, lhs := ['m'],
     rhs := longName ++ " + ".toList ++ longName ++ " + ".toList ++ longName ++ " + ".toList
              ++ longName, raw := [] },
   { type := StmtType.STMT_ASSIGN, lhs := ['m'], rhs := ['0'], raw := [] }]

/-! ## Vocabulary for the statements about immediate operands, usage counts and termination -/

/-- The operand that `GenerateLoadImmediate` prints after the `#`, character
by character: `0x` and `%llX` of the value above 15, a minus sign and `%#llX`
of the negated value below -15, `%lld` otherwise. -/
def loadOperand (imm : Int) : List Char :=
  if imm > 15 then '0' :: 'x' :: (hexUpper imm.toNat).toList
  else if imm < -15 then
    '-' :: '0' :: 'X' :: (hexUpper ((wrap64 (-imm)) % 2 ^ 64).toNat).toList
  else (toString imm).toList

/-- The line that `GenerateLoadImmediate` prints for register `reg`, without
the newline at its end. -/
def loadLine (reg : Nat) (imm : Int) : List Char :=
  "daddiu".toList ++ (' ' :: (('r' :: Nat.toDigits 10 reg) ++ (',' :: ' ' ::
    (('r' :: Nat.toDigits 10 0) ++ (',' :: ' ' :: '#' :: loadOperand imm)))))

/-- Whether `AddVariableUsage` counts a name: it is not empty and its first
character is not a digit. -/
def isCounted : List Char → Bool
  | [] => false
  | c :: _ => !isdigit c

/-- The names of a list in the order in which each is first seen, after the
names already `seen`. -/
def firstSeen : List (List Char) → List (List Char) → List (List Char)
  | seen, [] => seen
  | seen, n :: ns => firstSeen (if n ∈ seen then seen else seen ++ [n]) ns

/-- The maximal runs of letters, digits and underscores of a text, in
order. -/
def identRuns (s : List Char) : List (List Char) :=
  (s.splitOnP fun c => !(isalnum c || c = '_')).filter fun t => t ≠ []

/-- The number of statements whose `lhs` is `name` plus the number of
maximal runs of letters, digits and underscores in the `rhs` texts that are
equal to `name`. -/
def occurrences (stmts : List Statement) (name : List Char) : Nat :=
  (stmts.filter fun s => s.lhs = name).length
    + (stmts.map fun s => (identRuns s.rhs).count name).sum

/-- The count of the first record named `name` (0 when there is none). -/
def countOf : List VarUsage → List Char → Int
  | [], _ => 0
  | v :: vs, name => if v.name = name then v.count else countOf vs name

/-- The text at which the loop of `Parse_E` stops: the end or `;`. -/
def stopsExpr : List Char → Bool
  | [] => true
  | c :: _ => c = ';'

/-- A parsing call on the text `p` returns: from `bound` units of fuel on it
gives one and the same result, the pointer of the result is a final part of
`p`, and the text there satisfies `stop`. -/
def ReturnsBy (call : Nat → Option ParseResult) (bound : Nat) (p : List Char)
    (stop : List Char → Bool) : Prop :=
  ∃ res : ParseResult,
    (∀ fuel, bound ≤ fuel → call fuel = some res) ∧ res.2.1 <:+ p ∧ stop res.2.1 = true

/-! ## Helper lemmas: the symbol table -/

/-- A lookup that finds nothing, in a table without the sentinel as a
register, means that no slot has the name. -/
theorem lookupSlots_eq_neg_one (t : List SymEntry) (name : List Char)
    (hwf : ∀ e ∈ t, e.reg ≠ -1) (h : lookupSlots t name = -1) : ∀ e ∈ t, e.name ≠ name := by
  induction t with
  | nil => intro e he; cases he
  | cons a t ih =>
    intro e he
    have ha : a.reg ≠ -1 := hwf a (List.mem_cons_self a t)
    have ht : ∀ e ∈ t, e.reg ≠ -1 := fun e he => hwf e (List.mem_cons_of_mem a he)
    unfold lookupSlots at h
    by_cases hn : a.name = name
    · rw [if_pos hn] at h
      exact absurd h ha
    · rw [if_neg hn] at h
      rcases List.mem_cons.mp he with rfl | he
      · exact hn
      · exact ih ht h e he

/-- Looking a name up after a slot was appended, when no earlier slot has
the name. -/
theorem lookupSlots_append_new (t : List SymEntry) (e : SymEntry) (name : List Char)
    (h : ∀ a ∈ t, a.name ≠ name) :
    lookupSlots (t ++ [e]) name = if e.name = name then e.reg else -1 := by
  induction t with
  | nil => rfl
  | cons a t ih =>
    have ha : a.name ≠ name := h a (List.mem_cons_self a t)
    have ht : ∀ b ∈ t, b.name ≠ name := fun b hb => h b (List.mem_cons_of_mem a hb)
    show lookupSlots (a :: (t ++ [e])) name = _
    unfold lookupSlots
    rw [if_neg ha]
    exact ih ht

/-- Every register of a reachable table, and its cursor, is at least
`REG_MIN`. -/
theorem Reachable.reg_ge (cfg : Config) (s : SymTab) (h : Reachable cfg s) :
    cfg.REG_MIN ≤ s.next_reg ∧ ∀ e ∈ s.table, cfg.REG_MIN ≤ e.reg := by
  induction h with
  | init => exact ⟨le_refl _, fun e he => by cases he⟩
  | alloc s name _ ih =>
    unfold AllocateRegisterForTheSymbol
    simp only
    split_ifs
    · exact ih
    · exact ih
    · exact ih
    · refine ⟨by have := ih.1; simp only; omega, ?_⟩
      intro e he
      rcases List.mem_append.mp he with he | he
      · exact ih.2 e he
      · rw [List.mem_singleton.mp he]
        exact ih.1

/-- With `REG_MIN ≥ 0` no slot of a reachable table holds the sentinel. -/
theorem Reachable.no_sentinel (cfg : Config) (hmin : 0 ≤ cfg.REG_MIN) (s : SymTab)
    (h : Reachable cfg s) : ∀ e ∈ s.table, e.reg ≠ -1 := by
  intro e he
  have := (Reachable.reg_ge cfg s h).2 e he
  omega

/-- Whatever the constants are, a name of `MAX_NAME_LEN` characters or more
gets a second register when it is allocated twice from an empty table. -/
theorem allocate_long_name_twice (cfg : Config) (name : List Char)
    (hreg : cfg.REG_MIN + 1 ≤ cfg.REG_MAX) (hsym : 2 ≤ cfg.MAX_SYMBOLS)
    (hname : 1 ≤ cfg.MAX_NAME_LEN) (hlen : cfg.MAX_NAME_LEN ≤ name.length) :
    (AllocateRegisterForTheSymbol cfg (SymbolInit cfg) name).1 = cfg.REG_MIN
      ∧ (AllocateRegisterForTheSymbol cfg
          (AllocateRegisterForTheSymbol cfg (SymbolInit cfg) name).2 name).1 = cfg.REG_MIN + 1 := by
  have hne : name.take (cfg.MAX_NAME_LEN - 1) ≠ name := by
    intro h
    have := congrArg List.length h
    rw [List.length_take] at this
    omega
  have h1 : AllocateRegisterForTheSymbol cfg (SymbolInit cfg) name
      = (cfg.REG_MIN, { table := [{ name := name.take (cfg.MAX_NAME_LEN - 1), reg := cfg.REG_MIN }],
                        next_reg := cfg.REG_MIN + 1 }) := by
    unfold AllocateRegisterForTheSymbol GetRegisterOfTheSymbol SymbolInit SymTab.symbol_count
    simp only [lookupSlots, List.length_nil, List.nil_append, ne_eq, not_true_eq_false, if_false]
    rw [if_neg (by omega), if_neg (by omega)]
  rw [h1]
  refine ⟨rfl, ?_⟩
  unfold AllocateRegisterForTheSymbol GetRegisterOfTheSymbol SymTab.symbol_count
  simp only [lookupSlots, if_neg hne, List.length_singleton, ne_eq, not_true_eq_false, if_false]
  rw [if_neg (by omega), if_neg (by omega)]

/-! ## Helper lemmas: bit fields as arithmetic -/

/-- A field below a shifted value is added by `|||`. -/
theorem or_field (a b k : Nat) (h : b < 2 ^ k) : (a * 2 ^ k) ||| b = a * 2 ^ k + b := by
  rw [Nat.mul_comm]
  exact (Nat.mul_add_lt_is_or h a).symm

/-- The mask `0x1F` keeps the value modulo 32. -/
theorem and_mask5 (x : Nat) : x &&& 0x1F = x % 32 := Nat.and_pow_two_sub_one_eq_mod x 5
/-- The mask `0x3F` keeps the value modulo 64. -/
theorem and_mask6 (x : Nat) : x &&& 0x3F = x % 64 := Nat.and_pow_two_sub_one_eq_mod x 6
/-- The mask `0xFFFF` keeps the value modulo 65536. -/
theorem and_mask16 (x : Nat) : x &&& 0xFFFF = x % 65536 := Nat.and_pow_two_sub_one_eq_mod x 16

/-- The R-type word as a sum of shifted fields. -/
theorem Encode_R_Type_eq (rs rt rd funct : Nat) (hrs : rs ≤ 31) (hrt : rt ≤ 31) (hrd : rd ≤ 31)
    (hf : funct < 64) :
    Encode_R_Type rs rt rd 0 funct = rs * 2 ^ 21 + rt * 2 ^ 16 + rd * 2 ^ 11 + funct := by
  unfold Encode_R_Type
  simp only [Nat.shiftLeft_eq, Nat.zero_mul, Nat.zero_or, Nat.or_zero]
  rw [or_field rs (rt * 2 ^ 16) 21 (by omega)]
  rw [show rs * 2 ^ 21 + rt * 2 ^ 16 = (rs * 32 + rt) * 2 ^ 16 by omega]
  rw [or_field _ (rd * 2 ^ 11) 16 (by omega)]
  rw [show (rs * 32 + rt) * 2 ^ 16 + rd * 2 ^ 11 = ((rs * 32 + rt) * 32 + rd) * 2 ^ 11 by omega]
  rw [or_field _ funct 11 (by omega)]
  omega

/-- The I-type word as a sum of shifted fields. -/
theorem Encode_I_Type_eq (opcode rs rt : Nat) (imm : Int) (hop : opcode < 64) (hrs : rs ≤ 31)
    (hrt : rt ≤ 31) :
    Encode_I_Type opcode rs rt imm
      = opcode * 2 ^ 26 + rs * 2 ^ 21 + rt * 2 ^ 16 + (imm % 2 ^ 16).toNat := by
  unfold Encode_I_Type toU16
  have hu : (imm % 65536).toNat < 65536 := by omega
  have h16 : (imm % 2 ^ 16) = imm % 65536 := by norm_num
  rw [h16, and_mask16, Nat.mod_eq_of_lt hu]
  generalize (imm % 65536).toNat = u at hu
  simp only [Nat.shiftLeft_eq]
  rw [or_field opcode (rs * 2 ^ 21) 26 (by omega)]
  rw [show opcode * 2 ^ 26 + rs * 2 ^ 21 = (opcode * 32 + rs) * 2 ^ 21 by omega]
  rw [or_field _ (rt * 2 ^ 16) 21 (by omega)]
  rw [show (opcode * 32 + rs) * 2 ^ 21 + rt * 2 ^ 16 = ((opcode * 32 + rs) * 32 + rt) * 2 ^ 16 by omega]
  rw [or_field _ u 16 (by omega)]
  omega

/-- The extracted fields as quotients and remainders. -/
theorem extractFields_eq (code : Nat) :
    extractFields code =
      { opcode := code / 2 ^ 26 % 64, rs := code / 2 ^ 21 % 32, rt := code / 2 ^ 16 % 32,
        rd := code / 2 ^ 11 % 32, shamt := code / 2 ^ 6 % 32, funct := code % 64,
        imm := code % 65536 } := by
  unfold extractFields
  simp only [Nat.shiftRight_eq_div_pow, and_mask5, and_mask6, and_mask16]

/-! ## Helper lemmas: the expression compiler -/

/-- Leading whitespace is skipped. -/
theorem SkipSpacesPtr_append_ws (ws rest : List Char) (h : ∀ c ∈ ws, isspace c = true) :
    SkipSpacesPtr (ws ++ rest) = SkipSpacesPtr rest := by
  induction ws with
  | nil => rfl
  | cons w ws ih =>
    have hw : isspace w = true := h w (List.mem_cons_self w ws)
    have hstep : SkipSpacesPtr (w :: (ws ++ rest))
        = if isspace w then SkipSpacesPtr (ws ++ rest) else w :: (ws ++ rest) := rfl
    rw [List.cons_append, hstep, if_pos hw]
    exact ih fun c hc => h c (List.mem_cons_of_mem w hc)

/-- Nothing is skipped before a character that is not whitespace. -/
theorem SkipSpacesPtr_cons (c : Char) (cs : List Char) (h : isspace c = false) :
    SkipSpacesPtr (c :: cs) = c :: cs := by
  unfold SkipSpacesPtr
  simp [h]

/-- A run of whitespace is skipped to the end. -/
theorem SkipSpacesPtr_ws (ws : List Char) (h : ∀ c ∈ ws, isspace c = true) :
    SkipSpacesPtr ws = [] := by
  have := SkipSpacesPtr_append_ws ws [] h
  rwa [List.append_nil] at this

/-- The code points of `isalpha`. -/
theorem isalpha_toNat (c : Char) (h : isalpha c = true) :
    (65 ≤ c.toNat ∧ c.toNat ≤ 90) ∨ (97 ≤ c.toNat ∧ c.toNat ≤ 122) := by
  simpa [isalpha] using h

/-- The code points of `isdigit`. -/
theorem isdigit_toNat (c : Char) (h : isdigit c = true) : 48 ≤ c.toNat ∧ c.toNat ≤ 57 := by
  simpa [isdigit] using h

/-- The code points of `isspace`. -/
theorem isspace_toNat (c : Char) (h : isspace c = true) :
    c.toNat = 32 ∨ (9 ≤ c.toNat ∧ c.toNat ≤ 13) := by
  simpa [isspace] using h

/-- No character above the space is whitespace. -/
theorem isspace_false_of_toNat (c : Char) (h : 32 < c.toNat) : isspace c = false := by
  cases hs : isspace c
  · rfl
  · have := isspace_toNat c hs
    omega

/-- No character below `0` is a letter or digit. -/
theorem isalnum_false_of_toNat (c : Char) (h : c.toNat < 48) : isalnum c = false := by
  cases hs : isalnum c
  · rfl
  · simp only [isalnum, Bool.or_eq_true] at hs
    rcases hs with hs | hs
    · have := isalpha_toNat c hs
      omega
    · have := isdigit_toNat c hs
      omega

/-- The digit loop reads a run of digits up to the text that follows it. -/
theorem readDigits_append (ds rest : List Char) (hds : ∀ c ∈ ds, isdigit c = true)
    (hrest : endsToken rest = true) (val : Int) :
    readDigits val (ds ++ rest) = ((readDigits val ds).1, rest) := by
  induction ds generalizing val with
  | nil =>
    cases rest with
    | nil => rfl
    | cons c cs =>
      have hc : isdigit c = false := by
        simp only [endsToken, isalnum, Bool.not_eq_true', Bool.or_eq_false_iff] at hrest
        exact hrest.1.2
      simp [readDigits, hc]
  | cons d ds ih =>
    have hd : isdigit d = true := hds d (List.mem_cons_self d ds)
    have hstep : ∀ l, readDigits val (d :: l)
        = if isdigit d then readDigits (wrap64 (val * 10 + ((d.toNat : Int) - 48))) l
          else (val, d :: l) := fun _ => rfl
    rw [List.cons_append, hstep, hstep, if_pos hd, if_pos hd]
    exact ih (fun c hc => hds c (List.mem_cons_of_mem d hc)) _

/-- The name loop reads an identifier up to the text that follows it and keeps its first 127 characters. -/
theorem readName_append (name rest : List Char) (hname : ∀ c ∈ name, isIdentChar c = true)
    (hrest : endsToken rest = true) (acc : List Char) (hacc : acc.length ≤ 127) :
    readName acc (name ++ rest) = ((acc ++ name).take 127, rest) := by
  induction name generalizing acc with
  | nil =>
    have htake : (acc ++ []).take 127 = acc := by
      rw [List.append_nil]; exact List.take_of_length_le hacc
    rw [htake]
    cases rest with
    | nil => rfl
    | cons c cs =>
      have hc : (isalnum c || decide (c = '_')) = false := by
        simpa [endsToken] using hrest
      show readName acc (c :: cs) = _
      unfold readName
      simp [hc]
  | cons d name ih =>
    have hd : (isalnum d || decide (d = '_')) = true := hname d (List.mem_cons_self d name)
    have hstep : readName acc (d :: (name ++ rest))
        = if isalnum d || d = '_' then
            readName (if acc.length < 127 then acc ++ [d] else acc) (name ++ rest)
          else (acc, d :: (name ++ rest)) := rfl
    rw [List.cons_append, hstep, if_pos hd]
    have hn : ∀ c ∈ name, isIdentChar c = true := fun c hc => hname c (List.mem_cons_of_mem d hc)
    by_cases hlt : acc.length < 127
    · rw [if_pos hlt, ih hn (acc ++ [d]) (by rw [List.length_append, List.length_singleton]; omega)]
      simp
    · rw [if_neg hlt, ih hn acc hacc]
      have h127 : acc.length = 127 := by omega
      have h1 : (acc ++ name).take 127 = acc := by
        rw [List.take_append_of_le_length (by omega)]
        exact List.take_of_length_le (by omega)
      have h2 : (acc ++ d :: name).take 127 = acc := by
        rw [List.take_append_of_le_length (by omega)]
        exact List.take_of_length_le (by omega)
      rw [h1, h2]

/-- On a literal or a bound variable `Parse_F` returns what `Operand.run` describes and stops right after the operand. -/
theorem Parse_F_operand (cfg : Config) (fuel : Nat) (o : Operand) (p rest : List Char)
    (st : CompState) (hp : SkipSpacesPtr p = o.text ++ rest) (hok : o.ok st.sym = true)
    (hrest : endsToken rest = true) :
    Parse_F cfg (fuel + 1) p st = some ((o.run st).1, rest, (o.run st).2) := by
  have hunf : Parse_F cfg (fuel + 1) p st =
    match SkipSpacesPtr p with
    | [] => some (0, [], st)
    | c :: cs =>
      if c = '(' then
        match Parse_E cfg fuel cs st with
        | none => none
        | some (r, p1, st1) =>
          match SkipSpacesPtr p1 with
          | [] => some (r, [], st1)
          | d :: ds => if d = ')' then some (r, ds, st1) else some (r, d :: ds, st1)
      else if isdigit c then
        let (val, p1) := readDigits 0 (c :: cs)
        let (r, tn) := NewTempRegister st.temp_next
        let r := if r = -1 then temp_start else r
        some (r, p1, { st with temp_next := tn, out := st.out ++ [GenerateLoadImmediate r val] })
      else if isalpha c || c = '_' then
        let (name, p1) := readName [] (c :: cs)
        let reg := GetRegisterOfTheSymbol st.sym name
        if reg = -1 then
          let (reg, sym) := AllocateRegisterForTheSymbol cfg st.sym name
          some (reg, p1, { st with sym := sym })
        else some (reg, p1, st)
      else some (0, c :: cs, st) := rfl
  rw [hunf, hp]
  cases o with
  | lit ds =>
    cases ds with
    | nil => simp [Operand.ok] at hok
    | cons d ds =>
      simp only [Operand.ok, List.isEmpty_cons, Bool.not_false, Bool.true_and, List.all_eq_true]
        at hok
      have hd : isdigit d = true := hok d (List.mem_cons_self d ds)
      have hd' := isdigit_toNat d hd
      have hparen : d ≠ '(' := by
        rintro rfl
        revert hd; decide
      have hrd := readDigits_append (d :: ds) rest hok hrest 0
      simp only [Operand.text, List.cons_append] at hrd ⊢
      simp only [if_neg hparen, hd, if_true, hrd, Operand.run]
  | var n =>
    cases n with
    | nil => simp [Operand.ok, isIdent] at hok
    | cons c cs =>
      simp only [Operand.ok, isIdent, Bool.and_eq_true, List.all_eq_true,
        decide_eq_true_eq] at hok
      obtain ⟨⟨hc, hcs⟩, hb⟩ := hok
      have hparen : c ≠ '(' := by
        rintro rfl
        revert hc; decide
      have hnd : isdigit c = false := by
        cases hdg : isdigit c
        · rfl
        · have h1 := isdigit_toNat c hdg
          rcases Bool.or_eq_true _ _ ▸ hc with h | h
          · have := isalpha_toNat c h; omega
          · have : c = '_' := of_decide_eq_true h
            subst this
            revert hdg; decide
      have hall : ∀ x ∈ c :: cs, isIdentChar x = true := by
        intro x hx
        rcases List.mem_cons.mp hx with rfl | hx
        · unfold isIdentChar isalnum
          rcases Bool.or_eq_true _ _ ▸ hc with h | h
          · simp [h]
          · simp [h]
        · exact hcs x hx
      have hrn := readName_append (c :: cs) rest hall hrest [] (by simp)
      simp only [List.nil_append, List.cons_append] at hrn
      simp only [Operand.text, List.cons_append, if_neg hparen, hnd, hc, if_true, hrn,
        Operand.run, if_neg hb, Bool.false_eq_true, if_false]

/-- Skipping whitespace twice is skipping it once. -/
theorem SkipSpacesPtr_idem (p : List Char) : SkipSpacesPtr (SkipSpacesPtr p) = SkipSpacesPtr p := by
  induction p with
  | nil => rfl
  | cons c cs ih =>
    have hstep : SkipSpacesPtr (c :: cs) = if isspace c then SkipSpacesPtr cs else c :: cs := rfl
    by_cases hc : isspace c = true
    · rw [hstep, if_pos hc]; exact ih
    · rw [hstep, if_neg hc, hstep, if_neg hc]

/-- Reading an operand leaves the symbol table alone. -/
theorem Operand.run_sym (o : Operand) (st : CompState) : (o.run st).2.sym = st.sym := by
  cases o <;> rfl

/-- An operand does not start with whitespace. -/
theorem Operand.text_skip (o : Operand) (sym : SymTab) (rest : List Char)
    (hok : o.ok sym = true) : SkipSpacesPtr (o.text ++ rest) = o.text ++ rest := by
  cases o with
  | lit ds =>
    cases ds with
    | nil => simp [Operand.ok] at hok
    | cons d ds =>
      simp only [Operand.ok, List.isEmpty_cons, Bool.not_false, Bool.true_and, List.all_eq_true]
        at hok
      have hd := isdigit_toNat d (hok d (List.mem_cons_self d ds))
      exact SkipSpacesPtr_cons d _ (isspace_false_of_toNat d (by omega))
  | var n =>
    cases n with
    | nil => simp [Operand.ok, isIdent] at hok
    | cons c cs =>
      simp only [Operand.ok, isIdent, Bool.and_eq_true, List.all_eq_true,
        decide_eq_true_eq] at hok
      obtain ⟨⟨hc, -⟩, -⟩ := hok
      refine SkipSpacesPtr_cons c _ (isspace_false_of_toNat c ?_)
      rcases Bool.or_eq_true _ _ ▸ hc with h | h
      · have := isalpha_toNat c h; omega
      · have : c = '_' := of_decide_eq_true h
        subst this
        decide

/-- Whitespace ends a token. -/
theorem endsToken_ws_append (ws tail : List Char) (hws : ∀ c ∈ ws, isspace c = true)
    (htail : endsToken tail = true) : endsToken (ws ++ tail) = true := by
  cases ws with
  | nil => exact htail
  | cons w ws =>
    have hw := isspace_toNat w (hws w (List.mem_cons_self w ws))
    have h1 : isalnum w = false := isalnum_false_of_toNat w (by omega)
    have h2 : w ≠ '_' := by
      rintro rfl
      revert hw; decide
    simp [endsToken, h1, h2]

/-- The loop of `Parse_T` returns at the end of the text and at `+`, `-`, `;`. -/
theorem Parse_T_loop_stop (cfg : Config) (fuel : Nat) (left : Int) (p : List Char)
    (st : CompState) (hstop : stopsTerm (SkipSpacesPtr p) = true) :
    Parse_T_loop cfg (fuel + 1) left p st = some (left, SkipSpacesPtr p, st) := by
  have hunf : Parse_T_loop cfg (fuel + 1) left p st =
    match SkipSpacesPtr p with
    | [] => some (left, [], st)
    | c :: cs =>
      if c = '*' then
        match Parse_F cfg fuel (SkipSpacesPtr cs) st with
        | none => none
        | some (right, p1, st1) =>
          let (dst, st2) := emitBinOp "dmul" left right st1
          Parse_T_loop cfg fuel dst p1 st2
      else if c = '/' then
        match Parse_F cfg fuel (SkipSpacesPtr cs) st with
        | none => none
        | some (right, p1, st1) =>
          let (dst, st2) := emitBinOp "ddiv" left right st1
          Parse_T_loop cfg fuel dst p1 st2
      else if c = '+' || c = '-' || c = ';' then some (left, c :: cs, st)
      else Parse_T_loop cfg fuel left cs st := rfl
  rw [hunf]
  cases hq : SkipSpacesPtr p with
  | nil => rfl
  | cons c cs =>
    rw [hq] at hstop
    have hc : (decide (c = '+') || decide (c = '-') || decide (c = ';')) = true := hstop
    have h1 : c ≠ '*' := by
      rintro rfl
      revert hc; decide
    have h2 : c ≠ '/' := by
      rintro rfl
      revert hc; decide
    simp only [if_neg h1, if_neg h2, hc, if_true]

/-- The multiplication branch of the loop of `Parse_T`. -/
theorem Parse_T_loop_mul (cfg : Config) (fuel : Nat) (left : Int) (p cs : List Char)
    (st : CompState) (hp : SkipSpacesPtr p = '*' :: cs) :
    Parse_T_loop cfg (fuel + 1) left p st =
      match Parse_F cfg fuel (SkipSpacesPtr cs) st with
      | none => none
      | some (right, p1, st1) =>
        Parse_T_loop cfg fuel (emitBinOp "dmul" left right st1).1 p1
          (emitBinOp "dmul" left right st1).2 := by
  have hunf : Parse_T_loop cfg (fuel + 1) left p st =
    match SkipSpacesPtr p with
    | [] => some (left, [], st)
    | c :: cs =>
      if c = '*' then
        match Parse_F cfg fuel (SkipSpacesPtr cs) st with
        | none => none
        | some (right, p1, st1) =>
          let (dst, st2) := emitBinOp "dmul" left right st1
          Parse_T_loop cfg fuel dst p1 st2
      else if c = '/' then
        match Parse_F cfg fuel (SkipSpacesPtr cs) st with
        | none => none
        | some (right, p1, st1) =>
          let (dst, st2) := emitBinOp "ddiv" left right st1
          Parse_T_loop cfg fuel dst p1 st2
      else if c = '+' || c = '-' || c = ';' then some (left, c :: cs, st)
      else Parse_T_loop cfg fuel left cs st := rfl
  rw [hunf, hp]
  simp only [if_true]

/-- A single operand followed by `+`, `-`, `;` or the end is a whole term. -/
theorem Parse_T_operand (cfg : Config) (fuel : Nat) (o : Operand) (p rest : List Char)
    (st : CompState) (hp : SkipSpacesPtr p = o.text ++ rest) (hok : o.ok st.sym = true)
    (hrest : endsToken rest = true) (hstop : stopsTerm (SkipSpacesPtr rest) = true) :
    Parse_T cfg (fuel + 2) p st = some ((o.run st).1, SkipSpacesPtr rest, (o.run st).2) := by
  have hunf : Parse_T cfg (fuel + 2) p st =
    match Parse_F cfg (fuel + 1) p st with
    | none => none
    | some (left, p1, st1) => Parse_T_loop cfg (fuel + 1) left p1 st1 := rfl
  rw [hunf, Parse_F_operand cfg fuel o p rest st hp hok hrest]
  exact Parse_T_loop_stop cfg fuel _ rest _ hstop

/-- One iteration of the loop of `Parse_E`. -/
theorem Parse_E_loop_unfold (cfg : Config) (fuel : Nat) (left : Int) (p : List Char)
    (st : CompState) :
    Parse_E_loop cfg (fuel + 1) left p st =
      match SkipSpacesPtr p with
      | [] => some (left, [], st)
      | c :: cs =>
        if c = '+' then
          match Parse_T cfg fuel (SkipSpacesPtr cs) st with
          | none => none
          | some (right, p1, st1) =>
            Parse_E_loop cfg fuel (emitBinOp "daddu" left right st1).1 p1
              (emitBinOp "daddu" left right st1).2
        else if c = '-' then
          match Parse_T cfg fuel (SkipSpacesPtr cs) (AssemblyInit st) with
          | none => none
          | some (right, p1, st1) =>
            Parse_E_loop cfg fuel (emitBinOp "dsubu" left right st1).1 p1
              (emitBinOp "dsubu" left right st1).2
        else if c = ';' then some (left, c :: cs, st)
        else Parse_E_loop cfg fuel left cs st := rfl

/-- The loop of `Parse_E` starts by skipping whitespace. -/
theorem Parse_E_loop_skip (cfg : Config) (fuel : Nat) (left : Int) (p : List Char)
    (st : CompState) :
    Parse_E_loop cfg fuel left (SkipSpacesPtr p) st = Parse_E_loop cfg fuel left p st := by
  cases fuel with
  | zero => rfl
  | succ n => rw [Parse_E_loop_unfold, Parse_E_loop_unfold, SkipSpacesPtr_idem]

/-- The function `Parse_E` is one term and then its loop. -/
theorem Parse_E_unfold (cfg : Config) (fuel : Nat) (p : List Char) (st : CompState) :
    Parse_E cfg (fuel + 1) p st =
      match Parse_T cfg fuel p st with
      | none => none
      | some (left, p1, st1) => Parse_E_loop cfg fuel left p1 st1 := rfl

/-- The text of a chain starts, after whitespace, with an operator or is at its end. -/
theorem chainText_ends (ls : List Link) (tail : List Char) (sym : SymTab)
    (hls : ∀ l ∈ ls, l.ok sym = true) (htail : ∀ c ∈ tail, isspace c = true) :
    endsToken (chainText ls tail) = true ∧ stopsTerm (SkipSpacesPtr (chainText ls tail)) = true := by
  cases ls with
  | nil =>
    constructor
    · have := endsToken_ws_append tail [] htail rfl
      rwa [List.append_nil] at this
    · show stopsTerm (SkipSpacesPtr tail) = true
      rw [SkipSpacesPtr_ws tail htail]; rfl
  | cons l ls =>
    have hl := hls l (List.mem_cons_self l ls)
    simp only [Link.ok, Bool.and_eq_true, List.all_eq_true, Bool.or_eq_true,
      decide_eq_true_eq] at hl
    obtain ⟨⟨⟨hpre, -⟩, hop⟩, -⟩ := hl
    have hsp : isspace l.op = false := by
      rcases hop with h | h <;> rw [h] <;> decide
    have hend : endsToken (l.op :: (l.post ++ (l.name ++ chainText ls tail))) = true := by
      rcases hop with h | h <;> rw [h] <;> rfl
    constructor
    · exact endsToken_ws_append _ _ hpre hend
    · show stopsTerm (SkipSpacesPtr (l.pre ++ (l.op :: (l.post ++ (l.name ++ chainText ls tail)))))
        = true
      rw [SkipSpacesPtr_append_ws _ _ hpre, SkipSpacesPtr_cons _ _ hsp]
      rcases hop with h | h <;> rw [h] <;> rfl

/-- What `emitBinOp` writes. -/
theorem emitBinOp_out (m : String) (left right : Int) (st : CompState) :
    (emitBinOp m left right st).2.out
      = st.out ++ [GenerateBinOp m (emitBinOp m left right st).1 left right] := rfl

/-- The symbol table is not touched by `emitBinOp`. -/
theorem emitBinOp_sym (m : String) (left right : Int) (st : CompState) :
    (emitBinOp m left right st).2.sym = st.sym := rfl

/-- The loop of `Parse_E` on the steps of a chain, from any running register. -/
theorem Parse_E_loop_chain (cfg : Config) (tail : List Char)
    (htail : ∀ c ∈ tail, isspace c = true) (ls : List Link) :
    ∀ (fuel : Nat) (left : Int) (st : CompState), (∀ l ∈ ls, l.ok st.sym = true) →
      ls.length + 2 ≤ fuel →
      ∃ (dsts : List Int) (st' : CompState), dsts.length = ls.length
        ∧ Parse_E_loop cfg fuel left (chainText ls tail) st = some (dsts.getLastD left, [], st')
        ∧ st'.out = st.out ++ chainLines st.sym left ls dsts
        ∧ st'.sym = st.sym := by
  induction ls with
  | nil =>
    intro fuel left st _ hfuel
    obtain ⟨n, rfl⟩ : ∃ n, fuel = n + 1 := ⟨fuel - 1, by simp at hfuel; omega⟩
    refine ⟨[], st, rfl, ?_, by simp [chainLines], rfl⟩
    rw [Parse_E_loop_unfold]
    show (match SkipSpacesPtr tail with
      | [] => some (left, [], st)
      | c :: cs => _) = _
    rw [SkipSpacesPtr_ws tail htail]
    rfl
  | cons l ls ih =>
    intro fuel left st hok hfuel
    obtain ⟨n, rfl⟩ : ∃ n, fuel = n + 3 := ⟨fuel - 3, by simp at hfuel; omega⟩
    have hl := hok l (List.mem_cons_self l ls)
    have hls : ∀ a ∈ ls, a.ok st.sym = true := fun a ha => hok a (List.mem_cons_of_mem l ha)
    have hl' := hl
    simp only [Link.ok, Bool.and_eq_true, List.all_eq_true, Bool.or_eq_true,
      decide_eq_true_eq] at hl'
    obtain ⟨⟨⟨hpre, hpost⟩, hop⟩, hvar⟩ := hl'
    obtain ⟨hends, hstops⟩ := chainText_ends ls tail st.sym hls htail
    have hsp : isspace l.op = false := by
      rcases hop with h | h <;> rw [h] <;> decide
    have hskip : SkipSpacesPtr (chainText (l :: ls) tail)
        = l.op :: (l.post ++ (l.name ++ chainText ls tail)) := by
      show SkipSpacesPtr (l.pre ++ (l.op :: (l.post ++ (l.name ++ chainText ls tail)))) = _
      rw [SkipSpacesPtr_append_ws _ _ hpre, SkipSpacesPtr_cons _ _ hsp]
    -- the right operand, read by `Parse_T` in the state `s`
    have hT : ∀ s : CompState, s.sym = st.sym →
        Parse_T cfg (n + 2) (SkipSpacesPtr (l.post ++ (l.name ++ chainText ls tail))) s
          = some (GetRegisterOfTheSymbol st.sym (l.name.take 127),
                  SkipSpacesPtr (chainText ls tail), s) := by
      intro s hs
      have := Parse_T_operand cfg n (Operand.var l.name)
        (SkipSpacesPtr (l.post ++ (l.name ++ chainText ls tail))) (chainText ls tail) s
        (by rw [SkipSpacesPtr_idem, SkipSpacesPtr_append_ws _ _ hpost]
            exact Operand.text_skip (Operand.var l.name) st.sym _ hvar)
        (by rw [hs]; exact hvar) hends hstops
      rw [this]
      simp only [Operand.run, hs]
    -- one iteration of the loop, then the rest of the chain
    have hstep : ∀ (s : CompState) (m : String), s.sym = st.sym → s.out = st.out →
        m = l.mnemonic →
        ∃ (dsts : List Int) (st' : CompState), dsts.length = (l :: ls).length
          ∧ Parse_E_loop cfg (n + 2)
              (emitBinOp m left (GetRegisterOfTheSymbol st.sym (l.name.take 127)) s).1
              (SkipSpacesPtr (chainText ls tail))
              (emitBinOp m left (GetRegisterOfTheSymbol st.sym (l.name.take 127)) s).2
            = some (dsts.getLastD left, [], st')
          ∧ st'.out = st.out ++ chainLines st.sym left (l :: ls) dsts
          ∧ st'.sym = st.sym := by
      intro s m hs ho hm
      obtain ⟨dsts, st', hlen, hrun, hout, hsym⟩ := ih (n + 2)
        (emitBinOp m left (GetRegisterOfTheSymbol st.sym (l.name.take 127)) s).1
        (emitBinOp m left (GetRegisterOfTheSymbol st.sym (l.name.take 127)) s).2
        (by rw [emitBinOp_sym, hs]; exact hls)
        (by simp at hfuel ⊢; omega)
      refine ⟨(emitBinOp m left (GetRegisterOfTheSymbol st.sym (l.name.take 127)) s).1 :: dsts,
        st', by simp [hlen], ?_, ?_, ?_⟩
      · rw [Parse_E_loop_skip, hrun, List.getLastD_cons]
      · rw [hout, emitBinOp_out, emitBinOp_sym, hs, ho, hm]
        simp [chainLines]
      · rw [hsym, emitBinOp_sym, hs]
    rw [Parse_E_loop_unfold, hskip]
    rcases hop with h | h
    · obtain ⟨dsts, st', h1, h2, h3, h4⟩ := hstep st "daddu" rfl rfl (by simp [Link.mnemonic, h])
      refine ⟨dsts, st', h1, ?_, h3, h4⟩
      simp only [h, if_true]
      rw [hT st rfl]
      exact h2
    · obtain ⟨dsts, st', h1, h2, h3, h4⟩ := hstep (AssemblyInit st) "dsubu" rfl rfl
        (by simp [Link.mnemonic, h])
      refine ⟨dsts, st', h1, ?_, h3, h4⟩
      have hne : ¬ ('-' = '+') := by decide
      simp only [h, if_neg hne, if_true]
      rw [hT (AssemblyInit st) rfl]
      exact h2

/-- A chain of `n` steps has `n` lines. -/
theorem chainLines_length (sym : SymTab) (ls : List Link) :
    ∀ (left : Int) (dsts : List Int), dsts.length = ls.length →
      (chainLines sym left ls dsts).length = ls.length := by
  induction ls with
  | nil => intro left dsts _; cases dsts <;> rfl
  | cons l ls ih =>
    intro left dsts h
    cases dsts with
    | nil => simp at h
    | cons d ds =>
      simp only [chainLines, List.length_cons]
      rw [ih d ds (by simpa using h)]

/-- The nested form of the result of `x + y * z`. -/
theorem Parse_E_sum_product (cfg : Config) (fuel : Nat) (x y z : Operand)
    (ws0 ws1 ws2 ws3 ws4 ws5 : List Char) (st : CompState)
    (hx : x.ok st.sym = true) (hy : y.ok st.sym = true) (hz : z.ok st.sym = true)
    (hws : ∀ c ∈ ws0 ++ ws1 ++ ws2 ++ ws3 ++ ws4 ++ ws5, isspace c = true) :
    Parse_E cfg (fuel + 5)
        (ws0 ++ (x.text ++ (ws1 ++ ('+' :: (ws2 ++ (y.text ++ (ws3 ++ ('*' :: (ws4 ++
          (z.text ++ ws5)))))))))) st
      = some
          ((emitBinOp "daddu" (x.run st).1
              (emitBinOp "dmul" (y.run (x.run st).2).1 (z.run (y.run (x.run st).2).2).1
                (z.run (y.run (x.run st).2).2).2).1
              (emitBinOp "dmul" (y.run (x.run st).2).1 (z.run (y.run (x.run st).2).2).1
                (z.run (y.run (x.run st).2).2).2).2).1,
           [],
           (emitBinOp "daddu" (x.run st).1
              (emitBinOp "dmul" (y.run (x.run st).2).1 (z.run (y.run (x.run st).2).2).1
                (z.run (y.run (x.run st).2).2).2).1
              (emitBinOp "dmul" (y.run (x.run st).2).1 (z.run (y.run (x.run st).2).2).1
                (z.run (y.run (x.run st).2).2).2).2).2) := by
  have h0 : ∀ c ∈ ws0, isspace c = true := fun c hc => hws c (by simp [hc])
  have h1 : ∀ c ∈ ws1, isspace c = true := fun c hc => hws c (by simp [hc])
  have h2 : ∀ c ∈ ws2, isspace c = true := fun c hc => hws c (by simp [hc])
  have h3 : ∀ c ∈ ws3, isspace c = true := fun c hc => hws c (by simp [hc])
  have h4 : ∀ c ∈ ws4, isspace c = true := fun c hc => hws c (by simp [hc])
  have h5 : ∀ c ∈ ws5, isspace c = true := fun c hc => hws c (by simp [hc])
  have hy1 : y.ok (x.run st).2.sym = true := by rw [Operand.run_sym]; exact hy
  have hz2 : z.ok (y.run (x.run st).2).2.sym = true := by
    rw [Operand.run_sym, Operand.run_sym]; exact hz
  have hplus : ∀ l, SkipSpacesPtr ('+' :: l) = '+' :: l :=
    fun l => SkipSpacesPtr_cons '+' l (by decide)
  have hstar : ∀ l, SkipSpacesPtr ('*' :: l) = '*' :: l :=
    fun l => SkipSpacesPtr_cons '*' l (by decide)
  -- the first term is the operand `x`
  rw [Parse_E_unfold,
    Parse_T_operand cfg (fuel + 2) x _ (ws1 ++ ('+' :: (ws2 ++ (y.text ++ (ws3 ++ ('*' :: (ws4 ++
      (z.text ++ ws5)))))))) st
      (by rw [SkipSpacesPtr_append_ws _ _ h0, Operand.text_skip x st.sym _ hx]) hx
      (endsToken_ws_append _ _ h1 (by rfl))
      (by rw [SkipSpacesPtr_append_ws _ _ h1, hplus]; rfl)]
  simp only
  rw [SkipSpacesPtr_append_ws _ _ h1, hplus, Parse_E_loop_unfold, hplus]
  simp only [if_true]
  -- the second term is the product `y * z`
  have hT : Parse_T cfg (fuel + 3)
      (SkipSpacesPtr (ws2 ++ (y.text ++ (ws3 ++ ('*' :: (ws4 ++ (z.text ++ ws5)))))))
      (x.run st).2
      = some ((emitBinOp "dmul" (y.run (x.run st).2).1 (z.run (y.run (x.run st).2).2).1
                (z.run (y.run (x.run st).2).2).2).1, [],
              (emitBinOp "dmul" (y.run (x.run st).2).1 (z.run (y.run (x.run st).2).2).1
                (z.run (y.run (x.run st).2).2).2).2) := by
    have hunf : ∀ p s, Parse_T cfg (fuel + 3) p s =
      match Parse_F cfg (fuel + 2) p s with
      | none => none
      | some (left, p1, st1) => Parse_T_loop cfg (fuel + 2) left p1 st1 := fun _ _ => rfl
    rw [hunf, Parse_F_operand cfg (fuel + 1) y _ (ws3 ++ ('*' :: (ws4 ++ (z.text ++ ws5))))
      (x.run st).2
      (by rw [SkipSpacesPtr_idem, SkipSpacesPtr_append_ws _ _ h2,
            Operand.text_skip y _ _ hy1]) hy1
      (endsToken_ws_append _ _ h3 (by rfl))]
    simp only
    rw [Parse_T_loop_mul cfg (fuel + 1) _ _ (ws4 ++ (z.text ++ ws5)) _
      (by rw [SkipSpacesPtr_append_ws _ _ h3, hstar]),
      Parse_F_operand cfg fuel z _ ws5 (y.run (x.run st).2).2
        (by rw [SkipSpacesPtr_idem, SkipSpacesPtr_append_ws _ _ h4,
              Operand.text_skip z _ _ hz2]) hz2
        (by have := endsToken_ws_append ws5 [] h5 rfl; rwa [List.append_nil] at this)]
    simp only
    rw [Parse_T_loop_stop cfg fuel _ ws5 _ (by rw [SkipSpacesPtr_ws ws5 h5]; rfl),
      SkipSpacesPtr_ws ws5 h5]
  rw [hT]
  simp only
  rw [Parse_E_loop_unfold]
  rfl

/-! ## Helper lemmas: numbers printed and read back -/

/-- The decimal digit characters are read back as their values. -/
theorem digitVal_digitChar : ∀ d : Fin 10, digitVal (Nat.digitChar d.val) = some d.val
    ∧ isdigit (Nat.digitChar d.val) = true ∧ (d.val ≠ 0 → Nat.digitChar d.val ≠ '0') := by
  decide

/-- The digits that `%d` prints for a natural number are read back, in base
ten, as that number; the first is a digit and is not `0` unless the number
is zero. -/
theorem toDigitsCore_scan (fuel : Nat) :
    ∀ (n : Nat) (ds : List Char), n < fuel →
      ∃ (c : Char) (pre : List Char), Nat.toDigitsCore 10 fuel n ds = c :: (pre ++ ds)
        ∧ isdigit c = true ∧ (n ≠ 0 → c ≠ '0')
        ∧ ∀ (acc : Nat) (rest : List Char),
            scanDigits 10 acc (c :: (pre ++ rest))
              = scanDigits 10 (acc * 10 ^ (pre.length + 1) + n) rest := by
  induction fuel with
  | zero => intro n ds h; omega
  | succ fuel ih =>
    intro n ds h
    have hunf : Nat.toDigitsCore 10 (fuel + 1) n ds =
        if n / 10 = 0 then Nat.digitChar (n % 10) :: ds
        else Nat.toDigitsCore 10 fuel (n / 10) (Nat.digitChar (n % 10) :: ds) := rfl
    have hd := digitVal_digitChar ⟨n % 10, Nat.mod_lt n (by decide)⟩
    simp only at hd
    obtain ⟨hval, hdig, hnz⟩ := hd
    have hone : ∀ (acc : Nat) (rest : List Char),
        scanDigits 10 acc (Nat.digitChar (n % 10) :: rest)
          = scanDigits 10 (acc * 10 + n % 10) rest := by
      intro acc rest
      have hstep : scanDigits 10 acc (Nat.digitChar (n % 10) :: rest) =
        match digitVal (Nat.digitChar (n % 10)) with
        | some d => if d < 10 then scanDigits 10 (acc * 10 + d) rest
                    else (acc, Nat.digitChar (n % 10) :: rest)
        | none => (acc, Nat.digitChar (n % 10) :: rest) := rfl
      rw [hstep, hval]
      simp only
      rw [if_pos (Nat.mod_lt n (by decide))]
    by_cases h0 : n / 10 = 0
    · refine ⟨Nat.digitChar (n % 10), [], ?_, hdig, ?_, ?_⟩
      · rw [hunf, if_pos h0]; rfl
      · intro hn; exact hnz (by omega)
      · intro acc rest
        rw [List.nil_append, hone]
        congr 1
        simp only [List.length_nil, Nat.zero_add, Nat.pow_one]
        omega
    · obtain ⟨c, pre, heq, hc, hcz, hscan⟩ :=
        ih (n / 10) (Nat.digitChar (n % 10) :: ds) (by omega)
      refine ⟨c, pre ++ [Nat.digitChar (n % 10)], ?_, hc, fun _ => hcz h0, ?_⟩
      · rw [hunf, if_neg h0, heq]; simp
      · intro acc rest
        have := hscan acc (Nat.digitChar (n % 10) :: rest)
        rw [List.append_assoc, List.singleton_append, this, hone]
        congr 1
        have hp : 10 ^ ((pre ++ [Nat.digitChar (n % 10)]).length + 1)
            = 10 ^ (pre.length + 1) * 10 := by
          rw [List.length_append, List.length_singleton, Nat.pow_succ]
        rw [hp, ← Nat.mul_assoc]
        generalize acc * 10 ^ (pre.length + 1) = A
        omega

/-- A digit is neither whitespace nor a sign. -/
theorem isdigit_not_special (c : Char) (h : isdigit c = true) :
    isspace c = false ∧ c ≠ '-' ∧ c ≠ '+' := by
  have hd := isdigit_toNat c h
  refine ⟨isspace_false_of_toNat c (by omega), ?_, ?_⟩ <;>
  · rintro rfl
    revert h; decide

/-- The text that `%d` prints for a natural number is read back by
`scanMagnitude` as that number, with nothing left over. -/
theorem scanMagnitude_toDigits (n : Nat) :
    scanMagnitude (Nat.toDigits 10 n) = some (n, []) := by
  obtain ⟨c, pre, heq, hc, hcz, hscan⟩ := toDigitsCore_scan (n + 1) n [] (Nat.lt_succ_self n)
  have heq' : Nat.toDigits 10 n = c :: pre := by
    rw [List.append_nil] at heq; exact heq
  have hres : scanDigits 10 0 (c :: pre) = (n, []) := by
    have := hscan 0 []
    rw [List.append_nil] at this
    rw [this]
    simp [scanDigits]
  have hstart : startsWithDigit 10 (c :: pre) = true := by
    have hd := isdigit_toNat c hc
    simp only [startsWithDigit, digitVal, hc, if_true, decide_eq_true_eq]
    omega
  rw [heq']
  by_cases hn : n = 0
  · subst hn
    have : c :: pre = ['0'] := by rw [← heq']; rfl
    rw [this]; rfl
  · have hc0 := hcz hn
    unfold scanMagnitude
    split
    · rename_i x rest heq2
      cases heq2
      exact absurd rfl hc0
    · rw [if_pos hstart, hres]

/-- The text that `%d` prints for an integer is read back by `%i` (and by
`strtol` in base 0) as that integer, with nothing left over. -/
theorem scanSigned_toString (i : Int) : scanSigned (toString i).toList = some (i, []) := by
  cases i with
  | ofNat m =>
    have htxt : (toString (Int.ofNat m)).toList = Nat.toDigits 10 m := rfl
    obtain ⟨c, pre, heq, hc, -, -⟩ := toDigitsCore_scan (m + 1) m [] (Nat.lt_succ_self m)
    have heq' : Nat.toDigits 10 m = c :: pre := by
      rw [List.append_nil] at heq; exact heq
    obtain ⟨hsp, hminus, hplus⟩ := isdigit_not_special c hc
    have hmag := scanMagnitude_toDigits m
    rw [htxt]
    rw [heq'] at hmag ⊢
    unfold scanSigned
    rw [SkipSpacesPtr_cons c pre hsp]
    split
    · rename_i rest h; cases h; exact absurd rfl hminus
    · rename_i rest h; cases h; exact absurd rfl hplus
    · rw [hmag]; rfl
  | negSucc m =>
    have htxt : (toString (Int.negSucc m)).toList = '-' :: Nat.toDigits 10 (m + 1) := rfl
    rw [htxt]
    unfold scanSigned
    rw [SkipSpacesPtr_cons '-' _ (by decide)]
    simp only [scanMagnitude_toDigits (m + 1), Option.map_some']
    rfl

/-- The line `daddiu r<rt>, r<rs>, #<imm>` character by character. -/
theorem daddiuLine_eq (rt rs : Nat) (imm : Int) :
    daddiuLine rt rs imm
      = "daddiu".toList ++ (' ' :: (('r' :: Nat.toDigits 10 rt) ++ (',' :: ' ' ::
          (('r' :: Nat.toDigits 10 rs) ++ (',' :: ' ' :: '#' :: (toString imm).toList))))) := by
  have h1 : (toString rt).toList = Nat.toDigits 10 rt := rfl
  have h2 : (toString rs).toList = Nat.toDigits 10 rs := rfl
  unfold daddiuLine
  simp only [String.toList, String.data_append] at h1 h2 ⊢
  rw [h1, h2]
  simp

/-- A literal run matches the text that starts with it. -/
theorem matchLit_append (l s : List Char) : matchLit l (l ++ s) = some s := by
  induction l with
  | nil => cases s <;> rfl
  | cons c l ih =>
    show (if c = c then matchLit l (l ++ s) else none) = _
    rw [if_pos rfl]; exact ih

/-- A run of accepted characters is read up to the first rejected one. -/
theorem scanRun_append (ok : Char → Bool) (tok : List Char) (c : Char) (rest : List Char)
    (htok : ∀ x ∈ tok, ok x = true) (hc : ok c = false) :
    ∀ width, tok.length ≤ width → scanRun ok width (tok ++ c :: rest) = (tok, c :: rest) := by
  induction tok with
  | nil =>
    intro width _
    cases width with
    | zero => rfl
    | succ w => simp [scanRun, hc]
  | cons t tok ih =>
    intro width hw
    cases width with
    | zero => simp at hw
    | succ w =>
      have ht : ok t = true := htok t (List.mem_cons_self t tok)
      have := ih (fun x hx => htok x (List.mem_cons_of_mem t hx)) w (by simpa using hw)
      simp [scanRun, ht, this]

/-- The tokens `r0` .. `r31` as `%d` prints them: no comma, at most seven
characters, and `RegisterNumber` gives the number back. -/
theorem register_token : ∀ n : Fin 32,
    (∀ x ∈ 'r' :: Nat.toDigits 10 n.val, (x != ',') = true)
      ∧ ('r' :: Nat.toDigits 10 n.val).length ≤ 7
      ∧ RegisterNumber ('r' :: Nat.toDigits 10 n.val) = (n.val : Int) := by
  decide

/-- The `sscanf` of the `daddiu` pattern reads the two register tokens and the immediate of the line `daddiu r<rt>, r<rs>, #<imm>`. -/
theorem scanDaddiu_daddiuLine (rt rs : Nat) (imm : Int) (hrt : rt ≤ 31) (hrs : rs ≤ 31) :
    scanDaddiu (daddiuLine rt rs imm)
      = some ('r' :: Nat.toDigits 10 rt, 'r' :: Nat.toDigits 10 rs, imm) := by
  obtain ⟨ht1, ht2, -⟩ := register_token ⟨rt, by omega⟩
  obtain ⟨hs1, hs2, -⟩ := register_token ⟨rs, by omega⟩
  simp only at ht1 ht2 hs1 hs2
  have htok : ∀ (ds rest : List Char), (∀ x ∈ 'r' :: ds, (x != ',') = true) →
      ('r' :: ds).length ≤ 7 →
      scanNotComma7 (SkipSpacesPtr (' ' :: (('r' :: ds) ++ ',' :: rest)))
        = some ('r' :: ds, ',' :: rest) := by
    intro ds rest h1 h2
    have hskip : SkipSpacesPtr (' ' :: (('r' :: ds) ++ ',' :: rest))
        = ('r' :: ds) ++ ',' :: rest := rfl
    rw [hskip]
    unfold scanNotComma7
    simp only [scanRun_append (fun c => c != ',') ('r' :: ds) ',' rest h1 (by decide) 7 h2]
    rfl
  have hcomma : ∀ l, matchLit [','] (',' :: l) = some l := fun l => by
    cases l <;> rfl
  have hhash : ∀ l, matchLit ['#'] (SkipSpacesPtr (' ' :: '#' :: l)) = some l := fun l => by
    cases l <;> rfl
  unfold scanDaddiu
  rw [daddiuLine_eq, matchLit_append, Option.some_bind, htok _ _ ht1 ht2, Option.some_bind,
    hcomma, Option.some_bind, htok _ _ hs1 hs2, Option.some_bind, hcomma, Option.some_bind,
    hhash, Option.some_bind, scanSigned_toString, Option.some_bind]

/-- A line that scans as a `daddiu` with valid registers is encoded with
`Encode_I_Type`. -/
theorem encodeLine_of_scanDaddiu (line t1 t2 : List Char) (rt rs : Nat) (imm : Int)
    (hscan : scanDaddiu line = some (t1, t2, imm))
    (h1 : RegisterNumber t1 = (rt : Int)) (h2 : RegisterNumber t2 = (rs : Int))
    (hrt : rt ≤ 31) (hrs : rs ≤ 31) :
    encodeLine line = some (Encode_I_Type 0x19 rs rt imm) := by
  have hu1 : toU8 (rt : Int) = rt := by unfold toU8; omega
  have hu2 : toU8 (rs : Int) = rs := by unfold toU8; omega
  unfold encodeLine
  rw [hscan]
  simp only [h1, h2, hu1, hu2]
  rw [if_pos ⟨by omega, by omega⟩]

/-! ## Helper lemmas: allocation sequences, sorting and re-seeding -/

/-- The cursor after `k` calls from a reset. -/
theorem tempNextAfter_eq (k : Nat) : tempNextAfter k = 20 + ((k % 11 : Nat) : Int) := by
  induction k with
  | zero => rfl
  | succ k ih =>
    show (NewTempRegister (tempNextAfter k)).2 = _
    rw [ih]
    unfold NewTempRegister temp_max temp_start
    simp only
    split_ifs <;> omega

/-- The hexadecimal digit characters of `%X` are read back as their
values. -/
theorem digitVal_hexChar : ∀ d : Fin 16,
    digitVal (if d.val < 10 then Char.ofNat (48 + d.val) else Char.ofNat (55 + d.val))
      = some d.val := by
  decide

/-- The digits that `%llX` prints are read back, in base sixteen, as the
number printed. -/
theorem hexDigitsAux_scan (fuel : Nat) :
    ∀ (n : Nat) (ds : List Char), n < fuel →
      ∃ (c : Char) (pre : List Char), hexDigitsAux fuel n ds = c :: (pre ++ ds)
        ∧ startsWithDigit 16 (c :: (pre ++ ds)) = true
        ∧ ∀ (acc : Nat) (rest : List Char),
            scanDigits 16 acc (c :: (pre ++ rest))
              = scanDigits 16 (acc * 16 ^ (pre.length + 1) + n) rest := by
  induction fuel with
  | zero => intro n ds h; omega
  | succ fuel ih =>
    intro n ds h
    have hunf : hexDigitsAux (fuel + 1) n ds =
        if n / 16 = 0 then
          (if n % 16 < 10 then Char.ofNat (48 + n % 16) else Char.ofNat (55 + n % 16)) :: ds
        else hexDigitsAux fuel (n / 16)
          ((if n % 16 < 10 then Char.ofNat (48 + n % 16) else Char.ofNat (55 + n % 16)) :: ds) :=
      rfl
    have hval := digitVal_hexChar ⟨n % 16, Nat.mod_lt n (by decide)⟩
    simp only at hval
    generalize hch : (if n % 16 < 10 then Char.ofNat (48 + n % 16) else Char.ofNat (55 + n % 16))
      = ch at hunf hval
    have hone : ∀ (acc : Nat) (rest : List Char),
        scanDigits 16 acc (ch :: rest) = scanDigits 16 (acc * 16 + n % 16) rest := by
      intro acc rest
      have hstep : scanDigits 16 acc (ch :: rest) =
        match digitVal ch with
        | some d => if d < 16 then scanDigits 16 (acc * 16 + d) rest else (acc, ch :: rest)
        | none => (acc, ch :: rest) := rfl
      rw [hstep, hval]
      simp only
      rw [if_pos (Nat.mod_lt n (by decide))]
    have hstart : ∀ l, startsWithDigit 16 (ch :: l) = true := by
      intro l
      simp only [startsWithDigit, hval, decide_eq_true_eq]
      exact Nat.mod_lt n (by decide)
    by_cases h0 : n / 16 = 0
    · refine ⟨ch, [], ?_, hstart _, ?_⟩
      · rw [hunf, if_pos h0]; rfl
      · intro acc rest
        rw [List.nil_append, hone]
        congr 1
        simp only [List.length_nil, Nat.zero_add, Nat.pow_one]
        omega
    · obtain ⟨c, pre, heq, hc, hscan⟩ := ih (n / 16) (ch :: ds) (by omega)
      refine ⟨c, pre ++ [ch], ?_, ?_, ?_⟩
      · rw [hunf, if_neg h0, heq]; simp
      · cases c'h : startsWithDigit 16 (c :: (pre ++ ch :: ds)) with
        | true => simpa [startsWithDigit] using c'h
        | false => rw [c'h] at hc; exact absurd hc (by decide)
      · intro acc rest
        have := hscan acc (ch :: rest)
        rw [List.append_assoc, List.singleton_append, this, hone]
        congr 1
        have hp : 16 ^ ((pre ++ [ch]).length + 1) = 16 ^ (pre.length + 1) * 16 := by
          rw [List.length_append, List.length_singleton, Nat.pow_succ]
        rw [hp, ← Nat.mul_assoc]
        generalize acc * 16 ^ (pre.length + 1) = A
        omega

/-- The text that `%llX` prints is read back in base sixteen as the number
printed, with nothing left over. -/
theorem scanDigits_hexUpper (n : Nat) : scanDigits 16 0 (hexUpper n).toList = (n, []) := by
  obtain ⟨c, pre, heq, -, hscan⟩ := hexDigitsAux_scan (n + 1) n [] (Nat.lt_succ_self n)
  have htxt : (hexUpper n).toList = hexDigitsAux (n + 1) n [] := rfl
  rw [htxt, heq]
  have := hscan 0 []
  rw [this]
  simp [scanDigits]

/-- The expression `5 + 3` from a fresh temporary pool. -/
theorem Parse_E_five_plus_three (cfg : Config) (fuel : Nat) (sym : SymTab) (out : List String) :
    Parse_E cfg (fuel + 4) "5 + 3".toList { temp_next := 20, sym := sym, out := out }
      = some (22, [], { temp_next := 23, sym := sym,
                        out := ((out ++ ["daddiu r20, r0, #5\n"]) ++ ["daddiu r21, r0, #3\n"])
                                ++ ["daddu r22, r20, r21\n"] }) := rfl

/-- The first allocation in an empty table with room. -/
theorem allocate_first (cfg : Config) (name : List Char) (hmax : cfg.REG_MIN ≤ cfg.REG_MAX)
    (hcap : 1 ≤ cfg.MAX_SYMBOLS) :
    AllocateRegisterForTheSymbol cfg (SymbolInit cfg) name
      = (cfg.REG_MIN, { table := [{ name := name.take (cfg.MAX_NAME_LEN - 1), reg := cfg.REG_MIN }],
                        next_reg := cfg.REG_MIN + 1 }) := by
  unfold AllocateRegisterForTheSymbol GetRegisterOfTheSymbol SymbolInit SymTab.symbol_count
  simp only [lookupSlots, List.length_nil, List.nil_append, ne_eq, not_true_eq_false, if_false]
  rw [if_neg (by omega), if_neg (by omega)]

/-- One call keeps the registers of the table distinct, inside
`[REG_MIN, REG_MAX]` and below the cursor. -/
theorem allocate_regs_inv (cfg : Config) (s : SymTab) (name : List Char)
    (h : cfg.REG_MIN ≤ s.next_reg
      ∧ (∀ e ∈ s.table, cfg.REG_MIN ≤ e.reg ∧ e.reg < s.next_reg ∧ e.reg ≤ cfg.REG_MAX)
      ∧ (s.table.map fun e => e.reg).Nodup) :
    cfg.REG_MIN ≤ (AllocateRegisterForTheSymbol cfg s name).2.next_reg
      ∧ (∀ e ∈ (AllocateRegisterForTheSymbol cfg s name).2.table,
          cfg.REG_MIN ≤ e.reg ∧ e.reg < (AllocateRegisterForTheSymbol cfg s name).2.next_reg
            ∧ e.reg ≤ cfg.REG_MAX)
      ∧ ((AllocateRegisterForTheSymbol cfg s name).2.table.map fun e => e.reg).Nodup := by
  obtain ⟨h1, h2, h3⟩ := h
  unfold AllocateRegisterForTheSymbol
  simp only
  split_ifs with ha hb hc
  · exact ⟨h1, h2, h3⟩
  · exact ⟨h1, h2, h3⟩
  · exact ⟨h1, h2, h3⟩
  · refine ⟨by simp only; omega, ?_, ?_⟩
    · intro e he
      simp only at he ⊢
      rcases List.mem_append.mp he with he | he
      · have := h2 e he
        omega
      · rw [List.mem_singleton.mp he]
        simp only
        omega
    · simp only [List.map_append, List.map_cons, List.map_nil]
      rw [List.nodup_append]
      refine ⟨h3, List.nodup_singleton _, ?_⟩
      intro a ha1 ha2
      rw [List.mem_singleton] at ha2
      obtain ⟨e, he, rfl⟩ := List.mem_map.mp ha1
      have := h2 e he
      omega

/-- One call with a name shorter than `MAX_NAME_LEN` keeps the names of the
table distinct (in a table without the sentinel as a register). -/
theorem allocate_names_inv (cfg : Config) (s : SymTab) (name : List Char)
    (hlen : name.length < cfg.MAX_NAME_LEN) (hwf : ∀ e ∈ s.table, e.reg ≠ -1)
    (h : (s.table.map fun e => e.name).Nodup) :
    ((AllocateRegisterForTheSymbol cfg s name).2.table.map fun e => e.name).Nodup := by
  unfold AllocateRegisterForTheSymbol
  simp only
  split_ifs with ha hb hc
  · exact h
  · exact h
  · exact h
  · have h0 : GetRegisterOfTheSymbol s name = -1 := by
      by_contra hne; exact ha hne
    have hnone := lookupSlots_eq_neg_one s.table name hwf h0
    have htake : name.take (cfg.MAX_NAME_LEN - 1) = name := List.take_of_length_le (by omega)
    simp only [List.map_append, List.map_cons, List.map_nil, htake]
    rw [List.nodup_append]
    refine ⟨h, List.nodup_singleton _, ?_⟩
    intro a ha1 ha2
    rw [List.mem_singleton] at ha2
    obtain ⟨e, he, rfl⟩ := List.mem_map.mp ha1
    exact hnone e he ha2

/-- A sequence of calls keeps the registers distinct and in range, and,
when `REG_MIN ≥ 0` and all names are shorter than `MAX_NAME_LEN`, the names
distinct. -/
theorem allocateAll_inv (cfg : Config) (names : List (List Char)) :
    ∀ s : SymTab, cfg.REG_MIN ≤ s.next_reg →
      (∀ e ∈ s.table, cfg.REG_MIN ≤ e.reg ∧ e.reg < s.next_reg ∧ e.reg ≤ cfg.REG_MAX) →
      (s.table.map fun e => e.reg).Nodup →
      (cfg.REG_MIN ≤ (allocateAll cfg s names).2.next_reg
        ∧ (∀ e ∈ (allocateAll cfg s names).2.table,
            cfg.REG_MIN ≤ e.reg ∧ e.reg < (allocateAll cfg s names).2.next_reg
              ∧ e.reg ≤ cfg.REG_MAX)
        ∧ ((allocateAll cfg s names).2.table.map fun e => e.reg).Nodup)
      ∧ (0 ≤ cfg.REG_MIN → (∀ n ∈ names, n.length < cfg.MAX_NAME_LEN) →
          (s.table.map fun e => e.name).Nodup →
          ((allocateAll cfg s names).2.table.map fun e => e.name).Nodup) := by
  induction names with
  | nil =>
    intro s h1 h2 h3
    exact ⟨⟨h1, h2, h3⟩, fun _ _ h => h⟩
  | cons n ns ih =>
    intro s h1 h2 h3
    obtain ⟨k1, k2, k3⟩ := allocate_regs_inv cfg s n ⟨h1, h2, h3⟩
    obtain ⟨r1, r2⟩ := ih (AllocateRegisterForTheSymbol cfg s n).2 k1 k2 k3
    refine ⟨r1, ?_⟩
    intro hmin hshort hnd
    have hwf : ∀ e ∈ s.table, e.reg ≠ -1 := by
      intro e he
      have := h2 e he
      omega
    exact r2 hmin (fun m hm => hshort m (List.mem_cons_of_mem n hm))
      (allocate_names_inv cfg s n (hshort n (List.mem_cons_self n ns)) hwf hnd)

/-- A name that no slot holds is not found. -/
theorem lookupSlots_of_not_mem (t : List SymEntry) (name : List Char)
    (h : ∀ e ∈ t, e.name ≠ name) : lookupSlots t name = -1 := by
  induction t with
  | nil => rfl
  | cons a t ih =>
    unfold lookupSlots
    rw [if_neg (h a (List.mem_cons_self a t))]
    exact ih fun e he => h e (List.mem_cons_of_mem a he)

/-- The names of the slots written by a registration in order. -/
theorem entriesFrom_names (names : List (List Char)) :
    ∀ r : Int, (entriesFrom r names).map (fun e => e.name) = names := by
  induction names with
  | nil => intro r; rfl
  | cons n ns ih => intro r; simp [entriesFrom, ih]

/-- The registers of the slots written by a registration in order. -/
theorem entriesFrom_regs (names : List (List Char)) :
    ∀ r : Int, (entriesFrom r names).map (fun e => e.reg)
      = (List.range names.length).map fun (i : Nat) => r + (i : Int) := by
  induction names with
  | nil => intro r; rfl
  | cons n ns ih =>
    intro r
    simp only [entriesFrom, List.map_cons, List.length_cons, List.range_succ_eq_map,
      List.map_map, ih]
    refine congrArg₂ _ (by simp) (List.map_congr_left fun i _ => ?_)
    simp only [Function.comp, Nat.cast_succ]
    omega

/-- The slots of a prefix of the names are a prefix of the slots. -/
theorem entriesFrom_take (names : List (List Char)) :
    ∀ (r : Int) (j : Nat), entriesFrom r (names.take j) = (entriesFrom r names).take j := by
  induction names with
  | nil => intro r j; simp [entriesFrom]
  | cons n ns ih =>
    intro r j
    cases j with
    | zero => rfl
    | succ j => simp [entriesFrom, ih]

/-- Looking up the `i`-th of pairwise distinct names among the slots written
for them finds the `i`-th register. -/
theorem lookupSlots_entriesFrom (names : List (List Char)) (hnd : names.Nodup) :
    ∀ (r : Int) (i : Nat) (h : i < names.length),
      lookupSlots (entriesFrom r names) names[i] = r + (i : Int) := by
  induction names with
  | nil => intro r i h; simp at h
  | cons n ns ih =>
    intro r i h
    have hn : n ∉ ns := (List.nodup_cons.mp hnd).1
    have hns : ns.Nodup := (List.nodup_cons.mp hnd).2
    cases i with
    | zero => simp [entriesFrom, lookupSlots]
    | succ i =>
      have hi : i < ns.length := by simpa using h
      have hne : n ≠ ns[i] := fun heq => hn (heq ▸ List.getElem_mem hi)
      simp only [entriesFrom, lookupSlots, List.getElem_cons_succ, if_neg hne, ih hns (r + 1) i hi,
        Nat.cast_succ]
      omega

/-- Registering pairwise distinct new names, each shorter than
`MAX_NAME_LEN`, while there is room: every call appends one slot with the
next register. -/
theorem allocateAll_fresh (cfg : Config) (names : List (List Char)) :
    ∀ s : SymTab, names.Nodup → (∀ n ∈ names, n.length < cfg.MAX_NAME_LEN) →
      (∀ n ∈ names, ∀ e ∈ s.table, e.name ≠ n) →
      s.table.length + names.length ≤ cfg.MAX_SYMBOLS →
      s.next_reg + (names.length : Int) ≤ cfg.REG_MAX + 1 →
      allocateAll cfg s names
        = ((entriesFrom s.next_reg names).map (fun e => e.reg),
           { table := s.table ++ entriesFrom s.next_reg names,
             next_reg := s.next_reg + (names.length : Int) }) := by
  induction names with
  | nil =>
    intro s _ _ _ _ _
    simp [allocateAll, entriesFrom]
  | cons n ns ih =>
    intro s hnd hshort hnew hsym hreg
    have hn : n ∉ ns := (List.nodup_cons.mp hnd).1
    have hns : ns.Nodup := (List.nodup_cons.mp hnd).2
    simp only [List.length_cons, Nat.cast_succ] at hsym hreg
    have htake : n.take (cfg.MAX_NAME_LEN - 1) = n :=
      List.take_of_length_le (by have := hshort n (List.mem_cons_self n ns); omega)
    have h1 : AllocateRegisterForTheSymbol cfg s n
        = (s.next_reg, { table := s.table ++ [{ name := n, reg := s.next_reg }],
                         next_reg := s.next_reg + 1 }) := by
      unfold AllocateRegisterForTheSymbol GetRegisterOfTheSymbol SymTab.symbol_count
      rw [lookupSlots_of_not_mem s.table n (hnew n (List.mem_cons_self n ns))]
      simp only [ne_eq, not_true_eq_false, if_false, htake]
      rw [if_neg (by omega), if_neg (by omega)]
    have h2 := ih { table := s.table ++ [{ name := n, reg := s.next_reg }],
                    next_reg := s.next_reg + 1 } hns
      (fun m hm => hshort m (List.mem_cons_of_mem n hm))
      (by
        intro m hm e he
        rcases List.mem_append.mp he with he | he
        · exact hnew m (List.mem_cons_of_mem n hm) e he
        · rw [List.mem_singleton.mp he]
          intro heq
          simp only at heq
          exact hn (heq ▸ hm))
      (by simp only [List.length_append, List.length_singleton]; omega)
      (by simp only; omega)
    simp only [allocateAll, h1, h2, entriesFrom, List.map_cons, List.append_assoc,
      List.singleton_append, List.length_cons, Nat.cast_succ]
    refine Prod.ext rfl ?_
    simp only
    congr 1
    omega

/-- The length of the tail is kept by `bubble`. -/
theorem bubble_length (t : List VarUsage) : ∀ x : VarUsage, (bubble x t).2.length = t.length := by
  induction t with
  | nil => intro x; rfl
  | cons y ys ih =>
    intro x
    unfold bubble
    split_ifs <;> simp [ih]

/-- The elements are kept by `bubble`. -/
theorem bubble_perm (t : List VarUsage) :
    ∀ x : VarUsage, ((bubble x t).1 :: (bubble x t).2).Perm (x :: t) := by
  induction t with
  | nil => intro x; exact List.Perm.refl _
  | cons y ys ih =>
    intro x
    unfold bubble
    split_ifs
    · exact (List.Perm.swap x (bubble y ys).1 (bubble y ys).2).trans ((ih y).cons x)
    · exact ((List.Perm.swap y (bubble x ys).1 (bubble x ys).2).trans
        ((ih x).cons y)).trans (List.Perm.swap x y ys)

/-- The head that `bubble` returns has the largest count. -/
theorem bubble_max (t : List VarUsage) :
    ∀ x : VarUsage, x.count ≤ (bubble x t).1.count
      ∧ ∀ v ∈ (bubble x t).2, v.count ≤ (bubble x t).1.count := by
  induction t with
  | nil => intro x; exact ⟨le_refl _, fun v hv => by cases hv⟩
  | cons y ys ih =>
    intro x
    unfold bubble
    split_ifs with h
    · obtain ⟨h1, h2⟩ := ih y
      refine ⟨by simp only; omega, ?_⟩
      intro v hv
      rcases List.mem_cons.mp hv with rfl | hv
      · simp only; omega
      · exact h2 v hv
    · obtain ⟨h1, h2⟩ := ih x
      refine ⟨h1, ?_⟩
      intro v hv
      rcases List.mem_cons.mp hv with rfl | hv
      · simp only; omega
      · exact h2 v hv

/-- One test-and-exchange of the sort on `pre ++ x :: done ++ y :: rest`
with `i` at `x` and `j` at `y`. -/
theorem swapIfGreater_at (pre done rest : List VarUsage) (x y : VarUsage) :
    swapIfGreater (pre ++ x :: (done ++ y :: rest)) pre.length (pre.length + 1 + done.length)
      = if y.count > x.count then pre ++ y :: (done ++ x :: rest)
        else pre ++ x :: (done ++ y :: rest) := by
  have hi : (pre ++ x :: (done ++ y :: rest))[pre.length]? = some x := by
    rw [List.getElem?_append_right (le_refl _)]
    simp
  have hj : (pre ++ x :: (done ++ y :: rest))[pre.length + 1 + done.length]? = some y := by
    rw [List.getElem?_append_right (by omega)]
    have : pre.length + 1 + done.length - pre.length = done.length + 1 := by omega
    rw [this, List.getElem?_cons_succ, List.getElem?_append_right (le_refl _)]
    simp
  unfold swapIfGreater
  rw [hi, hj]
  simp only
  split_ifs
  · have h1 : (pre ++ x :: (done ++ y :: rest)).set pre.length y
        = pre ++ y :: (done ++ y :: rest) := by
      simp
    rw [h1]
    have h2 : pre.length + 1 + done.length = (pre ++ y :: done).length := by
      simp; omega
    have h3 : pre ++ y :: (done ++ y :: rest) = (pre ++ y :: done) ++ y :: rest := by simp
    rw [h2, h3, List.set_append_right _ _ (le_refl _)]
    simp
  · rfl

/-- The inner loop on `pre ++ x :: done ++ rest`, started at the first
element of `rest`, is `bubble x rest`. -/
theorem sortInner_eq (pre : List VarUsage) (rest : List VarUsage) :
    ∀ (done : List VarUsage) (x : VarUsage),
      sortInner pre.length rest.length (pre.length + 1 + done.length) (pre ++ x :: (done ++ rest))
        = pre ++ (bubble x rest).1 :: (done ++ (bubble x rest).2) := by
  induction rest with
  | nil => intro done x; rfl
  | cons y rest ih =>
    intro done x
    show sortInner pre.length rest.length (pre.length + 1 + done.length + 1)
      (swapIfGreater (pre ++ x :: (done ++ y :: rest)) pre.length
        (pre.length + 1 + done.length)) = _
    rw [swapIfGreater_at]
    unfold bubble
    split_ifs with h
    · have := ih (done ++ [x]) y
      simp only [List.length_append, List.length_singleton, List.append_assoc,
        List.singleton_append] at this
      rw [← this]
      rfl
    · have := ih (done ++ [y]) x
      simp only [List.length_append, List.length_singleton, List.append_assoc,
        List.singleton_append] at this
      rw [← this]
      rfl

/-- The outer loop on `pre ++ l`, started at the first element of `l`, is
`selSort` on `l`. -/
theorem sortOuter_eq (n : Nat) :
    ∀ (pre l : List VarUsage), l.length = n + 1 →
      sortOuter n pre.length (pre ++ l) = pre ++ selSort n l := by
  induction n with
  | zero => intro pre l _; rfl
  | succ n ih =>
    intro pre l hl
    cases l with
    | nil => simp at hl
    | cons x t =>
      have ht : t.length = n + 1 := by simpa using hl
      show sortOuter n (pre.length + 1)
        (sortInner pre.length ((pre ++ x :: t).length - (pre.length + 1)) (pre.length + 1)
          (pre ++ x :: t)) = _
      have hlen : (pre ++ x :: t).length - (pre.length + 1) = t.length := by
        simp only [List.length_append, List.length_cons]
        omega
      have hin := sortInner_eq pre t [] x
      simp only [List.length_nil, Nat.add_zero, List.nil_append] at hin
      rw [hlen, hin]
      have := ih (pre ++ [(bubble x t).1]) (bubble x t).2 (by rw [bubble_length, ht])
      simp only [List.length_append, List.length_singleton, List.append_assoc,
        List.singleton_append] at this
      rw [this]
      rfl

/-- The sorting pass is `selSort`. -/
theorem sortByCount_eq (vars : List VarUsage) :
    sortByCount vars = selSort (vars.length - 1) vars := by
  cases vars with
  | nil => rfl
  | cons x t =>
    have := sortOuter_eq t.length [] (x :: t) (by simp)
    simpa [sortByCount] using this

/-- The elements are kept by `selSort`. -/
theorem selSort_perm (n : Nat) : ∀ l : List VarUsage, (selSort n l).Perm l := by
  induction n with
  | zero => intro l; exact List.Perm.refl _
  | succ n ih =>
    intro l
    cases l with
    | nil => exact List.Perm.refl _
    | cons x t =>
      show ((bubble x t).1 :: selSort n (bubble x t).2).Perm (x :: t)
      exact ((ih _).cons _).trans (bubble_perm t x)

/-- After `n` rounds a list of `n+1` elements has its counts in
non-increasing order. -/
theorem selSort_sorted (n : Nat) :
    ∀ l : List VarUsage, l.length = n + 1 →
      (selSort n l).Pairwise (fun a b => a.count ≥ b.count) := by
  induction n with
  | zero =>
    intro l hl
    match l, hl with
    | [z], _ => exact List.pairwise_singleton _ _
  | succ n ih =>
    intro l hl
    cases l with
    | nil => simp at hl
    | cons x t =>
      have ht : t.length = n + 1 := by simpa using hl
      show ((bubble x t).1 :: selSort n (bubble x t).2).Pairwise _
      refine List.Pairwise.cons ?_ (ih _ (by rw [bubble_length, ht]))
      intro v hv
      exact (bubble_max t x).2 v ((selSort_perm n _).subset hv)

/-- The sorting pass keeps the records. -/
theorem sortByCount_perm (vars : List VarUsage) : (sortByCount vars).Perm vars := by
  rw [sortByCount_eq]
  exact selSort_perm _ _

/-- The sorting pass leaves the counts in non-increasing order. -/
theorem sortByCount_sorted (vars : List VarUsage) :
    (sortByCount vars).Pairwise (fun a b => a.count ≥ b.count) := by
  rw [sortByCount_eq]
  cases vars with
  | nil => exact List.Pairwise.nil
  | cons x t => exact selSort_sorted t.length (x :: t) (by simp)

/-- The expression scanner is a fold of `AddVariableUsage` over the
tokens. -/
theorem CountVarsInExpression_eq (cfg : Config) (expr : List Char) :
    ∀ (token : List Char) (vars : List VarUsage),
      CountVarsInExpression cfg expr token vars
        = (exprTokens expr token).foldl (AddVariableUsage cfg) vars := by
  induction expr with
  | nil =>
    intro token vars
    unfold CountVarsInExpression exprTokens
    split_ifs <;> rfl
  | cons c expr ih =>
    intro token vars
    unfold CountVarsInExpression exprTokens
    split_ifs
    · exact ih _ _
    · rw [ih]; rfl
    · exact ih _ _

/-- The counting phase is a fold of `AddVariableUsage` over all names. -/
theorem countUsage_eq (cfg : Config) (stmts : List Statement) :
    countUsage cfg stmts = (usageNames stmts).foldl (AddVariableUsage cfg) [] := by
  unfold countUsage
  generalize ([] : List VarUsage) = vars
  induction stmts generalizing vars with
  | nil => rfl
  | cons s stmts ih =>
    simp only [List.foldl_cons, usageNames, List.foldl_append, List.cons_append]
    rw [ih, CountVarsInExpression_eq]

/-- A successful search changes no name; a failed search means that no
record has the name. -/
theorem bumpUsage_names (vars : List VarUsage) (name : List Char) :
    (∀ vars1, bumpUsage vars name = some vars1 →
        vars1.map (fun v => v.name) = vars.map (fun v => v.name))
      ∧ (bumpUsage vars name = none → name ∉ vars.map (fun v => v.name)) := by
  induction vars with
  | nil =>
    constructor
    · intro vars1 h
      cases h
    · intro _ h
      simp at h
  | cons v vs ih =>
    unfold bumpUsage
    by_cases hv : v.name = name
    · rw [if_pos hv]
      refine ⟨fun vars1 h => ?_, fun h => by cases h⟩
      cases h
      rfl
    · rw [if_neg hv]
      refine ⟨fun vars1 h => ?_, fun h => ?_⟩
      · cases hb : bumpUsage vs name with
        | none => rw [hb] at h; cases h
        | some r =>
          rw [hb] at h
          cases h
          simp only [List.map_cons]
          rw [ih.1 r hb]
      · cases hb : bumpUsage vs name with
        | none =>
          simp only [List.map_cons, List.mem_cons, not_or]
          exact ⟨fun h => hv h.symm, ih.2 hb⟩
        | some r => rw [hb] at h; cases h

/-- Counting one more name shorter than `MAX_NAME_LEN` keeps the names of
the records distinct, short, and at most `MAX_SYMBOLS` many. -/
theorem AddVariableUsage_inv (cfg : Config) (vars : List VarUsage) (name : List Char)
    (hlen : name.length < cfg.MAX_NAME_LEN)
    (h : (vars.map fun v => v.name).Nodup
      ∧ (∀ n ∈ vars.map (fun v => v.name), n.length < cfg.MAX_NAME_LEN)
      ∧ vars.length ≤ cfg.MAX_SYMBOLS) :
    ((AddVariableUsage cfg vars name).map fun v => v.name).Nodup
      ∧ (∀ n ∈ (AddVariableUsage cfg vars name).map (fun v => v.name),
          n.length < cfg.MAX_NAME_LEN)
      ∧ (AddVariableUsage cfg vars name).length ≤ cfg.MAX_SYMBOLS := by
  obtain ⟨h1, h2, h3⟩ := h
  unfold AddVariableUsage
  cases name with
  | nil => exact ⟨h1, h2, h3⟩
  | cons c cs =>
    simp only
    by_cases hd : isdigit c = true
    · rw [if_pos hd]
      exact ⟨h1, h2, h3⟩
    · rw [if_neg hd]
      cases hb : bumpUsage vars (c :: cs) with
      | some vars1 =>
        have hn := (bumpUsage_names vars (c :: cs)).1 vars1 hb
        simp only
        refine ⟨by rw [hn]; exact h1, by rw [hn]; exact h2, ?_⟩
        have := congrArg List.length hn
        simp only [List.length_map] at this
        omega
      | none =>
        have hn := (bumpUsage_names vars (c :: cs)).2 hb
        have htake : (c :: cs).take (cfg.MAX_NAME_LEN - 1) = c :: cs :=
          List.take_of_length_le (by omega)
        simp only
        by_cases hroom : vars.length < cfg.MAX_SYMBOLS
        · rw [if_pos hroom, htake]
          simp only [List.map_append, List.map_cons, List.map_nil, List.length_append,
            List.length_singleton]
          refine ⟨?_, ?_, by omega⟩
          · rw [List.nodup_append]
            refine ⟨h1, List.nodup_singleton _, ?_⟩
            intro a ha1 ha2
            rw [List.mem_singleton] at ha2
            exact hn (ha2 ▸ ha1)
          · intro n hn2
            rcases List.mem_append.mp hn2 with hn2 | hn2
            · exact h2 n hn2
            · rw [List.mem_singleton.mp hn2]; exact hlen
        · rw [if_neg hroom]
          exact ⟨h1, h2, h3⟩

/-- After the counting phase on statements whose identifiers are all
shorter than `MAX_NAME_LEN`, the names of the records are distinct, short,
and at most `MAX_SYMBOLS` many. -/
theorem countUsage_inv (cfg : Config) (stmts : List Statement)
    (hshort : ∀ n ∈ usageNames stmts, n.length < cfg.MAX_NAME_LEN) :
    ((countUsage cfg stmts).map fun v => v.name).Nodup
      ∧ (∀ n ∈ (countUsage cfg stmts).map (fun v => v.name), n.length < cfg.MAX_NAME_LEN)
      ∧ (countUsage cfg stmts).length ≤ cfg.MAX_SYMBOLS := by
  rw [countUsage_eq]
  have key : ∀ (names : List (List Char)) (vars : List VarUsage),
      (∀ n ∈ names, n.length < cfg.MAX_NAME_LEN) →
      ((vars.map fun v => v.name).Nodup
        ∧ (∀ n ∈ vars.map (fun v => v.name), n.length < cfg.MAX_NAME_LEN)
        ∧ vars.length ≤ cfg.MAX_SYMBOLS) →
      (((names.foldl (AddVariableUsage cfg) vars).map fun v => v.name).Nodup
        ∧ (∀ n ∈ (names.foldl (AddVariableUsage cfg) vars).map (fun v => v.name),
            n.length < cfg.MAX_NAME_LEN)
        ∧ (names.foldl (AddVariableUsage cfg) vars).length ≤ cfg.MAX_SYMBOLS) := by
    intro names
    induction names with
    | nil => intro vars _ h; exact h
    | cons n ns ih =>
      intro vars hs h
      exact ih _ (fun m hm => hs m (List.mem_cons_of_mem n hm))
        (AddVariableUsage_inv cfg vars n (hs n (List.mem_cons_self n ns)) h)
  exact key _ [] hshort ⟨List.nodup_nil, fun n hn => by simp at hn, Nat.zero_le _⟩

/-- A lookup among the slots written from register `r` upwards gives `-1`
or a register that is at least `r`. -/
theorem lookupSlots_entriesFrom_ge (names : List (List Char)) :
    ∀ (r : Int) (n : List Char),
      lookupSlots (entriesFrom r names) n = -1 ∨ r ≤ lookupSlots (entriesFrom r names) n := by
  induction names with
  | nil => intro r n; exact Or.inl rfl
  | cons m ms ih =>
    intro r n
    simp only [entriesFrom, lookupSlots]
    split_ifs
    · exact Or.inr (le_refl _)
    · rcases ih (r + 1) n with h | h
      · exact Or.inl h
      · exact Or.inr (by omega)

/-- Registration follows the order of the records: when `a` comes before
`b` in a list of records with distinct names, and the first `k` records are
registered from register `r ≥ 0` upwards, then `b` registered implies `a`
registered with a lower register. -/
theorem register_order (l : List VarUsage) :
    ∀ (r : Int) (k : Nat) (a b : VarUsage), 0 ≤ r → (l.map fun v => v.name).Nodup →
      [a, b].Sublist l →
      lookupSlots (entriesFrom r ((l.take k).map fun v => v.name)) b.name ≠ -1 →
      lookupSlots (entriesFrom r ((l.take k).map fun v => v.name)) a.name ≠ -1
        ∧ lookupSlots (entriesFrom r ((l.take k).map fun v => v.name)) a.name
            < lookupSlots (entriesFrom r ((l.take k).map fun v => v.name)) b.name := by
  induction l with
  | nil => intro r k a b _ _ hsub; cases hsub
  | cons h t ih =>
    intro r k a b hr hnd hsub hb
    have hnd' := List.nodup_cons.mp (by simpa using hnd : (h.name :: t.map fun v => v.name).Nodup)
    cases k with
    | zero => exact absurd rfl hb
    | succ k =>
      simp only [List.take_succ_cons, List.map_cons, entriesFrom, lookupSlots] at hb ⊢
      have hmem : ∀ v ∈ t, h.name ≠ v.name := by
        intro v hv heq
        exact hnd'.1 (heq ▸ List.mem_map_of_mem (fun v => v.name) hv)
      cases hsub with
      | cons _ hsub' =>
        have ha : a ∈ t := hsub'.subset (by simp)
        have hbm : b ∈ t := hsub'.subset (by simp)
        rw [if_neg (hmem a ha)]
        rw [if_neg (hmem b hbm)] at hb ⊢
        exact ih (r + 1) k a b (by omega) hnd'.2 hsub' hb
      | cons₂ _ hsub' =>
        have hbm : b ∈ t := hsub'.subset (by simp)
        rw [if_neg (hmem b hbm)] at hb ⊢
        simp only [if_true]
        rcases lookupSlots_entriesFrom_ge ((t.take k).map fun v => v.name) (r + 1) b.name
          with h1 | h1
        · exact absurd h1 hb
        · exact ⟨by omega, by omega⟩

/-- The table that re-seeding leaves, for records with distinct short
names that are at most `MAX_SYMBOLS` many: the first
`REG_MAX - REG_MIN + 1` names in order, from `REG_MIN` upwards. -/
theorem reseed_table (cfg : Config) (vars : List VarUsage)
    (hnd : (vars.map fun v => v.name).Nodup)
    (hshort : ∀ n ∈ vars.map (fun v => v.name), n.length < cfg.MAX_NAME_LEN)
    (hsym : vars.length ≤ cfg.MAX_SYMBOLS) :
    (reseed cfg vars).table
      = entriesFrom cfg.REG_MIN
          ((vars.take (cfg.REG_MAX - cfg.REG_MIN + 1).toNat).map fun v => v.name) := by
  unfold reseed
  generalize hK : (cfg.REG_MAX - cfg.REG_MIN + 1).toNat = K
  by_cases hempty : (vars.take K).map (fun v => v.name) = []
  · rw [hempty]; rfl
  · have hpos : 0 < ((vars.take K).map fun v => v.name).length :=
      List.length_pos.mpr hempty
    have hle : ((vars.take K).map fun v => v.name).length ≤ K := by
      simp only [List.length_map, List.length_take]; omega
    have hle2 : ((vars.take K).map fun v => v.name).length ≤ vars.length := by
      simp only [List.length_map, List.length_take]; omega
    have hsub : ((vars.take K).map fun v => v.name).Sublist (vars.map fun v => v.name) :=
      (List.take_sublist K vars).map _
    have := allocateAll_fresh cfg ((vars.take K).map fun v => v.name) (SymbolInit cfg)
      (hnd.sublist hsub) (fun n hn => hshort n (hsub.subset hn))
      (fun _ _ e he => by cases he)
      (by simp only [SymbolInit, List.length_nil]; omega)
      (by simp only [SymbolInit]; omega)
    rw [this]
    simp [SymbolInit]

/-- In a list with non-increasing counts, a record with a strictly larger
count comes before one with a smaller count. -/
theorem sublist_pair_of_sorted (l : List VarUsage) :
    ∀ x y : VarUsage, l.Pairwise (fun a b => a.count ≥ b.count) → x ∈ l → y ∈ l →
      x.count > y.count → [x, y].Sublist l := by
  induction l with
  | nil => intro x y _ hx; cases hx
  | cons h t ih =>
    intro x y hp hx hy hgt
    obtain ⟨hh, ht⟩ := List.pairwise_cons.mp hp
    rcases List.mem_cons.mp hy with hyh | hyt
    · rcases List.mem_cons.mp hx with hxh | hxt
      · rw [hyh, hxh] at hgt
        omega
      · have := hh x hxt
        rw [hyh] at hgt
        omega
    · rcases List.mem_cons.mp hx with hxh | hxt
      · rw [hxh]
        exact List.Sublist.cons₂ _ (List.singleton_sublist.mpr hyt)
      · exact List.Sublist.cons _ (ih x y ht hxt hyt hgt)

/-- Nothing is exchanged when no later record has a larger count. -/
theorem bubble_of_max (t : List VarUsage) :
    ∀ x : VarUsage, (∀ v ∈ t, v.count ≤ x.count) → bubble x t = (x, t) := by
  induction t with
  | nil => intro x _; rfl
  | cons y ys ih =>
    intro x h
    have hy : ¬ y.count > x.count := by
      have := h y (List.mem_cons_self y ys)
      omega
    unfold bubble
    rw [if_neg hy, ih x fun v hv => h v (List.mem_cons_of_mem y hv)]

/-- The records whose count is the bound `m` of all counts are left in
their order by `bubble`. -/
theorem bubble_filter_top (m : Int) (t : List VarUsage) :
    ∀ x : VarUsage, (∀ v ∈ x :: t, v.count ≤ m) →
      ((bubble x t).1 :: (bubble x t).2).filter (fun v => decide (v.count = m))
        = (x :: t).filter (fun v => decide (v.count = m)) := by
  induction t with
  | nil => intro x _; rfl
  | cons y ys ih =>
    intro x h
    have hx : x.count ≤ m := h x (List.mem_cons_self _ _)
    have hy : y.count ≤ m := h y (List.mem_cons_of_mem _ (List.mem_cons_self _ _))
    have hys : ∀ v ∈ ys, v.count ≤ m := fun v hv =>
      h v (List.mem_cons_of_mem _ (List.mem_cons_of_mem _ hv))
    unfold bubble
    split_ifs with hgt
    · have hxm : ¬ x.count = m := by omega
      have := ih y (fun v hv => by
        rcases List.mem_cons.mp hv with rfl | hv
        · exact hy
        · exact hys v hv)
      simp only [List.filter_cons, hxm, decide_False, Bool.false_eq_true, if_false] at this ⊢
      exact this
    · by_cases hxm : x.count = m
      · have hb := bubble_of_max ys x (fun v hv => by have := hys v hv; omega)
        rw [hb]
      · have hym : ¬ y.count = m := by omega
        have := ih x (fun v hv => by
          rcases List.mem_cons.mp hv with rfl | hv
          · exact hx
          · exact hys v hv)
        simp only [List.filter_cons, hxm, hym, decide_False, Bool.false_eq_true,
          if_false] at this ⊢
        exact this

/-- The records whose count is the bound `m` of all counts are left in
their order by `selSort`. -/
theorem selSort_filter_top (m : Int) (n : Nat) :
    ∀ l : List VarUsage, (∀ v ∈ l, v.count ≤ m) →
      (selSort n l).filter (fun v => decide (v.count = m))
        = l.filter (fun v => decide (v.count = m)) := by
  induction n with
  | zero => intro l _; rfl
  | succ n ih =>
    intro l h
    cases l with
    | nil => rfl
    | cons x t =>
      show ((bubble x t).1 :: selSort n (bubble x t).2).filter _ = _
      have hb : ∀ v ∈ (bubble x t).2, v.count ≤ m := fun v hv =>
        h v ((bubble_perm t x).subset (List.mem_cons_of_mem _ hv))
      rw [← bubble_filter_top m t x h, List.filter_cons, List.filter_cons, ih _ hb]

/-- A list whose counts are already non-increasing is left as it is. -/
theorem selSort_of_sorted (n : Nat) :
    ∀ l : List VarUsage, l.Pairwise (fun a b => a.count ≥ b.count) → selSort n l = l := by
  induction n with
  | zero => intro l _; rfl
  | succ n ih =>
    intro l hp
    cases l with
    | nil => rfl
    | cons x t =>
      obtain ⟨hh, ht⟩ := List.pairwise_cons.mp hp
      show (bubble x t).1 :: selSort n (bubble x t).2 = _
      rw [bubble_of_max t x (fun v hv => hh v hv), ih t ht]

/-- The lookups after re-seeding the sorted records. -/
theorem reseed_sorted_lookup (cfg : Config) (vars : List VarUsage)
    (hnd : (vars.map fun v => v.name).Nodup)
    (hshort : ∀ n ∈ vars.map (fun v => v.name), n.length < cfg.MAX_NAME_LEN)
    (hsym : vars.length ≤ cfg.MAX_SYMBOLS) (n : List Char) :
    ((sortByCount vars).map fun v => v.name).Nodup
      ∧ GetRegisterOfTheSymbol (reseed cfg (sortByCount vars)) n
        = lookupSlots (entriesFrom cfg.REG_MIN
            (((sortByCount vars).take (cfg.REG_MAX - cfg.REG_MIN + 1).toNat).map
              fun v => v.name)) n := by
  have hperm := (sortByCount_perm vars)
  have hpm : ((sortByCount vars).map fun v => v.name).Perm (vars.map fun v => v.name) :=
    hperm.map _
  have hnd2 := hpm.nodup_iff.mpr hnd
  refine ⟨hnd2, ?_⟩
  unfold GetRegisterOfTheSymbol
  rw [reseed_table cfg (sortByCount vars) hnd2 (fun m hm => hshort m (hpm.subset hm))
    (by rw [hperm.length_eq]; exact hsym)]

/-! ## Helper lemmas: the operand of an immediate load -/

/-- The characters of the line that `GenerateLoadImmediate` prints. -/
theorem GenerateLoadImmediate_toList (reg : Nat) (imm : Int) :
    (GenerateLoadImmediate (reg : Int) imm).toList = loadLine reg imm ++ ['\n'] := by
  have h1 : (toString (reg : Int)).data = Nat.toDigits 10 reg := rfl
  have h0 : Nat.toDigits 10 0 = ['0'] := rfl
  unfold GenerateLoadImmediate loadLine loadOperand
  split_ifs <;>
  · simp only [String.toList, String.data_append, h1, h0]
    simp

/-- The prefix `0x` or `0X` and the digits that `%llX` prints are read back
as the number printed, with nothing left over. -/
theorem scanMagnitude_hexUpper (n : Nat) (x : Char) (hx : x = 'x' ∨ x = 'X') :
    scanMagnitude ('0' :: x :: (hexUpper n).toList) = some (n, []) := by
  obtain ⟨c, pre, heq, hstart, -⟩ := hexDigitsAux_scan (n + 1) n [] (Nat.lt_succ_self _)
  have htxt : (hexUpper n).toList = hexDigitsAux (n + 1) n [] := rfl
  have hs : startsWithDigit 16 (hexUpper n).toList = true := by
    rw [htxt, heq]; exact hstart
  have hx' : (decide (x = 'x') || decide (x = 'X')) = true := by
    rcases hx with h | h <;> rw [h] <;> rfl
  show (if (decide (x = 'x') || decide (x = 'X')) && startsWithDigit 16 (hexUpper n).toList
      then some (scanDigits 16 0 (hexUpper n).toList)
      else some (scanDigits 8 0 (x :: (hexUpper n).toList))) = some (n, [])
  rw [hx', hs, scanDigits_hexUpper]
  rfl

/-- The operand of an immediate load is read back by `%i` as the value
loaded, with nothing left over. -/
theorem scanSigned_loadOperand (v : Int) (hlo : -(2 : Int) ^ 63 ≤ v) (hhi : v < (2 : Int) ^ 63) :
    scanSigned (loadOperand v) = some (v, []) := by
  unfold loadOperand
  split_ifs with h1 h2
  · have hmag := scanMagnitude_hexUpper v.toNat 'x' (Or.inl rfl)
    have hskip : SkipSpacesPtr ('0' :: 'x' :: (hexUpper v.toNat).toList)
        = '0' :: 'x' :: (hexUpper v.toNat).toList := rfl
    have hv : ((v.toNat : Nat) : Int) = v := by omega
    show (match SkipSpacesPtr ('0' :: 'x' :: (hexUpper v.toNat).toList) with
      | '-' :: rest => (scanMagnitude rest).map fun r => (-(r.1 : Int), r.2)
      | '+' :: rest => (scanMagnitude rest).map fun r => ((r.1 : Int), r.2)
      | rest => (scanMagnitude rest).map fun r => ((r.1 : Int), r.2)) = some (v, [])
    rw [hskip]
    show (scanMagnitude ('0' :: 'x' :: (hexUpper v.toNat).toList)).map
      (fun r => ((r.1 : Int), r.2)) = some (v, [])
    rw [hmag, Option.map_some', hv]
  · have hn : ((wrap64 (-v)) % 2 ^ 64).toNat = v.natAbs := by
      unfold wrap64
      omega
    rw [hn]
    have hmag := scanMagnitude_hexUpper v.natAbs 'X' (Or.inr rfl)
    have hv : -((v.natAbs : Nat) : Int) = v := by omega
    show (scanMagnitude ('0' :: 'X' :: (hexUpper v.natAbs).toList)).map
      (fun r => (-(r.1 : Int), r.2)) = some (v, [])
    rw [hmag, Option.map_some', hv]
  · exact scanSigned_toString v

/-- The hexadecimal digit characters of `%X` are neither a carriage return
nor a newline. -/
theorem hexChar_not_eol : ∀ d : Fin 16,
    ((if d.val < 10 then Char.ofNat (48 + d.val) else Char.ofNat (55 + d.val)).toNat != 13
      && (if d.val < 10 then Char.ofNat (48 + d.val) else Char.ofNat (55 + d.val)).toNat != 10)
      = true := by
  decide

/-- No digit that `%llX` prints is a carriage return or a newline. -/
theorem hexDigitsAux_not_eol (fuel : Nat) :
    ∀ (n : Nat) (acc : List Char), (∀ x ∈ acc, (x.toNat != 13 && x.toNat != 10) = true) →
      ∀ x ∈ hexDigitsAux fuel n acc, (x.toNat != 13 && x.toNat != 10) = true := by
  induction fuel with
  | zero => intro n acc h x hx; exact h x hx
  | succ fuel ih =>
    intro n acc h x hx
    have hunf : hexDigitsAux (fuel + 1) n acc =
        if n / 16 = 0 then
          (if n % 16 < 10 then Char.ofNat (48 + n % 16) else Char.ofNat (55 + n % 16)) :: acc
        else hexDigitsAux fuel (n / 16)
          ((if n % 16 < 10 then Char.ofNat (48 + n % 16) else Char.ofNat (55 + n % 16)) :: acc) :=
      rfl
    have hc := hexChar_not_eol ⟨n % 16, Nat.mod_lt n (by decide)⟩
    simp only at hc
    have hacc : ∀ y ∈ (if n % 16 < 10 then Char.ofNat (48 + n % 16)
        else Char.ofNat (55 + n % 16)) :: acc, (y.toNat != 13 && y.toNat != 10) = true := by
      intro y hy
      rcases List.mem_cons.mp hy with hy1 | hy1
      · rw [hy1]; exact hc
      · exact h y hy1
    rw [hunf] at hx
    by_cases h0 : n / 16 = 0
    · rw [if_pos h0] at hx; exact hacc x hx
    · rw [if_neg h0] at hx; exact ih _ _ hacc x hx

/-- The decimal text of a number from -15 to 15 has no carriage return and
no newline. -/
theorem small_decimal_not_eol (v : Int) (hlo : -15 ≤ v) (hhi : v ≤ 15) :
    ∀ x ∈ (toString v).toList, (x.toNat != 13 && x.toNat != 10) = true := by
  interval_cases v <;> decide

/-- The register numbers `0` .. `31` in decimal have no carriage return and
no newline. -/
theorem register_digits_not_eol : ∀ n : Fin 32,
    ∀ x ∈ Nat.toDigits 10 n.val, (x.toNat != 13 && x.toNat != 10) = true := by
  decide

/-- The line of an immediate load has no carriage return and no newline
before the newline that ends it. -/
theorem loadLine_not_eol (reg : Nat) (v : Int) (hreg : reg ≤ 31) :
    ∀ x ∈ loadLine reg v, (x.toNat != 13 && x.toNat != 10) = true := by
  have hr := register_digits_not_eol ⟨reg, by omega⟩
  have hop : ∀ x ∈ loadOperand v, (x.toNat != 13 && x.toNat != 10) = true := by
    unfold loadOperand
    split_ifs with h1 h2
    · intro x hx
      rcases List.mem_cons.mp hx with h | hx
      · rw [h]; decide
      rcases List.mem_cons.mp hx with h | hx
      · rw [h]; decide
      exact hexDigitsAux_not_eol _ _ [] (fun y hy => by simp at hy) x hx
    · intro x hx
      rcases List.mem_cons.mp hx with h | hx
      · rw [h]; decide
      rcases List.mem_cons.mp hx with h | hx
      · rw [h]; decide
      rcases List.mem_cons.mp hx with h | hx
      · rw [h]; decide
      exact hexDigitsAux_not_eol _ _ [] (fun y hy => by simp at hy) x hx
    · exact small_decimal_not_eol v (by omega) (by omega)
  have hlit : ∀ x ∈ "daddiu".toList, (x.toNat != 13 && x.toNat != 10) = true := by decide
  have h0 : ∀ x ∈ Nat.toDigits 10 0, (x.toNat != 13 && x.toNat != 10) = true := by decide
  intro x hx
  unfold loadLine at hx
  rcases List.mem_append.mp hx with h | hx
  · exact hlit x h
  rcases List.mem_cons.mp hx with h | hx
  · rw [h]; decide
  rcases List.mem_append.mp hx with hx | hx
  · rcases List.mem_cons.mp hx with h | hx
    · rw [h]; decide
    · exact hr x hx
  rcases List.mem_cons.mp hx with h | hx
  · rw [h]; decide
  rcases List.mem_cons.mp hx with h | hx
  · rw [h]; decide
  rcases List.mem_append.mp hx with hx | hx
  · rcases List.mem_cons.mp hx with h | hx
    · rw [h]; decide
    · exact h0 x hx
  rcases List.mem_cons.mp hx with h | hx
  · rw [h]; decide
  rcases List.mem_cons.mp hx with h | hx
  · rw [h]; decide
  rcases List.mem_cons.mp hx with h | hx
  · rw [h]; decide
  exact hop x hx

/-- The statement that strips the end of line gives the line of an immediate
load as printed, without its newline. -/
theorem stripEol_GenerateLoadImmediate (reg : Nat) (v : Int) (hreg : reg ≤ 31) :
    stripEol (GenerateLoadImmediate (reg : Int) v).toList = loadLine reg v := by
  rw [GenerateLoadImmediate_toList]
  unfold stripEol
  rw [List.takeWhile_append_of_pos (loadLine_not_eol reg v hreg)]
  simp

/-- The `sscanf` of the `daddiu` pattern on the line of an immediate load
reads the register, `r0` and the value loaded. -/
theorem scanDaddiu_loadLine (reg : Nat) (v : Int) (hreg : reg ≤ 31)
    (hlo : -(2 : Int) ^ 63 ≤ v) (hhi : v < (2 : Int) ^ 63) :
    scanDaddiu (loadLine reg v)
      = some ('r' :: Nat.toDigits 10 reg, 'r' :: Nat.toDigits 10 0, v) := by
  obtain ⟨ht1, ht2, -⟩ := register_token ⟨reg, by omega⟩
  obtain ⟨hs1, hs2, -⟩ := register_token ⟨0, by omega⟩
  simp only at ht1 ht2 hs1 hs2
  have htok : ∀ (ds rest : List Char), (∀ x ∈ 'r' :: ds, (x != ',') = true) →
      ('r' :: ds).length ≤ 7 →
      scanNotComma7 (SkipSpacesPtr (' ' :: (('r' :: ds) ++ ',' :: rest)))
        = some ('r' :: ds, ',' :: rest) := by
    intro ds rest h1 h2
    have hskip : SkipSpacesPtr (' ' :: (('r' :: ds) ++ ',' :: rest))
        = ('r' :: ds) ++ ',' :: rest := rfl
    rw [hskip]
    unfold scanNotComma7
    simp only [scanRun_append (fun c => c != ',') ('r' :: ds) ',' rest h1 (by decide) 7 h2]
    rfl
  have hcomma : ∀ l, matchLit [','] (',' :: l) = some l := fun l => by
    cases l <;> rfl
  have hhash : ∀ l, matchLit ['#'] (SkipSpacesPtr (' ' :: '#' :: l)) = some l := fun l => by
    cases l <;> rfl
  unfold scanDaddiu loadLine
  rw [matchLit_append, Option.some_bind, htok _ _ ht1 ht2, Option.some_bind,
    hcomma, Option.some_bind, htok _ _ hs1 hs2, Option.some_bind, hcomma, Option.some_bind,
    hhash, Option.some_bind, scanSigned_loadOperand v hlo hhi, Option.some_bind]

/-! ## Helper lemmas: the usage counts -/

/-- The tokens that `CountVarsInExpression` reads are the maximal runs of
letters, digits and underscores. -/
theorem exprTokens_eq_runs (expr : List Char) :
    ∀ token : List Char, (∀ x ∈ token, (isalnum x || x = '_') = true) →
      exprTokens expr token
        = (((token ++ expr).splitOnP fun c => !(isalnum c || c = '_')).filter
            fun t => t ≠ []) := by
  induction expr with
  | nil =>
    intro token htok
    rw [List.append_nil, List.splitOnP_eq_single _ _ (fun x hx => by simp [htok x hx])]
    unfold exprTokens
    by_cases h : token = []
    · simp [h]
    · simp [h]
  | cons c expr ih =>
    intro token htok
    unfold exprTokens
    by_cases hc : (isalnum c || c = '_') = true
    · rw [if_pos hc, ih (token ++ [c])]
      · simp
      · intro x hx
        rcases List.mem_append.mp hx with h | h
        · exact htok x h
        · rw [List.mem_singleton.mp h]; exact hc
    · rw [if_neg hc]
      rw [List.splitOnP_first _ token (fun x hx => by simp [htok x hx]) c (by simpa using hc)]
      by_cases h : token = []
      · subst h
        rw [if_neg (by simp), ih [] (by simp)]
        simp
      · rw [if_pos h, ih [] (by simp)]
        simp [h]

/-- The tokens of a right-hand side are its maximal identifier runs. -/
theorem exprTokens_identRuns (expr : List Char) : exprTokens expr [] = identRuns expr := by
  rw [exprTokens_eq_runs expr [] (by simp)]
  rfl

/-- The names passed to `AddVariableUsage` that are equal to `name` are as
many as the occurrences of `name`. -/
theorem usageNames_count (stmts : List Statement) (name : List Char) :
    (usageNames stmts).count name = occurrences stmts name := by
  unfold occurrences
  induction stmts with
  | nil => rfl
  | cons s stmts ih =>
    unfold usageNames
    rw [List.count_append, ih, List.count_cons, exprTokens_identRuns]
    by_cases h : s.lhs = name
    · simp [h, List.filter_cons]
      omega
    · simp [h, List.filter_cons]
      omega

/-- A name without a record has count 0. -/
theorem countOf_of_not_mem (vars : List VarUsage) (name : List Char)
    (h : name ∉ vars.map fun v => v.name) : countOf vars name = 0 := by
  induction vars with
  | nil => rfl
  | cons v vs ih =>
    have hne : v.name ≠ name := fun he => h (by simp [he])
    have hrest : name ∉ vs.map fun v => v.name := fun hm => h (by simp at hm ⊢; exact Or.inr hm)
    show (if v.name = name then v.count else countOf vs name) = 0
    rw [if_neg hne]
    exact ih hrest

/-- When the names of the records are distinct, the count of a record is the
count of its name. -/
theorem countOf_of_mem (vars : List VarUsage) (v : VarUsage)
    (hnd : (vars.map fun v => v.name).Nodup) (hv : v ∈ vars) : countOf vars v.name = v.count := by
  induction vars with
  | nil => cases hv
  | cons w ws ih =>
    rw [List.map_cons, List.nodup_cons] at hnd
    show (if w.name = v.name then w.count else countOf ws v.name) = v.count
    rcases List.mem_cons.mp hv with h | h
    · rw [h, if_pos rfl]
    · have hne : w.name ≠ v.name := by
        intro he
        exact hnd.1 (by rw [he]; exact List.mem_map_of_mem _ h)
      rw [if_neg hne]
      exact ih hnd.2 h

/-- A successful search adds one to the count of the name and leaves every
other count as it was. -/
theorem countOf_bumpUsage (vars : List VarUsage) (name : List Char) :
    ∀ vars1, bumpUsage vars name = some vars1 →
      ∀ m, countOf vars1 m = countOf vars m + (if m = name then 1 else 0) := by
  induction vars with
  | nil => intro vars1 h; cases h
  | cons v vs ih =>
    intro vars1 h m
    have hunf : bumpUsage (v :: vs) name =
        if v.name = name then some ({ v with count := v.count + 1 } :: vs)
        else (bumpUsage vs name).map fun r => v :: r := rfl
    rw [hunf] at h
    by_cases hv : v.name = name
    · rw [if_pos hv] at h
      cases h
      show (if v.name = m then v.count + 1 else countOf vs m)
        = (if v.name = m then v.count else countOf vs m) + _
      by_cases hm : m = name
      · rw [if_pos (hv.trans hm.symm), if_pos (hv.trans hm.symm), if_pos hm]
      · have : v.name ≠ m := fun he => hm (he.symm.trans hv)
        rw [if_neg this, if_neg this, if_neg hm, add_zero]
    · rw [if_neg hv] at h
      cases hb : bumpUsage vs name with
      | none => rw [hb] at h; cases h
      | some r =>
        rw [hb] at h
        cases h
        show (if v.name = m then v.count else countOf r m)
          = (if v.name = m then v.count else countOf vs m) + _
        by_cases hvm : v.name = m
        · have : m ≠ name := fun he => hv (hvm.trans he)
          rw [if_pos hvm, if_pos hvm, if_neg this, add_zero]
        · rw [if_neg hvm, if_neg hvm]
          exact ih r hb m

/-- A successful search means that a record has the name. -/
theorem bumpUsage_some_mem (vars : List VarUsage) (name : List Char) :
    ∀ vars1, bumpUsage vars name = some vars1 → name ∈ vars.map fun v => v.name := by
  intro vars1 h
  by_contra hn
  induction vars generalizing vars1 with
  | nil => cases h
  | cons v vs ih =>
    have hunf : bumpUsage (v :: vs) name =
        if v.name = name then some ({ v with count := v.count + 1 } :: vs)
        else (bumpUsage vs name).map fun r => v :: r := rfl
    rw [hunf] at h
    by_cases hv : v.name = name
    · exact hn (by simp [hv])
    · rw [if_neg hv] at h
      cases hb : bumpUsage vs name with
      | none => rw [hb] at h; cases h
      | some r => exact ih r hb (fun hm => hn (by simp at hm ⊢; exact Or.inr hm))

/-- A new record at the end counts one for its name and leaves every other
count as it was. -/
theorem countOf_append_new (vars : List VarUsage) (name : List Char)
    (h : name ∉ vars.map fun v => v.name) (m : List Char) :
    countOf (vars ++ [{ name := name, count := 1 }]) m
      = countOf vars m + (if m = name then 1 else 0) := by
  induction vars with
  | nil =>
    show (if name = m then (1 : Int) else 0) = 0 + (if m = name then 1 else 0)
    by_cases hm : m = name
    · rw [if_pos hm.symm, if_pos hm, zero_add]
    · rw [if_neg (fun he => hm he.symm), if_neg hm, zero_add]
  | cons v vs ih =>
    have hne : v.name ≠ name := fun he => h (by simp [he])
    have hrest : name ∉ vs.map fun v => v.name := fun hm => h (by simp at hm ⊢; exact Or.inr hm)
    show (if v.name = m then v.count else countOf (vs ++ [{ name := name, count := 1 }]) m)
      = (if v.name = m then v.count else countOf vs m) + _
    by_cases hvm : v.name = m
    · have : m ≠ name := fun he => hne (hvm.trans he)
      rw [if_pos hvm, if_pos hvm, if_neg this, add_zero]
    · rw [if_neg hvm, if_neg hvm]
      exact ih hrest

/-- One call of `AddVariableUsage` with a short name and room for it: the
names of the records grow by the name when it is counted and new, and the
count of the name grows by one when it is counted. -/
theorem AddVariableUsage_step (cfg : Config) (vars : List VarUsage) (name : List Char)
    (hlen : name.length < cfg.MAX_NAME_LEN)
    (hroom : isCounted name = true → name ∉ vars.map (fun v => v.name) →
      vars.length < cfg.MAX_SYMBOLS) :
    (AddVariableUsage cfg vars name).map (fun v => v.name)
        = (if isCounted name = true then
            (if name ∈ vars.map (fun v => v.name) then vars.map (fun v => v.name)
              else vars.map (fun v => v.name) ++ [name])
          else vars.map (fun v => v.name))
      ∧ ∀ m, countOf (AddVariableUsage cfg vars name) m
          = countOf vars m + (if isCounted name = true ∧ m = name then 1 else 0) := by
  cases name with
  | nil =>
    have hc : isCounted [] = false := rfl
    have hadd : AddVariableUsage cfg vars [] = vars := rfl
    rw [hadd, hc]
    simp
  | cons c cs =>
    have hunf : AddVariableUsage cfg vars (c :: cs) =
        if isdigit c then vars
        else
          match bumpUsage vars (c :: cs) with
          | some vars1 => vars1
          | none =>
            if vars.length < cfg.MAX_SYMBOLS then
              vars ++ [{ name := (c :: cs).take (cfg.MAX_NAME_LEN - 1), count := 1 }]
            else vars := rfl
    have hcnt : isCounted (c :: cs) = !isdigit c := rfl
    rw [hunf, hcnt]
    by_cases hd : isdigit c = true
    · rw [if_pos hd, hd]
      simp
    · have hd' : isdigit c = false := by simpa using hd
      rw [if_neg hd, hd']
      simp only [Bool.not_false, if_true, true_and]
      cases hb : bumpUsage vars (c :: cs) with
      | some vars1 =>
        have hmem := bumpUsage_some_mem vars (c :: cs) vars1 hb
        have hnames := (bumpUsage_names vars (c :: cs)).1 vars1 hb
        simp only
        rw [if_pos hmem]
        exact ⟨hnames, countOf_bumpUsage vars (c :: cs) vars1 hb⟩
      | none =>
        have hmem := (bumpUsage_names vars (c :: cs)).2 hb
        have hlt := hroom (by rw [hcnt, hd']; rfl) hmem
        have htake : (c :: cs).take (cfg.MAX_NAME_LEN - 1) = c :: cs :=
          List.take_of_length_le (by omega)
        simp only
        rw [if_pos hlt, if_neg hmem, htake]
        exact ⟨by simp, countOf_append_new vars (c :: cs) hmem⟩

/-- The names already seen stay at the front: the list can only grow. -/
theorem firstSeen_length_le (ns : List (List Char)) :
    ∀ seen : List (List Char), seen.length ≤ (firstSeen seen ns).length := by
  induction ns with
  | nil => intro seen; exact Nat.le_refl _
  | cons n ns ih =>
    intro seen
    show seen.length ≤ (firstSeen (if n ∈ seen then seen else seen ++ [n]) ns).length
    by_cases h : n ∈ seen
    · rw [if_pos h]; exact ih seen
    · rw [if_neg h]
      have := ih (seen ++ [n])
      rw [List.length_append, List.length_singleton] at this
      omega

/-- The names in first-seen order are those already seen and those of the
list. -/
theorem mem_firstSeen (ns : List (List Char)) :
    ∀ (seen : List (List Char)) (x : List Char),
      x ∈ firstSeen seen ns ↔ x ∈ seen ∨ x ∈ ns := by
  induction ns with
  | nil => intro seen x; simp [firstSeen]
  | cons n ns ih =>
    intro seen x
    show x ∈ firstSeen (if n ∈ seen then seen else seen ++ [n]) ns ↔ _
    rw [ih]
    by_cases h : n ∈ seen
    · rw [if_pos h]
      constructor
      · rintro (h1 | h1)
        · exact Or.inl h1
        · exact Or.inr (List.mem_cons_of_mem _ h1)
      · rintro (h1 | h1)
        · exact Or.inl h1
        · rcases List.mem_cons.mp h1 with h2 | h2
          · exact Or.inl (h2 ▸ h)
          · exact Or.inr h2
    · rw [if_neg h]
      simp only [List.mem_append, List.mem_singleton, List.mem_cons]
      tauto

/-- The counting fold over names that are all short and have room: the
records are named in first-seen order and every counted name has gained its
number of occurrences. -/
theorem foldl_AddVariableUsage (cfg : Config) (ns : List (List Char)) :
    ∀ vars : List VarUsage,
      (∀ n ∈ ns, n.length < cfg.MAX_NAME_LEN) →
      (firstSeen (vars.map fun v => v.name) (ns.filter isCounted)).length ≤ cfg.MAX_SYMBOLS →
      (ns.foldl (AddVariableUsage cfg) vars).map (fun v => v.name)
          = firstSeen (vars.map fun v => v.name) (ns.filter isCounted)
        ∧ ∀ m, isCounted m = true →
            countOf (ns.foldl (AddVariableUsage cfg) vars) m
              = countOf vars m + (ns.count m : Int) := by
  induction ns with
  | nil =>
    intro vars _ _
    exact ⟨rfl, fun m _ => by simp⟩
  | cons n ns ih =>
    intro vars hshort hroom
    have hn : n.length < cfg.MAX_NAME_LEN := hshort n (List.mem_cons_self n ns)
    have hrest : ∀ k ∈ ns, k.length < cfg.MAX_NAME_LEN :=
      fun k hk => hshort k (List.mem_cons_of_mem n hk)
    have hfit : isCounted n = true → n ∉ vars.map (fun v => v.name) →
        vars.length < cfg.MAX_SYMBOLS := by
      intro hc hmem
      rw [List.filter_cons_of_pos hc] at hroom
      have hunf : firstSeen (vars.map fun v => v.name) (n :: ns.filter isCounted)
          = firstSeen (vars.map (fun v => v.name) ++ [n]) (ns.filter isCounted) := by
        show firstSeen (if n ∈ vars.map (fun v => v.name) then vars.map (fun v => v.name)
          else vars.map (fun v => v.name) ++ [n]) (ns.filter isCounted) = _
        rw [if_neg hmem]
      rw [hunf] at hroom
      have := firstSeen_length_le (ns.filter isCounted) (vars.map (fun v => v.name) ++ [n])
      rw [List.length_append, List.length_singleton, List.length_map] at this
      omega
    obtain ⟨hnames, hcount⟩ := AddVariableUsage_step cfg vars n hn hfit
    have hseen : firstSeen (vars.map fun v => v.name) ((n :: ns).filter isCounted)
        = firstSeen ((AddVariableUsage cfg vars n).map fun v => v.name)
            (ns.filter isCounted) := by
      rw [hnames]
      by_cases hc : isCounted n = true
      · rw [List.filter_cons_of_pos hc, if_pos hc]
        rfl
      · rw [List.filter_cons_of_neg hc, if_neg hc]
    rw [hseen] at hroom ⊢
    obtain ⟨h1, h2⟩ := ih (AddVariableUsage cfg vars n) hrest hroom
    rw [List.foldl_cons]
    refine ⟨h1, fun m hm => ?_⟩
    rw [h2 m hm, hcount m, List.count_cons]
    by_cases hmn : m = n
    · subst hmn
      simp [hm]
      omega
    · have : ¬ (n = m) := fun he => hmn he.symm
      simp [hmn, this]

/-! ## Helper lemmas: the parser returns -/

/-- Skipping whitespace leaves a final part of the text. -/
theorem SkipSpacesPtr_suffix (p : List Char) : SkipSpacesPtr p <:+ p := by
  induction p with
  | nil => exact List.suffix_refl _
  | cons c cs ih =>
    show (if isspace c then SkipSpacesPtr cs else c :: cs) <:+ c :: cs
    by_cases h : isspace c = true
    · rw [if_pos h]; exact ih.trans (List.suffix_cons c cs)
    · rw [if_neg h]

/-- The digit loop of `Parse_F` leaves a final part of the text. -/
theorem readDigits_suffix (p : List Char) : ∀ val : Int, (readDigits val p).2 <:+ p := by
  induction p with
  | nil => intro val; exact List.suffix_refl _
  | cons c cs ih =>
    intro val
    show (if isdigit c then readDigits (wrap64 (val * 10 + ((c.toNat : Int) - 48))) cs
      else (val, c :: cs)).2 <:+ c :: cs
    by_cases h : isdigit c = true
    · rw [if_pos h]; exact (ih _).trans (List.suffix_cons c cs)
    · rw [if_neg h]

/-- The name loop of `Parse_F` leaves a final part of the text. -/
theorem readName_suffix (p : List Char) : ∀ name : List Char, (readName name p).2 <:+ p := by
  induction p with
  | nil => intro name; exact List.suffix_refl _
  | cons c cs ih =>
    intro name
    show (if isalnum c || c = '_' then
        readName (if name.length < 127 then name ++ [c] else name) cs
      else (name, c :: cs)).2 <:+ c :: cs
    by_cases h : (isalnum c || c = '_') = true
    · rw [if_pos h]; exact (ih _).trans (List.suffix_cons c cs)
    · rw [if_neg h]

/-- One call of `Parse_F`. -/
theorem Parse_F_unfold (cfg : Config) (fuel : Nat) (p : List Char) (st : CompState) :
    Parse_F cfg (fuel + 1) p st =
      match SkipSpacesPtr p with
      | [] => some (0, [], st)
      | c :: cs =>
        if c = '(' then
          match Parse_E cfg fuel cs st with
          | none => none
          | some (r, p1, st1) =>
            match SkipSpacesPtr p1 with
            | [] => some (r, [], st1)
            | d :: ds => if d = ')' then some (r, ds, st1) else some (r, d :: ds, st1)
        else if isdigit c then
          let (val, p1) := readDigits 0 (c :: cs)
          let (r, tn) := NewTempRegister st.temp_next
          let r := if r = -1 then temp_start else r
          some (r, p1, { st with temp_next := tn, out := st.out ++ [GenerateLoadImmediate r val] })
        else if isalpha c || c = '_' then
          let (name, p1) := readName [] (c :: cs)
          let reg := GetRegisterOfTheSymbol st.sym name
          if reg = -1 then
            let (reg, sym) := AllocateRegisterForTheSymbol cfg st.sym name
            some (reg, p1, { st with sym := sym })
          else some (reg, p1, st)
        else some (0, c :: cs, st) := rfl

/-- One iteration of the loop of `Parse_T`. -/
theorem Parse_T_loop_unfold (cfg : Config) (fuel : Nat) (left : Int) (p : List Char)
    (st : CompState) :
    Parse_T_loop cfg (fuel + 1) left p st =
      match SkipSpacesPtr p with
      | [] => some (left, [], st)
      | c :: cs =>
        if c = '*' then
          match Parse_F cfg fuel (SkipSpacesPtr cs) st with
          | none => none
          | some (right, p1, st1) =>
            Parse_T_loop cfg fuel (emitBinOp "dmul" left right st1).1 p1
              (emitBinOp "dmul" left right st1).2
        else if c = '/' then
          match Parse_F cfg fuel (SkipSpacesPtr cs) st with
          | none => none
          | some (right, p1, st1) =>
            Parse_T_loop cfg fuel (emitBinOp "ddiv" left right st1).1 p1
              (emitBinOp "ddiv" left right st1).2
        else if c = '+' || c = '-' || c = ';' then some (left, c :: cs, st)
        else Parse_T_loop cfg fuel left cs st := rfl

/-- The function `Parse_T` is one factor and then its loop. -/
theorem Parse_T_unfold (cfg : Config) (fuel : Nat) (p : List Char) (st : CompState) :
    Parse_T cfg (fuel + 1) p st =
      match Parse_F cfg fuel p st with
      | none => none
      | some (left, p1, st1) => Parse_T_loop cfg fuel left p1 st1 := rfl

/-- A call of `Parse_F` on a text that does not start with `(` needs no
further call: one unit of fuel is enough, and the pointer returned is a final
part of the text. -/
theorem Parse_F_atom (cfg : Config) (p : List Char) (st : CompState) (c : Char)
    (cs : List Char) (hq : SkipSpacesPtr p = c :: cs) (hc : c ≠ '(') :
    ∃ res : ParseResult, (∀ fuel, Parse_F cfg (fuel + 1) p st = some res)
      ∧ res.2.1 <:+ c :: cs := by
  have key : ∀ fuel, Parse_F cfg (fuel + 1) p st = Parse_F cfg 1 p st := by
    intro fuel
    rw [Parse_F_unfold, Parse_F_unfold, hq]
    simp only [if_neg hc]
  have hone : ∃ res : ParseResult, Parse_F cfg 1 p st = some res ∧ res.2.1 <:+ c :: cs := by
    rw [Parse_F_unfold, hq]
    simp only [if_neg hc]
    by_cases h2 : isdigit c = true
    · simp only [if_pos h2]
      exact ⟨_, rfl, readDigits_suffix _ _⟩
    · by_cases h3 : (isalpha c || c = '_') = true
      · by_cases h4 : GetRegisterOfTheSymbol st.sym (readName [] (c :: cs)).1 = -1
        · simp only [if_neg h2, if_pos h3, if_pos h4]
          exact ⟨_, rfl, readName_suffix _ _⟩
        · simp only [if_neg h2, if_pos h3, if_neg h4]
          exact ⟨_, rfl, readName_suffix _ _⟩
      · simp only [if_neg h2, if_neg h3]
        exact ⟨_, rfl, List.suffix_refl _⟩
  obtain ⟨res, h, hs⟩ := hone
  exact ⟨res, fun fuel => (key fuel).trans h, hs⟩

/-- A call of `Parse_F` on a text of at most `m` characters returns, when
`Parse_E` returns on every text that is more than one character shorter than
`m + 1`. -/
theorem Parse_F_returns (cfg : Config) (m : Nat)
    (hE : ∀ (q : List Char) (st : CompState), q.length + 1 ≤ m →
      ReturnsBy (fun fuel => Parse_E cfg fuel q st) (3 * m) q stopsExpr)
    (p : List Char) (st : CompState) (hp : p.length ≤ m) :
    ReturnsBy (fun fuel => Parse_F cfg fuel p st) (3 * m + 1) p (fun _ => true) := by
  have hsuf := SkipSpacesPtr_suffix p
  cases hq : SkipSpacesPtr p with
  | nil =>
    refine ⟨(0, [], st), fun fuel hf => ?_, List.nil_suffix, rfl⟩
    obtain ⟨k, rfl⟩ : ∃ k, fuel = k + 1 := ⟨fuel - 1, by omega⟩
    show Parse_F cfg (k + 1) p st = _
    rw [Parse_F_unfold, hq]
  | cons c cs =>
    rw [hq] at hsuf
    have hlen := hsuf.length_le
    rw [List.length_cons] at hlen
    by_cases hc : c = '('
    · obtain ⟨⟨r, p1, st1⟩, hres, hs1, -⟩ := hE cs st (by omega)
      have hs1p : p1 <:+ p := (hs1.trans (List.suffix_cons c cs)).trans hsuf
      have hsk := SkipSpacesPtr_suffix p1
      cases hq1 : SkipSpacesPtr p1 with
      | nil =>
        refine ⟨(r, [], st1), fun fuel hf => ?_, List.nil_suffix, rfl⟩
        obtain ⟨k, rfl⟩ : ∃ k, fuel = k + 1 := ⟨fuel - 1, by omega⟩
        have hk : Parse_E cfg k cs st = some (r, p1, st1) := hres k (by omega)
        show Parse_F cfg (k + 1) p st = _
        rw [Parse_F_unfold, hq]
        simp only [if_pos hc, hk, hq1]
      | cons d ds =>
        rw [hq1] at hsk
        by_cases hd : d = ')'
        · refine ⟨(r, ds, st1), fun fuel hf => ?_,
            ((List.suffix_cons d ds).trans hsk).trans hs1p, rfl⟩
          obtain ⟨k, rfl⟩ : ∃ k, fuel = k + 1 := ⟨fuel - 1, by omega⟩
          have hk : Parse_E cfg k cs st = some (r, p1, st1) := hres k (by omega)
          show Parse_F cfg (k + 1) p st = _
          rw [Parse_F_unfold, hq]
          simp only [if_pos hc, hk, hq1, if_pos hd]
        · refine ⟨(r, d :: ds, st1), fun fuel hf => ?_, hsk.trans hs1p, rfl⟩
          obtain ⟨k, rfl⟩ : ∃ k, fuel = k + 1 := ⟨fuel - 1, by omega⟩
          have hk : Parse_E cfg k cs st = some (r, p1, st1) := hres k (by omega)
          show Parse_F cfg (k + 1) p st = _
          rw [Parse_F_unfold, hq]
          simp only [if_pos hc, hk, hq1, if_neg hd]
    · obtain ⟨res, hres, hs⟩ := Parse_F_atom cfg p st c cs hq hc
      refine ⟨res, fun fuel hf => ?_, hs.trans hsuf, rfl⟩
      obtain ⟨k, rfl⟩ : ∃ k, fuel = k + 1 := ⟨fuel - 1, by omega⟩
      exact hres k

/-- One iteration of the loop of `Parse_T` on a text of at most `m`
characters either stops, on the end of the text or on `+`, `-`, `;`, or goes
on to the next iteration from a strictly shorter final part of the text. -/
theorem Parse_T_loop_iteration (cfg : Config) (m : Nat)
    (hF : ∀ (q : List Char) (st : CompState), q.length + 1 ≤ m →
      ReturnsBy (fun fuel => Parse_F cfg fuel q st) (3 * m - 2) q (fun _ => true))
    (left : Int) (p : List Char) (st : CompState) (hp : p.length ≤ m) :
    (stopsTerm (SkipSpacesPtr p) = true
        ∧ ∀ fuel, Parse_T_loop cfg (fuel + 1) left p st = some (left, SkipSpacesPtr p, st))
      ∨ ∃ (left1 : Int) (p1 : List Char) (st1 : CompState),
          p1.length < p.length ∧ p1 <:+ p
            ∧ ∀ fuel, 3 * m ≤ fuel + 2 →
                Parse_T_loop cfg (fuel + 1) left p st = Parse_T_loop cfg fuel left1 p1 st1 := by
  have hsuf := SkipSpacesPtr_suffix p
  cases hq : SkipSpacesPtr p with
  | nil =>
    left
    exact ⟨rfl, fun fuel => by rw [Parse_T_loop_unfold, hq]⟩
  | cons c cs =>
    rw [hq] at hsuf
    have hlen := hsuf.length_le
    rw [List.length_cons] at hlen
    have hcs : cs <:+ p := (List.suffix_cons c cs).trans hsuf
    have hsk := SkipSpacesPtr_suffix cs
    by_cases h1 : c = '*'
    · right
      obtain ⟨⟨right, p1, st1⟩, hres, hs1, -⟩ :=
        hF (SkipSpacesPtr cs) st (by have := hsk.length_le; omega)
      refine ⟨(emitBinOp "dmul" left right st1).1, p1, (emitBinOp "dmul" left right st1).2,
        ?_, (hs1.trans hsk).trans hcs, fun fuel hf => ?_⟩
      · have hl1 : p1.length ≤ (SkipSpacesPtr cs).length := hs1.length_le
        have := hsk.length_le
        omega
      · have hk : Parse_F cfg fuel (SkipSpacesPtr cs) st = some (right, p1, st1) :=
          hres fuel (by omega)
        rw [Parse_T_loop_unfold, hq]
        simp only [if_pos h1, hk]
    · by_cases h2 : c = '/'
      · right
        obtain ⟨⟨right, p1, st1⟩, hres, hs1, -⟩ :=
          hF (SkipSpacesPtr cs) st (by have := hsk.length_le; omega)
        refine ⟨(emitBinOp "ddiv" left right st1).1, p1, (emitBinOp "ddiv" left right st1).2,
          ?_, (hs1.trans hsk).trans hcs, fun fuel hf => ?_⟩
        · have hl1 : p1.length ≤ (SkipSpacesPtr cs).length := hs1.length_le
          have := hsk.length_le
          omega
        · have hk : Parse_F cfg fuel (SkipSpacesPtr cs) st = some (right, p1, st1) :=
            hres fuel (by omega)
          rw [Parse_T_loop_unfold, hq]
          simp only [if_neg h1, if_pos h2, hk]
      · by_cases h3 : (decide (c = '+') || decide (c = '-') || decide (c = ';')) = true
        · left
          refine ⟨h3, fun fuel => ?_⟩
          rw [Parse_T_loop_unfold, hq]
          simp only [if_neg h1, if_neg h2, if_pos h3]
        · right
          refine ⟨left, cs, st, by omega, hcs, fun fuel _ => ?_⟩
          rw [Parse_T_loop_unfold, hq]
          simp only [if_neg h1, if_neg h2, if_neg h3]

/-- The loop of `Parse_T` on a text of at most `m` characters returns, on
the end of the text or on `+`, `-`, `;`, when `Parse_F` and the loop return on
shorter texts. -/
theorem Parse_T_loop_returns (cfg : Config) (m : Nat)
    (hF : ∀ (q : List Char) (st : CompState), q.length + 1 ≤ m →
      ReturnsBy (fun fuel => Parse_F cfg fuel q st) (3 * m - 2) q (fun _ => true))
    (hT : ∀ (q : List Char) (left : Int) (st : CompState), q.length + 1 ≤ m →
      ReturnsBy (fun fuel => Parse_T_loop cfg fuel left q st) (3 * m - 2) q stopsTerm)
    (left : Int) (p : List Char) (st : CompState) (hp : p.length ≤ m) :
    ReturnsBy (fun fuel => Parse_T_loop cfg fuel left p st) (3 * m + 1) p stopsTerm := by
  rcases Parse_T_loop_iteration cfg m hF left p st hp with ⟨hstop, hres⟩ |
    ⟨left1, p1, st1, hlt, hs1, hstep⟩
  · refine ⟨(left, SkipSpacesPtr p, st), fun fuel hf => ?_, SkipSpacesPtr_suffix p, hstop⟩
    obtain ⟨k, rfl⟩ : ∃ k, fuel = k + 1 := ⟨fuel - 1, by omega⟩
    exact hres k
  · obtain ⟨res, hres, hs, hstop⟩ := hT p1 left1 st1 (by omega)
    refine ⟨res, fun fuel hf => ?_, hs.trans hs1, hstop⟩
    obtain ⟨k, rfl⟩ : ∃ k, fuel = k + 1 := ⟨fuel - 1, by omega⟩
    show Parse_T_loop cfg (k + 1) left p st = _
    rw [hstep k (by omega)]
    exact hres k (by omega)

/-- The function `Parse_T` on a text of at most `m` characters returns, on
the end of the text or on `+`, `-`, `;`, when `Parse_F` and the loop return on
such texts. -/
theorem Parse_T_returns (cfg : Config) (m : Nat)
    (hF : ∀ (q : List Char) (st : CompState), q.length ≤ m →
      ReturnsBy (fun fuel => Parse_F cfg fuel q st) (3 * m + 1) q (fun _ => true))
    (hT : ∀ (q : List Char) (left : Int) (st : CompState), q.length ≤ m →
      ReturnsBy (fun fuel => Parse_T_loop cfg fuel left q st) (3 * m + 1) q stopsTerm)
    (p : List Char) (st : CompState) (hp : p.length ≤ m) :
    ReturnsBy (fun fuel => Parse_T cfg fuel p st) (3 * m + 2) p stopsTerm := by
  obtain ⟨⟨left, p1, st1⟩, hres1, hs1, -⟩ := hF p st hp
  obtain ⟨res, hres, hs, hstop⟩ := hT p1 left st1 (by have hl1 : p1.length ≤ p.length := hs1.length_le; omega)
  refine ⟨res, fun fuel hf => ?_, hs.trans hs1, hstop⟩
  obtain ⟨k, rfl⟩ : ∃ k, fuel = k + 1 := ⟨fuel - 1, by omega⟩
  have hk : Parse_F cfg k p st = some (left, p1, st1) := hres1 k (by omega)
  show Parse_T cfg (k + 1) p st = _
  rw [Parse_T_unfold, hk]
  exact hres k (by omega)

/-- One iteration of the loop of `Parse_E` on a text of at most `m`
characters either stops, on the end of the text or on `;`, or goes on to the
next iteration from a strictly shorter final part of the text. -/
theorem Parse_E_loop_iteration (cfg : Config) (m : Nat)
    (hT : ∀ (q : List Char) (st : CompState), q.length + 1 ≤ m →
      ReturnsBy (fun fuel => Parse_T cfg fuel q st) (3 * m - 1) q stopsTerm)
    (left : Int) (p : List Char) (st : CompState) (hp : p.length ≤ m) :
    (stopsExpr (SkipSpacesPtr p) = true
        ∧ ∀ fuel, Parse_E_loop cfg (fuel + 1) left p st = some (left, SkipSpacesPtr p, st))
      ∨ ∃ (left1 : Int) (p1 : List Char) (st1 : CompState),
          p1.length < p.length ∧ p1 <:+ p
            ∧ ∀ fuel, 3 * m ≤ fuel + 1 →
                Parse_E_loop cfg (fuel + 1) left p st = Parse_E_loop cfg fuel left1 p1 st1 := by
  have hsuf := SkipSpacesPtr_suffix p
  cases hq : SkipSpacesPtr p with
  | nil =>
    left
    exact ⟨rfl, fun fuel => by rw [Parse_E_loop_unfold, hq]⟩
  | cons c cs =>
    rw [hq] at hsuf
    have hlen := hsuf.length_le
    rw [List.length_cons] at hlen
    have hcs : cs <:+ p := (List.suffix_cons c cs).trans hsuf
    have hsk := SkipSpacesPtr_suffix cs
    by_cases h1 : c = '+'
    · right
      obtain ⟨⟨right, p1, st1⟩, hres, hs1, -⟩ :=
        hT (SkipSpacesPtr cs) st (by have := hsk.length_le; omega)
      refine ⟨(emitBinOp "daddu" left right st1).1, p1, (emitBinOp "daddu" left right st1).2,
        ?_, (hs1.trans hsk).trans hcs, fun fuel hf => ?_⟩
      · have hl1 : p1.length ≤ (SkipSpacesPtr cs).length := hs1.length_le
        have := hsk.length_le
        omega
      · have hk : Parse_T cfg fuel (SkipSpacesPtr cs) st = some (right, p1, st1) :=
          hres fuel (by omega)
        rw [Parse_E_loop_unfold, hq]
        simp only [if_pos h1, hk]
    · by_cases h2 : c = '-'
      · right
        obtain ⟨⟨right, p1, st1⟩, hres, hs1, -⟩ :=
          hT (SkipSpacesPtr cs) (AssemblyInit st) (by have := hsk.length_le; omega)
        refine ⟨(emitBinOp "dsubu" left right st1).1, p1, (emitBinOp "dsubu" left right st1).2,
          ?_, (hs1.trans hsk).trans hcs, fun fuel hf => ?_⟩
        · have hl1 : p1.length ≤ (SkipSpacesPtr cs).length := hs1.length_le
          have := hsk.length_le
          omega
        · have hk : Parse_T cfg fuel (SkipSpacesPtr cs) (AssemblyInit st)
              = some (right, p1, st1) := hres fuel (by omega)
          rw [Parse_E_loop_unfold, hq]
          simp only [if_neg h1, if_pos h2, hk]
      · by_cases h3 : c = ';'
        · left
          refine ⟨by rw [h3]; rfl, fun fuel => ?_⟩
          rw [Parse_E_loop_unfold, hq]
          simp only [if_neg h1, if_neg h2, if_pos h3]
        · right
          refine ⟨left, cs, st, by omega, hcs, fun fuel _ => ?_⟩
          rw [Parse_E_loop_unfold, hq]
          simp only [if_neg h1, if_neg h2, if_neg h3]

/-- The loop of `Parse_E` on a text of at most `m` characters returns, on
the end of the text or on `;`, when `Parse_T` and the loop return on shorter
texts. -/
theorem Parse_E_loop_returns (cfg : Config) (m : Nat)
    (hT : ∀ (q : List Char) (st : CompState), q.length + 1 ≤ m →
      ReturnsBy (fun fuel => Parse_T cfg fuel q st) (3 * m - 1) q stopsTerm)
    (hE : ∀ (q : List Char) (left : Int) (st : CompState), q.length + 1 ≤ m →
      ReturnsBy (fun fuel => Parse_E_loop cfg fuel left q st) (3 * m - 1) q stopsExpr)
    (left : Int) (p : List Char) (st : CompState) (hp : p.length ≤ m) :
    ReturnsBy (fun fuel => Parse_E_loop cfg fuel left p st) (3 * m + 2) p stopsExpr := by
  rcases Parse_E_loop_iteration cfg m hT left p st hp with ⟨hstop, hres⟩ |
    ⟨left1, p1, st1, hlt, hs1, hstep⟩
  · refine ⟨(left, SkipSpacesPtr p, st), fun fuel hf => ?_, SkipSpacesPtr_suffix p, hstop⟩
    obtain ⟨k, rfl⟩ : ∃ k, fuel = k + 1 := ⟨fuel - 1, by omega⟩
    exact hres k
  · obtain ⟨res, hres, hs, hstop⟩ := hE p1 left1 st1 (by omega)
    refine ⟨res, fun fuel hf => ?_, hs.trans hs1, hstop⟩
    obtain ⟨k, rfl⟩ : ∃ k, fuel = k + 1 := ⟨fuel - 1, by omega⟩
    show Parse_E_loop cfg (k + 1) left p st = _
    rw [hstep k (by omega)]
    exact hres k (by omega)

/-- The function `Parse_E` on a text of at most `m` characters returns, on
the end of the text or on `;`, when `Parse_T` and the loop return on such
texts. -/
theorem Parse_E_returns (cfg : Config) (m : Nat)
    (hT : ∀ (q : List Char) (st : CompState), q.length ≤ m →
      ReturnsBy (fun fuel => Parse_T cfg fuel q st) (3 * m + 2) q stopsTerm)
    (hE : ∀ (q : List Char) (left : Int) (st : CompState), q.length ≤ m →
      ReturnsBy (fun fuel => Parse_E_loop cfg fuel left q st) (3 * m + 2) q stopsExpr)
    (p : List Char) (st : CompState) (hp : p.length ≤ m) :
    ReturnsBy (fun fuel => Parse_E cfg fuel p st) (3 * m + 3) p stopsExpr := by
  obtain ⟨⟨left, p1, st1⟩, hres1, hs1, -⟩ := hT p st hp
  obtain ⟨res, hres, hs, hstop⟩ :=
    hE p1 left st1 (by have hl1 : p1.length ≤ p.length := hs1.length_le; omega)
  refine ⟨res, fun fuel hf => ?_, hs.trans hs1, hstop⟩
  obtain ⟨k, rfl⟩ : ∃ k, fuel = k + 1 := ⟨fuel - 1, by omega⟩
  have hk : Parse_T cfg k p st = some (left, p1, st1) := hres1 k (by omega)
  show Parse_E cfg (k + 1) p st = _
  rw [Parse_E_unfold, hk]
  exact hres k (by omega)

/-- All five parsing functions return on every text of at most `m`
characters, with fuel linear in `m`. -/
theorem parse_returns (cfg : Config) (m : Nat) :
    (∀ (q : List Char) (st : CompState), q.length ≤ m →
        ReturnsBy (fun fuel => Parse_F cfg fuel q st) (3 * m + 1) q (fun _ => true))
      ∧ (∀ (q : List Char) (left : Int) (st : CompState), q.length ≤ m →
        ReturnsBy (fun fuel => Parse_T_loop cfg fuel left q st) (3 * m + 1) q stopsTerm)
      ∧ (∀ (q : List Char) (st : CompState), q.length ≤ m →
        ReturnsBy (fun fuel => Parse_T cfg fuel q st) (3 * m + 2) q stopsTerm)
      ∧ (∀ (q : List Char) (left : Int) (st : CompState), q.length ≤ m →
        ReturnsBy (fun fuel => Parse_E_loop cfg fuel left q st) (3 * m + 2) q stopsExpr)
      ∧ (∀ (q : List Char) (st : CompState), q.length ≤ m →
        ReturnsBy (fun fuel => Parse_E cfg fuel q st) (3 * m + 3) q stopsExpr) := by
  induction m with
  | zero =>
    have hF := Parse_F_returns cfg 0 (fun q st h => absurd h (by omega))
    have hTl := Parse_T_loop_returns cfg 0 (fun q st h => absurd h (by omega))
      (fun q left st h => absurd h (by omega))
    have hT := Parse_T_returns cfg 0 hF (fun q left st h => hTl left q st h)
    have hEl := Parse_E_loop_returns cfg 0 (fun q st h => absurd h (by omega))
      (fun q left st h => absurd h (by omega))
    have hE := Parse_E_returns cfg 0 hT (fun q left st h => hEl left q st h)
    exact ⟨hF, fun q left st h => hTl left q st h, hT, fun q left st h => hEl left q st h, hE⟩
  | succ n ih =>
    obtain ⟨iF, iTl, iT, iEl, iE⟩ := ih
    have e0 : 3 * (n + 1) = 3 * n + 3 := by omega
    have e1 : 3 * (n + 1) - 1 = 3 * n + 2 := by omega
    have e2 : 3 * (n + 1) - 2 = 3 * n + 1 := by omega
    have hF := Parse_F_returns cfg (n + 1) (fun q st h => by
      rw [e0]; exact iE q st (by omega))
    have hTl := Parse_T_loop_returns cfg (n + 1)
      (fun q st h => by rw [e2]; exact iF q st (by omega))
      (fun q left st h => by rw [e2]; exact iTl q left st (by omega))
    have hT := Parse_T_returns cfg (n + 1) hF (fun q left st h => hTl left q st h)
    have hEl := Parse_E_loop_returns cfg (n + 1)
      (fun q st h => by rw [e1]; exact iT q st (by omega))
      (fun q left st h => by rw [e1]; exact iEl q left st (by omega))
    have hE := Parse_E_returns cfg (n + 1) hT (fun q left st h => hEl left q st h)
    exact ⟨hF, fun q left st h => hTl left q st h, hT, fun q left st h => hEl left q st h, hE⟩

/-! ## Helper lemmas: the lines of the R-type instructions -/

/-- The line `<mnemonic> r<rd>, r<rs>, r<rt>` character by character. -/
theorem rTypeLine_eq (mnemonic : String) (rd rs rt : Nat) :
    rTypeLine mnemonic rd rs rt
      = mnemonic.toList ++ (' ' :: (('r' :: Nat.toDigits 10 rd) ++ (',' :: ' ' ::
          (('r' :: Nat.toDigits 10 rs) ++ (',' :: ' ' :: 'r' :: Nat.toDigits 10 rt))))) := by
  have h1 : (toString rd).data = Nat.toDigits 10 rd := rfl
  have h2 : (toString rs).data = Nat.toDigits 10 rs := rfl
  have h3 : (toString rt).data = Nat.toDigits 10 rt := rfl
  unfold rTypeLine
  simp only [String.toList, String.data_append, h1, h2, h3]
  simp

/-- The line that `GenerateBinOp` writes, with its end of line stripped, is
the line `<mnemonic> r<dst>, r<r1>, r<r2>`. -/
theorem GenerateBinOp_toList (mnemonic : String) (rd rs rt : Nat) :
    (GenerateBinOp mnemonic (rd : Int) (rs : Int) (rt : Int)).toList
      = rTypeLine mnemonic rd rs rt ++ ['\n'] := by
  have h1 : (toString (rd : Int)).data = Nat.toDigits 10 rd := rfl
  have h2 : (toString (rs : Int)).data = Nat.toDigits 10 rs := rfl
  have h3 : (toString (rt : Int)).data = Nat.toDigits 10 rt := rfl
  rw [rTypeLine_eq]
  unfold GenerateBinOp
  simp only [String.toList, String.data_append, h1, h2, h3]
  simp

/-- The conversion `%7s` reads the last register token `r0` .. `r31` of a
line, after the blank before it. -/
theorem scanWord7_register : ∀ n : Fin 32,
    scanWord7 (' ' :: 'r' :: Nat.toDigits 10 n.val) = some ('r' :: Nat.toDigits 10 n.val, []) := by
  decide

/-- The `sscanf` of an R-type pattern reads the three register tokens of the
line `<mnemonic> r<rd>, r<rs>, r<rt>`. -/
theorem scanRType_rTypeLine (mnemonic : String) (rd rs rt : Nat) (hrd : rd ≤ 31)
    (hrs : rs ≤ 31) (hrt : rt ≤ 31) :
    scanRType mnemonic (rTypeLine mnemonic rd rs rt)
      = some ('r' :: Nat.toDigits 10 rd, 'r' :: Nat.toDigits 10 rs, 'r' :: Nat.toDigits 10 rt) := by
  obtain ⟨hd1, hd2, -⟩ := register_token ⟨rd, by omega⟩
  obtain ⟨hs1, hs2, -⟩ := register_token ⟨rs, by omega⟩
  have hw := scanWord7_register ⟨rt, by omega⟩
  simp only at hd1 hd2 hs1 hs2 hw
  have htok : ∀ (ds rest : List Char), (∀ x ∈ 'r' :: ds, (x != ',') = true) →
      ('r' :: ds).length ≤ 7 →
      scanNotComma7 (SkipSpacesPtr (' ' :: (('r' :: ds) ++ ',' :: rest)))
        = some ('r' :: ds, ',' :: rest) := by
    intro ds rest h1 h2
    have hskip : SkipSpacesPtr (' ' :: (('r' :: ds) ++ ',' :: rest))
        = ('r' :: ds) ++ ',' :: rest := rfl
    rw [hskip]
    unfold scanNotComma7
    simp only [scanRun_append (fun c => c != ',') ('r' :: ds) ',' rest h1 (by decide) 7 h2]
    rfl
  have hcomma : ∀ l, matchLit [','] (',' :: l) = some l := fun l => by
    cases l <;> rfl
  unfold scanRType
  rw [rTypeLine_eq, matchLit_append, Option.some_bind, htok _ _ hd1 hd2, Option.some_bind,
    hcomma, Option.some_bind, htok _ _ hs1 hs2, Option.some_bind, hcomma, Option.some_bind,
    hw, Option.some_bind]

/-- One R-type branch of `MachineFromAssembly` on register tokens that
`RegisterNumber` reads as `rd`, `rs`, `rt`: the word of `Encode_R_Type` with
`rs`, `rt`, `rd` in this order, shamt 0 and the `funct` of the branch. -/
theorem encodeRType_of_registers (funct : Nat) (r1 r2 r3 : List Char) (rd rs rt : Nat)
    (h1 : RegisterNumber r1 = (rd : Int)) (h2 : RegisterNumber r2 = (rs : Int))
    (h3 : RegisterNumber r3 = (rt : Int)) (hrd : rd ≤ 31) (hrs : rs ≤ 31) (hrt : rt ≤ 31) :
    encodeRType funct r1 r2 r3 = some (Encode_R_Type rs rt rd 0 funct) := by
  have hu1 : toU8 (rd : Int) = rd := by unfold toU8; omega
  have hu2 : toU8 (rs : Int) = rs := by unfold toU8; omega
  have hu3 : toU8 (rt : Int) = rt := by unfold toU8; omega
  unfold encodeRType
  simp only [h1, h2, h3, hu1, hu2, hu3]
  rw [if_pos ⟨by omega, by omega, by omega⟩]

/-- The `if`/`else if` chain of `MachineFromAssembly` takes the branch of the
mnemonic on the line `<mnemonic> r<rd>, r<rs>, r<rt>` and encodes it with the
`funct` of that branch. -/
theorem encodeLine_rTypeLine (mnemonic : String) (funct rd rs rt : Nat)
    (hm : (mnemonic = "daddu" ∧ funct = 0x21) ∨ (mnemonic = "dsubu" ∧ funct = 0x23)
      ∨ (mnemonic = "dmul" ∧ funct = 0x18) ∨ (mnemonic = "ddiv" ∧ funct = 0x1A))
    (hrd : rd ≤ 31) (hrs : rs ≤ 31) (hrt : rt ≤ 31) :
    encodeLine (rTypeLine mnemonic rd rs rt) = some (Encode_R_Type rs rt rd 0 funct) := by
  have hscan := scanRType_rTypeLine mnemonic rd rs rt hrd hrs hrt
  have henc := encodeRType_of_registers funct _ _ _ rd rs rt
    (register_token ⟨rd, by omega⟩).2.2 (register_token ⟨rs, by omega⟩).2.2
    (register_token ⟨rt, by omega⟩).2.2 hrd hrs hrt
  have hline := rTypeLine_eq mnemonic rd rs rt
  rcases hm with ⟨hmn, hf⟩ | ⟨hmn, hf⟩ | ⟨hmn, hf⟩ | ⟨hmn, hf⟩
  · subst hmn hf
    have h0 : scanDaddiu (rTypeLine "daddu" rd rs rt) = none := by rw [hline]; rfl
    unfold encodeLine
    simp only [h0, hscan]
    exact henc
  · subst hmn hf
    have h0 : scanDaddiu (rTypeLine "dsubu" rd rs rt) = none := by rw [hline]; rfl
    have h1 : scanRType "daddu" (rTypeLine "dsubu" rd rs rt) = none := by rw [hline]; rfl
    unfold encodeLine
    simp only [h0, h1, hscan]
    exact henc
  · subst hmn hf
    have h0 : scanDaddiu (rTypeLine "dmul" rd rs rt) = none := by rw [hline]; rfl
    have h1 : scanRType "daddu" (rTypeLine "dmul" rd rs rt) = none := by rw [hline]; rfl
    have h2 : scanRType "dsubu" (rTypeLine "dmul" rd rs rt) = none := by rw [hline]; rfl
    unfold encodeLine
    simp only [h0, h1, h2, hscan]
    exact henc
  · subst hmn hf
    have h0 : scanDaddiu (rTypeLine "ddiv" rd rs rt) = none := by rw [hline]; rfl
    have h1 : scanRType "daddu" (rTypeLine "ddiv" rd rs rt) = none := by rw [hline]; rfl
    have h2 : scanRType "dsubu" (rTypeLine "ddiv" rd rs rt) = none := by rw [hline]; rfl
    have h3 : scanRType "dmul" (rTypeLine "ddiv" rd rs rt) = none := by rw [hline]; rfl
    unfold encodeLine
    simp only [h0, h1, h2, h3, hscan]
    exact henc

/-! ## Helper lemmas: what holds for names shorter than `MAX_NAME_LEN` -/

/-- In a table none of whose slots holds `-1` (every table
reachable from `SymbolInit` when `REG_MIN ≥ 0`), and for a name shorter than
`MAX_NAME_LEN`, if `AllocateRegisterForTheSymbol` returns a register then an
immediately following call with the same name returns the same register and
leaves the table (slots, symbol count and cursor) as the first call left
it. -/
theorem short_name_allocated_twice (cfg : Config) (s : SymTab) (name : List Char)
    (hwf : ∀ e ∈ s.table, e.reg ≠ -1) (hlen : name.length < cfg.MAX_NAME_LEN)
    (hr : (AllocateRegisterForTheSymbol cfg s name).1 ≠ -1) :
    AllocateRegisterForTheSymbol cfg (AllocateRegisterForTheSymbol cfg s name).2 name
      = ((AllocateRegisterForTheSymbol cfg s name).1,
         (AllocateRegisterForTheSymbol cfg s name).2) := by
  by_cases h0 : GetRegisterOfTheSymbol s name = -1
  · have hfirst : AllocateRegisterForTheSymbol cfg s name
        = if s.symbol_count ≥ cfg.MAX_SYMBOLS then (-1, s)
          else if s.next_reg > cfg.REG_MAX then (-1, s)
          else (s.next_reg,
            { table := s.table ++ [{ name := name.take (cfg.MAX_NAME_LEN - 1), reg := s.next_reg }],
              next_reg := s.next_reg + 1 }) := by
      unfold AllocateRegisterForTheSymbol
      simp only [h0, ne_eq, not_true_eq_false, if_false]
    rw [hfirst] at hr ⊢
    split_ifs at hr ⊢ with hc hm
    · exact absurd rfl hr
    · exact absurd rfl hr
    · have hnone := lookupSlots_eq_neg_one s.table name hwf h0
      have htake : name.take (cfg.MAX_NAME_LEN - 1) = name :=
        List.take_of_length_le (by omega)
      have hget : GetRegisterOfTheSymbol
          { table := s.table ++ [{ name := name.take (cfg.MAX_NAME_LEN - 1), reg := s.next_reg }],
            next_reg := s.next_reg + 1 } name = s.next_reg := by
        unfold GetRegisterOfTheSymbol
        simp only
        rw [lookupSlots_append_new _ _ _ hnone]
        simp only [htake, if_true]
      unfold AllocateRegisterForTheSymbol
      simp only [hget, ne_eq]
      rw [if_pos hr]
  · have hfirst : AllocateRegisterForTheSymbol cfg s name = (GetRegisterOfTheSymbol s name, s) := by
      unfold AllocateRegisterForTheSymbol
      simp only [ne_eq, h0, not_false_eq_true, if_true]
    rw [hfirst]
    exact hfirst

/-- The lemma `short_name_allocated_twice` at the name `x` on the initial table of `sampleConfig`. -/
theorem short_name_allocated_twice_sample :
    ((∀ e ∈ (SymbolInit sampleConfig).table, e.reg ≠ -1)
        ∧ ['x'].length < sampleConfig.MAX_NAME_LEN
        ∧ (AllocateRegisterForTheSymbol sampleConfig (SymbolInit sampleConfig) ['x']).1 ≠ -1)
      ∧ AllocateRegisterForTheSymbol sampleConfig
          (AllocateRegisterForTheSymbol sampleConfig (SymbolInit sampleConfig) ['x']).2 ['x']
        = ((AllocateRegisterForTheSymbol sampleConfig (SymbolInit sampleConfig) ['x']).1,
           (AllocateRegisterForTheSymbol sampleConfig (SymbolInit sampleConfig) ['x']).2) :=
  ⟨⟨by decide, by decide, by decide⟩,
    short_name_allocated_twice sampleConfig (SymbolInit sampleConfig) ['x']
      (by decide) (by decide) (by decide)⟩

/-- In the table reached from `SymbolInit` by any sequence of
calls of `AllocateRegisterForTheSymbol` (arbitrary names), no two slots hold
the same register and every register lies in `[REG_MIN, REG_MAX]`; when
`REG_MIN ≥ 0` and every name of the sequence is shorter than `MAX_NAME_LEN`,
no two slots hold the same name. -/
theorem table_invariant (cfg : Config) (names : List (List Char)) :
    ((allocateAll cfg (SymbolInit cfg) names).2.table.map fun e => e.reg).Nodup
      ∧ (∀ e ∈ (allocateAll cfg (SymbolInit cfg) names).2.table,
          cfg.REG_MIN ≤ e.reg ∧ e.reg ≤ cfg.REG_MAX)
      ∧ (0 ≤ cfg.REG_MIN → (∀ n ∈ names, n.length < cfg.MAX_NAME_LEN) →
          ((allocateAll cfg (SymbolInit cfg) names).2.table.map fun e => e.name).Nodup) := by
  obtain ⟨⟨-, h2, h3⟩, h4⟩ := allocateAll_inv cfg names (SymbolInit cfg) (le_refl _)
    (fun e he => by cases he) List.nodup_nil
  exact ⟨h3, fun e he => ⟨(h2 e he).1, (h2 e he).2.2⟩, fun hmin hshort => h4 hmin hshort List.nodup_nil⟩

/-- The lemma `table_invariant` on the calls `x`, `y`, `x` from the initial table of
`sampleConfig`. -/
theorem table_invariant_sample :
    (0 ≤ sampleConfig.REG_MIN
        ∧ ∀ n ∈ [['x'], ['y'], ['x']], n.length < sampleConfig.MAX_NAME_LEN)
      ∧ (((allocateAll sampleConfig (SymbolInit sampleConfig) [['x'], ['y'], ['x']]).2.table.map
            fun e => e.reg).Nodup
        ∧ (∀ e ∈ (allocateAll sampleConfig (SymbolInit sampleConfig) [['x'], ['y'], ['x']]).2.table,
            sampleConfig.REG_MIN ≤ e.reg ∧ e.reg ≤ sampleConfig.REG_MAX)
        ∧ (0 ≤ sampleConfig.REG_MIN →
            (∀ n ∈ [['x'], ['y'], ['x']], n.length < sampleConfig.MAX_NAME_LEN) →
            ((allocateAll sampleConfig (SymbolInit sampleConfig) [['x'], ['y'], ['x']]).2.table.map
              fun e => e.name).Nodup)) :=
  ⟨⟨by decide, by decide⟩, table_invariant sampleConfig [['x'], ['y'], ['x']]⟩

/-- Right after `SymbolInit` every lookup gives `-1`; then
allocating pairwise distinct names `n1 .. nk`, each shorter than
`MAX_NAME_LEN`, with `k ≤ MAX_SYMBOLS` and `k ≤ REG_MAX - REG_MIN + 1`,
returns `REG_MIN, REG_MIN+1, .., REG_MIN+k-1` in that order; afterwards the
lookup of `ni` gives `REG_MIN+i-1`; the table after the first `j` calls is
the first `j` slots of the final table (no later call changes an earlier
binding); and the slots are the names in the order of registration. -/
theorem allocation_in_order (cfg : Config) (names : List (List Char)) (hnd : names.Nodup)
    (hshort : ∀ n ∈ names, n.length < cfg.MAX_NAME_LEN) (hsym : names.length ≤ cfg.MAX_SYMBOLS)
    (hreg : (names.length : Int) ≤ cfg.REG_MAX - cfg.REG_MIN + 1) :
    (∀ n : List Char, GetRegisterOfTheSymbol (SymbolInit cfg) n = -1)
      ∧ (allocateAll cfg (SymbolInit cfg) names).1
          = (List.range names.length).map (fun (i : Nat) => cfg.REG_MIN + (i : Int))
      ∧ (∀ (i : Nat) (h : i < names.length),
          GetRegisterOfTheSymbol (allocateAll cfg (SymbolInit cfg) names).2 names[i]
            = cfg.REG_MIN + (i : Int))
      ∧ (∀ j : Nat, (allocateAll cfg (SymbolInit cfg) (names.take j)).2.table
          = (allocateAll cfg (SymbolInit cfg) names).2.table.take j)
      ∧ (allocateAll cfg (SymbolInit cfg) names).2.table = entriesFrom cfg.REG_MIN names
      ∧ (allocateAll cfg (SymbolInit cfg) names).2.table.map (fun e => e.name) = names := by
  have hall : ∀ ns : List (List Char), ns.Nodup → (∀ n ∈ ns, n.length < cfg.MAX_NAME_LEN) →
      ns.length ≤ names.length →
      allocateAll cfg (SymbolInit cfg) ns
        = ((entriesFrom cfg.REG_MIN ns).map (fun e => e.reg),
           { table := entriesFrom cfg.REG_MIN ns,
             next_reg := cfg.REG_MIN + (ns.length : Int) }) := by
    intro ns h1 h2 h3
    have := allocateAll_fresh cfg ns (SymbolInit cfg) h1 h2 (fun _ _ e he => by cases he)
      (by simp only [SymbolInit, List.length_nil]; omega)
      (by simp only [SymbolInit]; omega)
    simpa [SymbolInit] using this
  have hfin := hall names hnd hshort (le_refl _)
  refine ⟨fun _ => rfl, ?_, ?_, ?_, ?_, ?_⟩
  · rw [hfin]; exact entriesFrom_regs names cfg.REG_MIN
  · intro i h
    rw [hfin]
    exact lookupSlots_entriesFrom names hnd cfg.REG_MIN i h
  · intro j
    rw [hfin, hall (names.take j) (hnd.sublist (List.take_sublist j names))
      (fun n hn => hshort n (List.mem_of_mem_take hn))
      (by rw [List.length_take]; omega)]
    exact entriesFrom_take names cfg.REG_MIN j
  · rw [hfin]
  · rw [hfin]; exact entriesFrom_names names cfg.REG_MIN

/-- The lemma `allocation_in_order` on the names `x`, `y`, `z` with `sampleConfig`: they get
`r1`, `r2`, `r3`. -/
theorem allocation_in_order_sample :
    ([['x'], ['y'], ['z']].Nodup
        ∧ (∀ n ∈ [['x'], ['y'], ['z']], n.length < sampleConfig.MAX_NAME_LEN)
        ∧ [['x'], ['y'], ['z']].length ≤ sampleConfig.MAX_SYMBOLS
        ∧ (([['x'], ['y'], ['z']].length : Nat) : Int)
            ≤ sampleConfig.REG_MAX - sampleConfig.REG_MIN + 1)
      ∧ (allocateAll sampleConfig (SymbolInit sampleConfig) [['x'], ['y'], ['z']]).1
          = (List.range 3).map (fun (i : Nat) => sampleConfig.REG_MIN + (i : Int))
      ∧ (allocateAll sampleConfig (SymbolInit sampleConfig) [['x'], ['y'], ['z']]).1 = [1, 2, 3]
      ∧ PrintAll (allocateAll sampleConfig (SymbolInit sampleConfig) [['x'], ['y'], ['z']]).2
          = ["x -> r1\n", "y -> r2\n", "z -> r3\n"] :=
  ⟨⟨by decide, by decide, by decide, by decide⟩,
    (allocation_in_order sampleConfig [['x'], ['y'], ['z']] (by decide) (by decide)
      (by decide) (by decide)).2.1, by decide, by decide⟩

/-- When `REG_MIN ≥ 0` and every identifier of the statements
(each `lhs` and each token of each `rhs`) is shorter than `MAX_NAME_LEN`,
then after `AnalyzeVariableUsage`, for every two records `x` and `y` of the
analyzer with `x` counted strictly more often than `y`: if the name of `y`
is registered, the name of `x` is registered too and holds a lower
register. -/
theorem more_used_gets_lower_register (cfg : Config) (stmts : List Statement)
    (hmin : 0 ≤ cfg.REG_MIN)
    (hshort : ∀ n ∈ usageNames stmts, n.length < cfg.MAX_NAME_LEN) :
    ∀ x ∈ (AnalyzeVariableUsage cfg stmts).1, ∀ y ∈ (AnalyzeVariableUsage cfg stmts).1,
      x.count > y.count →
      GetRegisterOfTheSymbol (AnalyzeVariableUsage cfg stmts).2 y.name ≠ -1 →
      GetRegisterOfTheSymbol (AnalyzeVariableUsage cfg stmts).2 x.name ≠ -1
        ∧ GetRegisterOfTheSymbol (AnalyzeVariableUsage cfg stmts).2 x.name
            < GetRegisterOfTheSymbol (AnalyzeVariableUsage cfg stmts).2 y.name := by
  intro x hx y hy hgt hreg
  obtain ⟨h1, h2, h3⟩ := countUsage_inv cfg stmts hshort
  have hsorted := (sortByCount_sorted (countUsage cfg stmts))
  show GetRegisterOfTheSymbol (reseed cfg (sortByCount (countUsage cfg stmts))) x.name ≠ -1
    ∧ GetRegisterOfTheSymbol (reseed cfg (sortByCount (countUsage cfg stmts))) x.name
        < GetRegisterOfTheSymbol (reseed cfg (sortByCount (countUsage cfg stmts))) y.name
  have hreg' : GetRegisterOfTheSymbol (reseed cfg (sortByCount (countUsage cfg stmts))) y.name
      ≠ -1 := hreg
  obtain ⟨hnd, hlx⟩ := reseed_sorted_lookup cfg (countUsage cfg stmts) h1 h2 h3 x.name
  obtain ⟨-, hly⟩ := reseed_sorted_lookup cfg (countUsage cfg stmts) h1 h2 h3 y.name
  rw [hlx, hly]
  rw [hly] at hreg'
  exact register_order (sortByCount (countUsage cfg stmts)) cfg.REG_MIN _ x y hmin hnd
    (sublist_pair_of_sorted _ x y hsorted hx hy hgt) hreg'

/-- The lemma `more_used_gets_lower_register` on `usageSample` (`x` referenced five times, `y` twice):
`x` holds `r1` and `y` holds `r2`. -/
theorem more_used_gets_lower_register_sample :
    (0 ≤ sampleConfig.REG_MIN
        ∧ ∀ n ∈ usageNames usageSample, n.length < sampleConfig.MAX_NAME_LEN)
      ∧ (∀ x ∈ (AnalyzeVariableUsage sampleConfig usageSample).1,
          ∀ y ∈ (AnalyzeVariableUsage sampleConfig usageSample).1,
          x.count > y.count →
          GetRegisterOfTheSymbol (AnalyzeVariableUsage sampleConfig usageSample).2 y.name ≠ -1 →
          GetRegisterOfTheSymbol (AnalyzeVariableUsage sampleConfig usageSample).2 x.name ≠ -1
            ∧ GetRegisterOfTheSymbol (AnalyzeVariableUsage sampleConfig usageSample).2 x.name
                < GetRegisterOfTheSymbol (AnalyzeVariableUsage sampleConfig usageSample).2 y.name)
      ∧ (AnalyzeVariableUsage sampleConfig usageSample).1
          = [⟨['x'], 5⟩, ⟨['y'], 2⟩, ⟨"_z1".toList, 1⟩]
      ∧ GetRegisterOfTheSymbol (AnalyzeVariableUsage sampleConfig usageSample).2 ['x'] = 1
      ∧ GetRegisterOfTheSymbol (AnalyzeVariableUsage sampleConfig usageSample).2 ['y'] = 2 :=
  ⟨⟨by decide, by decide⟩,
    more_used_gets_lower_register sampleConfig usageSample (by decide) (by decide),
    by decide, by decide, by decide⟩

/-- When every identifier of the statements (each `lhs` and
each token of each `rhs`) is shorter than `MAX_NAME_LEN` and the distinct
counted names are at most `MAX_SYMBOLS`, then after the counting phase of
`AnalyzeVariableUsage` the records are named by the counted names (not
empty, not starting with a digit) in first-seen order, without repetition;
the count of every record is the number of statements whose `lhs` is its
name plus the number of maximal runs of letters, digits and underscores in
the `rhs` texts equal to its name; a name that is empty or starts with a
digit has no record; and every counted name that occurs has one.  The
tokens of a `rhs` are its maximal runs. -/
theorem counts_are_occurrences (cfg : Config) (stmts : List Statement)
    (hshort : ∀ n ∈ usageNames stmts, n.length < cfg.MAX_NAME_LEN)
    (hroom : (firstSeen [] ((usageNames stmts).filter isCounted)).length ≤ cfg.MAX_SYMBOLS) :
    (∀ rhs : List Char, exprTokens rhs [] = identRuns rhs)
      ∧ (countUsage cfg stmts).map (fun v => v.name)
          = firstSeen [] ((usageNames stmts).filter isCounted)
      ∧ ((countUsage cfg stmts).map fun v => v.name).Nodup
      ∧ (∀ v ∈ countUsage cfg stmts, v.count = (occurrences stmts v.name : Int))
      ∧ (∀ name : List Char, isCounted name = false →
          name ∉ (countUsage cfg stmts).map fun v => v.name)
      ∧ (∀ name ∈ usageNames stmts, isCounted name = true →
          name ∈ (countUsage cfg stmts).map fun v => v.name) := by
  obtain ⟨hnames, hcount⟩ := foldl_AddVariableUsage cfg (usageNames stmts) [] hshort hroom
  rw [← countUsage_eq] at hnames hcount
  have hnd := (countUsage_inv cfg stmts hshort).1
  have hmem : ∀ name, name ∈ (countUsage cfg stmts).map (fun v => v.name)
      ↔ name ∈ (usageNames stmts).filter isCounted := by
    intro name
    rw [hnames, mem_firstSeen]
    simp
  refine ⟨exprTokens_identRuns, hnames, hnd, ?_, ?_, ?_⟩
  · intro v hv
    have hc : isCounted v.name = true :=
      (List.mem_filter.mp ((hmem v.name).mp (List.mem_map_of_mem _ hv))).2
    rw [← countOf_of_mem _ v hnd hv, hcount v.name hc, usageNames_count]
    show (0 : Int) + _ = _
    rw [zero_add]
  · intro name hc hin
    have := (List.mem_filter.mp ((hmem name).mp hin)).2
    rw [hc] at this
    cases this
  · intro name hin hc
    exact (hmem name).mpr (List.mem_filter.mpr ⟨hin, hc⟩)

/-- The lemma `counts_are_occurrences` on `usageSample` with names kept to 31 characters: the records are
`y` (2), `x` (5) and `_z1` (1), in this order; the tokens `2` and `12` have
none. -/
theorem counts_are_occurrences_sample :
    ((∀ n ∈ usageNames usageSample, n.length < sampleConfig.MAX_NAME_LEN)
        ∧ (firstSeen [] ((usageNames usageSample).filter isCounted)).length
            ≤ sampleConfig.MAX_SYMBOLS)
      ∧ (countUsage sampleConfig usageSample).map (fun v => v.name)
          = firstSeen [] ((usageNames usageSample).filter isCounted)
      ∧ (∀ v ∈ countUsage sampleConfig usageSample,
          v.count = (occurrences usageSample v.name : Int))
      ∧ countUsage sampleConfig usageSample = [⟨['y'], 2⟩, ⟨['x'], 5⟩, ⟨"_z1".toList, 1⟩]
      ∧ usageNames usageSample
          = [['y'], ['x'], ['x'], ['2'], "_z1".toList, ['x'], ['x'], ['y'], ['x'], "12".toList]
      ∧ occurrences usageSample ['x'] = 5 :=
  ⟨⟨by decide, by decide⟩,
    (counts_are_occurrences sampleConfig usageSample (by decide) (by decide)).2.1,
    (counts_are_occurrences sampleConfig usageSample (by decide) (by decide)).2.2.2.1,
    by decide, by decide, by decide⟩

/-! ## Theorems -/

/-- C1 (code at the failing input): on `(a+b)*c` with `a`, `b`, `c` bound to
`r1`, `r2`, `r3`, `Parse_F` does not stop after the `)`: the loop of `Parse_T`
skips the `)` as an unknown character and multiplies `b` by `c` inside the
parentheses, so `Parse_F` returns at the end of the input having emitted
`dmul r20, r2, r3` and then `daddu r21, r1, r20`, and `Parse_E` emits just
that: the product is an operand of the sum. -/
theorem C1_paren_product_emits_dmul_first (cfg : Config) :
    Parse_F cfg 10 "(a+b)*c".toList boundABC
        = some (21, [], { boundABC with
            temp_next := 22, out := ["dmul r20, r2, r3\n", "daddu r21, r1, r20\n"] })
      ∧ Parse_E cfg 10 "(a+b)*c".toList boundABC
        = some (21, [], { boundABC with
            temp_next := 22, out := ["dmul r20, r2, r3\n", "daddu r21, r1, r20\n"] }) := by
  constructor <;> rfl

/-- C2: for a chain `v0 op1 v1 ... opn vn` (whitespace allowed around every
token) of variables bound in the symbol table with each `op` in `{+, -}`,
and any fuel of at least `n + 3`, `Parse_E` consumes the whole text, leaves
the symbol table as it was and appends exactly `n` lines to the output: there
are destinations `dsts[1..n]` such that line `i` is `daddu` (for `+`) or
`dsubu` (for `-`) with destination `dsts[i]`, left operand `dsts[i-1]` (the
register of `v0` for `i = 1`) and right operand the register of `vi`; the
register returned is the last destination. -/
theorem C2_chain_left_threaded (cfg : Config) (fuel : Nat) (ws0 v0 tail : List Char)
    (links : List Link) (st : CompState)
    (hws0 : ∀ c ∈ ws0, isspace c = true) (hv0 : (Operand.var v0).ok st.sym = true)
    (hlinks : ∀ l ∈ links, l.ok st.sym = true) (htail : ∀ c ∈ tail, isspace c = true)
    (hfuel : links.length + 3 ≤ fuel) :
    ∃ (dsts : List Int) (st' : CompState), dsts.length = links.length
      ∧ Parse_E cfg fuel (ws0 ++ (v0 ++ chainText links tail)) st
          = some (dsts.getLastD (GetRegisterOfTheSymbol st.sym (v0.take 127)), [], st')
      ∧ st'.out
          = st.out ++ chainLines st.sym (GetRegisterOfTheSymbol st.sym (v0.take 127)) links dsts
      ∧ (chainLines st.sym (GetRegisterOfTheSymbol st.sym (v0.take 127)) links dsts).length
          = links.length
      ∧ st'.sym = st.sym := by
  obtain ⟨n, rfl⟩ : ∃ n, fuel = n + 3 := ⟨fuel - 3, by omega⟩
  obtain ⟨hends, hstops⟩ := chainText_ends links tail st.sym hlinks htail
  obtain ⟨dsts, st', hlen, hrun, hout, hsym⟩ :=
    Parse_E_loop_chain cfg tail htail links (n + 2)
      (GetRegisterOfTheSymbol st.sym (v0.take 127)) st hlinks (by omega)
  refine ⟨dsts, st', hlen, ?_, hout, chainLines_length _ _ _ _ hlen, hsym⟩
  rw [Parse_E_unfold,
    Parse_T_operand cfg n (Operand.var v0) _ (chainText links tail) st
      (by rw [SkipSpacesPtr_append_ws _ _ hws0]
          exact Operand.text_skip (Operand.var v0) st.sym _ hv0) hv0 hends hstops]
  simp only [Operand.run]
  rw [Parse_E_loop_skip]
  exact hrun

/-- C2 at `a-b-c` with `a`, `b`, `c` bound to `r1`, `r2`, `r3`: the lines
are `dsubu r20, r1, r2` and `dsubu r20, r20, r3`. -/
theorem C2_chain_left_threaded_witness :
    ((∀ c ∈ ([] : List Char), isspace c = true)
        ∧ (Operand.var ['a']).ok boundABC.sym = true
        ∧ (∀ l ∈ [Link.mk [] '-' [] ['b'], Link.mk [] '-' [] ['c']], l.ok boundABC.sym = true)
        ∧ [Link.mk [] '-' [] ['b'], Link.mk [] '-' [] ['c']].length + 3 ≤ 5)
      ∧ (∃ (dsts : List Int) (st' : CompState), dsts.length = 2
          ∧ Parse_E sampleConfig 5 "a-b-c".toList boundABC = some (dsts.getLastD 1, [], st')
          ∧ st'.out = [GenerateBinOp "dsubu" (dsts.getD 0 0) 1 2,
                       GenerateBinOp "dsubu" (dsts.getD 1 0) (dsts.getD 0 0) 3])
      ∧ Parse_E sampleConfig 5 "a-b-c".toList boundABC
          = some (20, [], { boundABC with
              temp_next := 21, out := ["dsubu r20, r1, r2\n", "dsubu r20, r20, r3\n"] }) := by
  refine ⟨⟨by decide, by decide, by decide, by decide⟩, ?_, by rfl⟩
  obtain ⟨dsts, st', hlen, hrun, hout, -, -⟩ :=
    C2_chain_left_threaded sampleConfig 5 [] ['a'] []
      [Link.mk [] '-' [] ['b'], Link.mk [] '-' [] ['c']] boundABC
      (by decide) (by decide) (by decide) (by decide) (by decide)
  refine ⟨dsts, st', hlen, hrun, ?_⟩
  match dsts, hlen with
  | [d1, d2], _ => exact hout

/-- C3: for `x + y * z` (whitespace allowed around every token) whose
operands are integer literals or bound variables, and any fuel of at least
5: after the three operands are read in the order `x`, `y`, `z` (a literal
is loaded into a new temporary), `Parse_E` appends exactly two lines, first
`dmul d1, ry, rz` and then `daddu d2, rx, d1`, where `rx`, `ry`, `rz` are the
registers of the operands and `d1` is the destination of the `dmul`; it
returns `d2` at the end of the text. -/
theorem C3_product_before_sum (cfg : Config) (fuel : Nat) (x y z : Operand)
    (ws0 ws1 ws2 ws3 ws4 ws5 : List Char) (st : CompState)
    (hx : x.ok st.sym = true) (hy : y.ok st.sym = true) (hz : z.ok st.sym = true)
    (hws : ∀ c ∈ ws0 ++ ws1 ++ ws2 ++ ws3 ++ ws4 ++ ws5, isspace c = true) :
    ∃ (d1 d2 : Int) (st' : CompState),
      Parse_E cfg (fuel + 5)
          (ws0 ++ (x.text ++ (ws1 ++ ('+' :: (ws2 ++ (y.text ++ (ws3 ++ ('*' :: (ws4 ++
            (z.text ++ ws5)))))))))) st
        = some (d2, [], st')
      ∧ st'.out = (z.run (y.run (x.run st).2).2).2.out
          ++ [GenerateBinOp "dmul" d1 (y.run (x.run st).2).1 (z.run (y.run (x.run st).2).2).1,
              GenerateBinOp "daddu" d2 (x.run st).1 d1]
      ∧ st'.sym = st.sym := by
  refine ⟨(emitBinOp "dmul" (y.run (x.run st).2).1 (z.run (y.run (x.run st).2).2).1
      (z.run (y.run (x.run st).2).2).2).1, _, _,
    Parse_E_sum_product cfg fuel x y z ws0 ws1 ws2 ws3 ws4 ws5 st hx hy hz hws, ?_, ?_⟩
  · rw [emitBinOp_out, emitBinOp_out, List.append_assoc]
    rfl
  · rw [emitBinOp_sym, emitBinOp_sym, Operand.run_sym, Operand.run_sym, Operand.run_sym]

/-- C3 at `2+3*4` from a freshly reset temporary pool: exactly the five
lines `daddiu r20, r0, #2`, `daddiu r21, r0, #3`, `daddiu r22, r0, #4`,
`dmul r23, r21, r22`, `daddu r24, r20, r23`. -/
theorem C3_product_before_sum_witness :
    ((Operand.lit ['2']).ok boundABC.sym = true ∧ (Operand.lit ['3']).ok boundABC.sym = true
        ∧ (Operand.lit ['4']).ok boundABC.sym = true
        ∧ (∀ c ∈ ([] : List Char) ++ [] ++ [] ++ [] ++ [] ++ [], isspace c = true))
      ∧ (∃ (d1 d2 : Int) (st' : CompState),
          Parse_E sampleConfig 5 "2+3*4".toList boundABC = some (d2, [], st')
          ∧ st'.out = ["daddiu r20, r0, #2\n", "daddiu r21, r0, #3\n", "daddiu r22, r0, #4\n"]
              ++ [GenerateBinOp "dmul" d1 21 22, GenerateBinOp "daddu" d2 20 d1]
          ∧ st'.sym = boundABC.sym)
      ∧ Parse_E sampleConfig 5 "2+3*4".toList boundABC
          = some (24, [], { boundABC with
              temp_next := 25
              out := ["daddiu r20, r0, #2\n", "daddiu r21, r0, #3\n", "daddiu r22, r0, #4\n",
                      "dmul r23, r21, r22\n", "daddu r24, r20, r23\n"] }) :=
  ⟨⟨by decide, by decide, by decide, by decide⟩,
    C3_product_before_sum sampleConfig 0 (Operand.lit ['2']) (Operand.lit ['3'])
      (Operand.lit ['4']) [] [] [] [] [] [] boundABC (by decide) (by decide) (by decide)
      (by decide),
    by rfl⟩

/-- C4 (code at the failing input): compiling the declaration `int x = 5 - 3`
rewinds the temporary pool a second time when the `-` is consumed, so both
literals are loaded into `r20` and the subtraction reads `r20` twice. -/
theorem C4_subtraction_rewinds_pool (cfg : Config) :
    GenerateAssemblyStatement cfg 10
        (some { type := StmtType.STMT_DECL, lhs := ['x'], rhs := "5 - 3".toList, raw := [] }) boundX
      = some (1, { boundX with
          temp_next := 22
          out := ["daddiu r20, r0, #5\n", "daddiu r20, r0, #3\n", "dsubu r21, r20, r20\n",
                  "daddu r1, r21, r0\n"] }) := by
  rfl

/-- C5: for `rd`, `rs`, `rt` in `[0, 31]` and each of the four R-type
instructions (`daddu` with funct `0x21`, `dsubu` with `0x23`, `dmul` with
`0x18`, `ddiv` with `0x1A`), the encoder turns the line
`<mnemonic> r<rd>, r<rs>, r<rt>` into the word
`rs*2^21 + rt*2^16 + rd*2^11 + funct`; so does the branch of that `funct` on
any three tokens that `RegisterNumber` reads as `rd`, `rs`, `rt`; the word is
`Encode_R_Type(rs, rt, rd, 0, funct)`; and the six fields extracted from it
are opcode 0, the same `rs`, `rt`, `rd`, shamt 0 and the same `funct`. -/
theorem C5_rtype_word_and_fields (mnemonic : String) (funct rd rs rt : Nat) (hrd : rd ≤ 31)
    (hrs : rs ≤ 31) (hrt : rt ≤ 31)
    (hm : (mnemonic = "daddu" ∧ funct = 0x21) ∨ (mnemonic = "dsubu" ∧ funct = 0x23)
      ∨ (mnemonic = "dmul" ∧ funct = 0x18) ∨ (mnemonic = "ddiv" ∧ funct = 0x1A)) :
    ∃ w : Nat, w = rs * 2 ^ 21 + rt * 2 ^ 16 + rd * 2 ^ 11 + funct
      ∧ encodeLine (rTypeLine mnemonic rd rs rt) = some w
      ∧ (∀ r1 r2 r3 : List Char, RegisterNumber r1 = (rd : Int) →
          RegisterNumber r2 = (rs : Int) → RegisterNumber r3 = (rt : Int) →
          encodeRType funct r1 r2 r3 = some w)
      ∧ Encode_R_Type rs rt rd 0 funct = w
      ∧ (extractFields w).opcode = 0
      ∧ (extractFields w).rs = rs
      ∧ (extractFields w).rt = rt
      ∧ (extractFields w).rd = rd
      ∧ (extractFields w).shamt = 0
      ∧ (extractFields w).funct = funct := by
  have hf64 : funct < 64 := by
    rcases hm with ⟨-, hf⟩ | ⟨-, hf⟩ | ⟨-, hf⟩ | ⟨-, hf⟩ <;> omega
  have hw := Encode_R_Type_eq rs rt rd funct hrs hrt hrd hf64
  refine ⟨_, rfl, ?_, ?_, hw, ?_⟩
  · rw [← hw]
    exact encodeLine_rTypeLine mnemonic funct rd rs rt hm hrd hrs hrt
  · intro r1 r2 r3 h1 h2 h3
    rw [← hw]
    exact encodeRType_of_registers funct r1 r2 r3 rd rs rt h1 h2 h3 hrd hrs hrt
  · rw [extractFields_eq]
    refine ⟨?_, ?_, ?_, ?_, ?_, ?_⟩ <;> simp only <;> omega

/-- C5 at `daddu r3, r1, r2`, with the four instructions on these registers
and a two-line file run through the encoder. -/
theorem C5_rtype_word_and_fields_witness :
    (3 ≤ 31 ∧ 1 ≤ 31 ∧ 2 ≤ 31)
      ∧ (∃ w : Nat, w = 1 * 2 ^ 21 + 2 * 2 ^ 16 + 3 * 2 ^ 11 + 0x21
          ∧ encodeLine (rTypeLine "daddu" 3 1 2) = some w
          ∧ (∀ r1 r2 r3 : List Char, RegisterNumber r1 = ((3 : Nat) : Int) →
              RegisterNumber r2 = ((1 : Nat) : Int) → RegisterNumber r3 = ((2 : Nat) : Int) →
              encodeRType 0x21 r1 r2 r3 = some w)
          ∧ Encode_R_Type 1 2 3 0 0x21 = w
          ∧ (extractFields w).opcode = 0
          ∧ (extractFields w).rs = 1
          ∧ (extractFields w).rt = 2
          ∧ (extractFields w).rd = 3
          ∧ (extractFields w).shamt = 0
          ∧ (extractFields w).funct = 0x21)
      ∧ rTypeLine "daddu" 3 1 2 = "daddu r3, r1, r2".toList
      ∧ encodeLine "daddu r3, r1, r2".toList = some 0x00221821
      ∧ encodeLine "dsubu r3, r1, r2".toList = some 0x00221823
      ∧ encodeLine "dmul r3, r1, r2".toList = some 0x00221818
      ∧ encodeLine "ddiv r3, r1, r2".toList = some 0x0022181A
      ∧ MachineFromAssembly "daddu r31, r0, r17\nddiv r4, r30, r9\n".toList
          = [renderWord (0 * 2 ^ 21 + 17 * 2 ^ 16 + 31 * 2 ^ 11 + 0x21), "\n",
             renderWord (30 * 2 ^ 21 + 9 * 2 ^ 16 + 4 * 2 ^ 11 + 0x1A)] :=
  ⟨by decide, C5_rtype_word_and_fields "daddu" 0x21 3 1 2 (by decide) (by decide) (by decide)
    (Or.inl ⟨rfl, rfl⟩), by decide, by decide, by decide, by decide, by decide, by decide⟩

/-- C6 (the claim fails): the line `daddu r3, r1, r2` is not encoded to a
word with the claimed fields whose hexadecimal rendering is `0x00221820`. -/
theorem C6_counterexample :
    ¬ ∃ w, encodeLine "daddu r3, r1, r2".toList = some w
        ∧ (extractFields w).funct = 0x21
        ∧ "0x" ++ fmtHex8 w = "0x00221820" := by
  rintro ⟨w, hw, -, hhex⟩
  have h : encodeLine "daddu r3, r1, r2".toList = some 0x00221821 := by decide
  rw [h] at hw
  cases hw
  revert hhex
  decide

/-- C6 (amended): the line `daddu r3, r1, r2` is encoded to the word
`0x00221821`, whose fields are opcode 0, rs 1, rt 2, rd 3, shamt 0 and
funct `0x21`, and it is rendered with that hexadecimal word. -/
theorem C6_daddu_r3_r1_r2 :
    encodeLine "daddu r3, r1, r2".toList = some 0x00221821
      ∧ (0x00221821 : Nat) = 1 * 2 ^ 21 + 2 * 2 ^ 16 + 3 * 2 ^ 11 + 0x21
      ∧ extractFields 0x00221821
          = { opcode := 0, rs := 1, rt := 2, rd := 3, shamt := 0, funct := 0x21, imm := 0x1821 }
      ∧ renderWord 0x00221821 = "000000 00001 00010 00011 00000 100001 : 0x00221821" := by
  decide

/-- C7: for `rt`, `rs` in `[0, 31]` and `imm` in `[-32768, 32767]`, the line
`daddiu r<rt>, r<rs>, #<imm>` (and every line that `sscanf` reads as these
two registers and this immediate) is encoded to the word
`0x19*2^26 + rs*2^21 + rt*2^16 + (imm mod 2^16)`; the fields extracted from
it are opcode `0x19`, the same `rs` and `rt`, and a 16-bit immediate whose
two's-complement value is `imm`; and the word is rendered in the four-field
I-type layout. -/
theorem C7_daddiu_word_and_fields (rt rs : Nat) (imm : Int) (hrt : rt ≤ 31) (hrs : rs ≤ 31)
    (hlo : -32768 ≤ imm) (hhi : imm ≤ 32767) :
    ∃ w : Nat, w = 0x19 * 2 ^ 26 + rs * 2 ^ 21 + rt * 2 ^ 16 + (imm % 2 ^ 16).toNat
      ∧ encodeLine (daddiuLine rt rs imm) = some w
      ∧ (∀ line t1 t2 : List Char, scanDaddiu line = some (t1, t2, imm) →
          RegisterNumber t1 = (rt : Int) → RegisterNumber t2 = (rs : Int) →
          encodeLine line = some w)
      ∧ (extractFields w).opcode = 0x19
      ∧ (extractFields w).rs = rs
      ∧ (extractFields w).rt = rt
      ∧ int16Value (extractFields w).imm = imm
      ∧ renderWord w
          = fmtBin 6 0x19 ++ " " ++ fmtBin 5 rs ++ " " ++ fmtBin 5 rt ++ " "
              ++ fmtBin 16 (extractFields w).imm ++ " : 0x" ++ fmtHex8 w := by
  have hw := Encode_I_Type_eq 0x19 rs rt imm (by decide) hrs hrt
  have h16 : (imm % 2 ^ 16) = imm % 65536 := by norm_num
  have hu : (imm % 2 ^ 16).toNat < 65536 := by rw [h16]; omega
  refine ⟨_, rfl, ?_, ?_, ?_⟩
  · rw [← hw]
    have hr1 := (register_token ⟨rt, by omega⟩).2.2
    have hr2 := (register_token ⟨rs, by omega⟩).2.2
    exact encodeLine_of_scanDaddiu _ _ _ rt rs imm (scanDaddiu_daddiuLine rt rs imm hrt hrs)
      hr1 hr2 hrt hrs
  · intro line t1 t2 hscan h1 h2
    rw [← hw]
    exact encodeLine_of_scanDaddiu line t1 t2 rt rs imm hscan h1 h2 hrt hrs
  · generalize hU : (imm % 2 ^ 16).toNat = u at hu
    have hop : (extractFields (0x19 * 2 ^ 26 + rs * 2 ^ 21 + rt * 2 ^ 16 + u)).opcode = 0x19 := by
      rw [extractFields_eq]; simp only; omega
    have hfrs : (extractFields (0x19 * 2 ^ 26 + rs * 2 ^ 21 + rt * 2 ^ 16 + u)).rs = rs := by
      rw [extractFields_eq]; simp only; omega
    have hfrt : (extractFields (0x19 * 2 ^ 26 + rs * 2 ^ 21 + rt * 2 ^ 16 + u)).rt = rt := by
      rw [extractFields_eq]; simp only; omega
    have hfimm : (extractFields (0x19 * 2 ^ 26 + rs * 2 ^ 21 + rt * 2 ^ 16 + u)).imm = u := by
      rw [extractFields_eq]; simp only; omega
    refine ⟨hop, hfrs, hfrt, ?_, ?_⟩
    · rw [hfimm, ← hU, h16]
      unfold int16Value
      split_ifs <;> omega
    · unfold renderWord
      simp only [hop, hfrs, hfrt]
      rfl

/-- C7 at `daddiu r20, r0, #-5`: the word is `0x6414FFFB`. -/
theorem C7_daddiu_word_and_fields_witness :
    (20 ≤ 31 ∧ 0 ≤ 31 ∧ (-32768 : Int) ≤ -5 ∧ (-5 : Int) ≤ 32767)
      ∧ (∃ w : Nat, w = 0x19 * 2 ^ 26 + 0 * 2 ^ 21 + 20 * 2 ^ 16 + ((-5 : Int) % 2 ^ 16).toNat
          ∧ encodeLine (daddiuLine 20 0 (-5)) = some w
          ∧ (∀ line t1 t2 : List Char, scanDaddiu line = some (t1, t2, -5) →
              RegisterNumber t1 = ((20 : Nat) : Int) → RegisterNumber t2 = ((0 : Nat) : Int) →
              encodeLine line = some w)
          ∧ (extractFields w).opcode = 0x19
          ∧ (extractFields w).rs = 0
          ∧ (extractFields w).rt = 20
          ∧ int16Value (extractFields w).imm = -5
          ∧ renderWord w
              = fmtBin 6 0x19 ++ " " ++ fmtBin 5 0 ++ " " ++ fmtBin 5 20 ++ " "
                  ++ fmtBin 16 (extractFields w).imm ++ " : 0x" ++ fmtHex8 w)
      ∧ daddiuLine 20 0 (-5) = "daddiu r20, r0, #-5".toList
      ∧ MachineFromAssembly "daddiu r20, r0, #-5\n".toList
          = ["011001 00000 10100 1111111111111011 : 0x6414FFFB"] :=
  ⟨by decide, C7_daddiu_word_and_fields 20 0 (-5) (by decide) (by decide) (by decide)
    (by decide), by decide, by decide⟩

/-- C8 (code at the failing inputs): `RegisterNumber` accepts `r5x` as
register 5 and `r` and `rx` as register 0, and the line `daddu r5x, r1, r2`
is matched and encoded with `rd = 5`. -/
theorem C8_malformed_register_accepted :
    RegisterNumber "r5x".toList = 5
      ∧ RegisterNumber "r".toList = 0
      ∧ RegisterNumber "rx".toList = 0
      ∧ RegisterNumber "r32".toList = -1
      ∧ RegisterNumber "x5".toList = -1
      ∧ RegisterNumber "r-1".toList = -1
      ∧ MachineFromAssembly "daddu r5x, r1, r2\n".toList
          = ["000000 00001 00010 00101 00000 100001 : 0x00222821"] := by
  decide

/-- C9 (code at the failing input): when the matched line is the last line
of the input, nothing is written after the rendered word (no newline at
all); before a blank line two newlines are written, before another
instruction one. -/
theorem C9_no_newline_at_end_of_input :
    MachineFromAssembly "dsubu r3, r1, r2\n".toList
        = ["000000 00001 00010 00011 00000 100011 : 0x00221823"]
      ∧ MachineFromAssembly "dsubu r3, r1, r2".toList
        = ["000000 00001 00010 00011 00000 100011 : 0x00221823"]
      ∧ MachineFromAssembly "dsubu r3, r1, r2\n\n".toList
        = ["000000 00001 00010 00011 00000 100011 : 0x00221823", "\n\n"]
      ∧ MachineFromAssembly "dsubu r3, r1, r2\ndmul r4, r3, r3\n".toList
        = ["000000 00001 00010 00011 00000 100011 : 0x00221823", "\n",
           "000000 00011 00011 00100 00000 011000 : 0x00632018"] := by
  decide

/-- C10 (code at the failing input): with names kept to 31 characters,
allocating a name of 32 characters twice in a row from the initial table
returns `r1` and then `r2`, and the second call adds a second slot, although
the function is to return the existing register of a name already allocated.
The stored name is cut to `MAX_NAME_LEN-1` characters and the search compares
the whole name, so the name is never found again (by
`allocate_long_name_twice` the same happens whatever the constants are).  The
name `x` allocated twice gets `r1` both times and one slot. -/
theorem C10_long_name_allocated_twice :
    (AllocateRegisterForTheSymbol sampleConfig (SymbolInit sampleConfig) longName).1 = 1
      ∧ (AllocateRegisterForTheSymbol sampleConfig
          (AllocateRegisterForTheSymbol sampleConfig (SymbolInit sampleConfig) longName).2
          longName).1 = 2
      ∧ (AllocateRegisterForTheSymbol sampleConfig
          (AllocateRegisterForTheSymbol sampleConfig (SymbolInit sampleConfig) longName).2
          longName).2.symbol_count = 2
      ∧ (AllocateRegisterForTheSymbol sampleConfig
          (AllocateRegisterForTheSymbol sampleConfig (SymbolInit sampleConfig) longName).2
          longName).2
        = { table := [⟨name31, 1⟩, ⟨name31, 2⟩], next_reg := 3 }
      ∧ AllocateRegisterForTheSymbol sampleConfig
          (AllocateRegisterForTheSymbol sampleConfig (SymbolInit sampleConfig) ['x']).2 ['x']
        = (1, { table := [⟨['x'], 1⟩], next_reg := 2 }) := by
  decide

/-- C11: when the symbol count has reached `MAX_SYMBOLS` or the cursor is
above `REG_MAX`, `AllocateRegisterForTheSymbol` on a name that is not bound
returns `-1` and changes nothing: the table (slots, symbol count, cursor) is
the same and every lookup gives what it gave before. -/
theorem C11_exhausted_allocation_fails (cfg : Config) (s : SymTab) (name : List Char)
    (hfull : s.symbol_count ≥ cfg.MAX_SYMBOLS ∨ s.next_reg > cfg.REG_MAX)
    (hnew : GetRegisterOfTheSymbol s name = -1) :
    (AllocateRegisterForTheSymbol cfg s name).1 = -1
      ∧ (AllocateRegisterForTheSymbol cfg s name).2 = s
      ∧ (AllocateRegisterForTheSymbol cfg s name).2.symbol_count = s.symbol_count
      ∧ (AllocateRegisterForTheSymbol cfg s name).2.next_reg = s.next_reg
      ∧ ∀ n : List Char,
          GetRegisterOfTheSymbol (AllocateRegisterForTheSymbol cfg s name).2 n
            = GetRegisterOfTheSymbol s n := by
  have h : AllocateRegisterForTheSymbol cfg s name = (-1, s) := by
    unfold AllocateRegisterForTheSymbol
    simp only [hnew, ne_eq, not_true_eq_false, if_false]
    rcases hfull with h | h
    · rw [if_pos h]
    · split_ifs <;> rfl
  rw [h]
  exact ⟨rfl, rfl, rfl, rfl, fun _ => rfl⟩

/-- C11 on the full table of `sampleConfig` (cursor at 20, above `REG_MAX`)
and the new name `z`. -/
theorem C11_exhausted_allocation_fails_witness :
    ((fullTable.symbol_count ≥ sampleConfig.MAX_SYMBOLS
          ∨ fullTable.next_reg > sampleConfig.REG_MAX)
        ∧ GetRegisterOfTheSymbol fullTable ['z'] = -1)
      ∧ ((AllocateRegisterForTheSymbol sampleConfig fullTable ['z']).1 = -1
        ∧ (AllocateRegisterForTheSymbol sampleConfig fullTable ['z']).2 = fullTable
        ∧ (AllocateRegisterForTheSymbol sampleConfig fullTable ['z']).2.symbol_count
            = fullTable.symbol_count
        ∧ (AllocateRegisterForTheSymbol sampleConfig fullTable ['z']).2.next_reg
            = fullTable.next_reg
        ∧ ∀ n : List Char,
            GetRegisterOfTheSymbol (AllocateRegisterForTheSymbol sampleConfig fullTable ['z']).2 n
              = GetRegisterOfTheSymbol fullTable n) :=
  ⟨⟨by decide, by decide⟩,
    C11_exhausted_allocation_fails sampleConfig fullTable ['z'] (by decide) (by decide)⟩

/-- C12 (code at the failing input): with names kept to 31 characters, two
calls with the same name of 32 characters leave two slots that hold the same
name (its first 31 characters), on `r1` and `r2`: the second call does not
find the name the first call stored.  Two calls with the name `x` leave one
slot. -/
theorem C12_long_name_stored_twice :
    (allocateAll sampleConfig (SymbolInit sampleConfig) [longName, longName]).2.table
        = [⟨name31, 1⟩, ⟨name31, 2⟩]
      ∧ ¬ ((allocateAll sampleConfig (SymbolInit sampleConfig) [longName, longName]).2.table.map
            fun e => e.name).Nodup
      ∧ (allocateAll sampleConfig (SymbolInit sampleConfig) [['x'], ['x']]).2.table
          = [⟨['x'], 1⟩] := by
  decide

/-- C13 (code at the failing input): with names kept to 31 characters, a
single name of 32 characters is allocated `r1`, and afterwards looking it up
gives `-1`, not `r1`: the slot holds the first 31 characters and the lookup
compares the whole name.  The name `x` is allocated `r1` and found on
`r1`. -/
theorem C13_long_name_not_found :
    (allocateAll sampleConfig (SymbolInit sampleConfig) [longName]).1 = [1]
      ∧ GetRegisterOfTheSymbol
          (allocateAll sampleConfig (SymbolInit sampleConfig) [longName]).2 longName = -1
      ∧ (allocateAll sampleConfig (SymbolInit sampleConfig) [longName]).2.table
          = [⟨name31, 1⟩]
      ∧ (allocateAll sampleConfig (SymbolInit sampleConfig) [['x']]).1 = [1]
      ∧ GetRegisterOfTheSymbol
          (allocateAll sampleConfig (SymbolInit sampleConfig) [['x']]).2 ['x'] = 1 := by
  decide

set_option maxRecDepth 100000 in
/-- C14 (code at the failing input): with names kept to 31 characters, in
`usageLong` the 32-character name occurs four times and the 31-character name
three times; after the analysis the 31-character name is registered (`r1`)
and the 32-character name, the most used one, is not: each of its occurrences
made a record of its own with count 1, named by the 31 kept characters.
Among the records, `m` (count 2) holds `r2` and the last record (count 1)
holds `r1`. -/
theorem C14_long_name_not_registered :
    (usageNames usageLong).count longName = 4
      ∧ (usageNames usageLong).count name31 = 3
      ∧ GetRegisterOfTheSymbol (AnalyzeVariableUsage sampleConfig usageLong).2 name31 = 1
      ∧ GetRegisterOfTheSymbol (AnalyzeVariableUsage sampleConfig usageLong).2 longName = -1
      ∧ (AnalyzeVariableUsage sampleConfig usageLong).1
          = [⟨name31, 3⟩, ⟨['m'], 2⟩, ⟨name31, 1⟩, ⟨name31, 1⟩, ⟨name31, 1⟩, ⟨name31, 1⟩]
      ∧ GetRegisterOfTheSymbol (AnalyzeVariableUsage sampleConfig usageLong).2 ['m'] = 2 := by
  decide

/-- C15: the sorting pass of `AnalyzeVariableUsage` returns a permutation of
the records (the same names with the same counts) whose counts are
non-increasing from first to last. -/
theorem C15_sort_is_descending_permutation (vars : List VarUsage) :
    (sortByCount vars).Perm vars
      ∧ (sortByCount vars).Pairwise (fun a b => a.count ≥ b.count) :=
  ⟨sortByCount_perm vars, sortByCount_sorted vars⟩

/-- C16 (the claim fails): the records `a:1, b:1, c:2` are sorted to
`c, b, a`: `a` and `b` have equal counts and `a` was seen first, but `b` is
earlier after sorting and receives the lower register (`r2`, `a` gets
`r3`). -/
theorem C16_counterexample :
    sortByCount [⟨['a'], 1⟩, ⟨['b'], 1⟩, ⟨['c'], 2⟩] = [⟨['c'], 2⟩, ⟨['b'], 1⟩, ⟨['a'], 1⟩]
      ∧ GetRegisterOfTheSymbol
          (reseed sampleConfig (sortByCount [⟨['a'], 1⟩, ⟨['b'], 1⟩, ⟨['c'], 2⟩])) ['a'] = 3
      ∧ GetRegisterOfTheSymbol
          (reseed sampleConfig (sortByCount [⟨['a'], 1⟩, ⟨['b'], 1⟩, ⟨['c'], 2⟩])) ['b'] = 2 := by
  decide

/-- C16 (amended): the sorting pass keeps the first-seen order among the
records whose count is the largest of the list: if `a` is before `b` in the
list, both with the largest count, then `a` is before `b` after sorting, and
(for records with distinct names shorter than `MAX_NAME_LEN`, at most
`MAX_SYMBOLS` many, and `REG_MIN ≥ 0`) if `b` is registered by the
re-seeding then `a` is registered with a lower register.  A list whose
counts are already non-increasing is not changed at all. -/
theorem C16_top_ties_keep_first_seen_order (cfg : Config) (vars : List VarUsage)
    (a b : VarUsage) (hab : [a, b].Sublist vars) (htie : a.count = b.count)
    (htop : ∀ v ∈ vars, v.count ≤ a.count) :
    [a, b].Sublist (sortByCount vars)
      ∧ (0 ≤ cfg.REG_MIN → (vars.map fun v => v.name).Nodup →
          (∀ n ∈ vars.map (fun v => v.name), n.length < cfg.MAX_NAME_LEN) →
          vars.length ≤ cfg.MAX_SYMBOLS →
          GetRegisterOfTheSymbol (reseed cfg (sortByCount vars)) b.name ≠ -1 →
          GetRegisterOfTheSymbol (reseed cfg (sortByCount vars)) a.name ≠ -1
            ∧ GetRegisterOfTheSymbol (reseed cfg (sortByCount vars)) a.name
                < GetRegisterOfTheSymbol (reseed cfg (sortByCount vars)) b.name)
      ∧ ∀ l : List VarUsage, l.Pairwise (fun u v => u.count ≥ v.count) → sortByCount l = l := by
  have hsub : [a, b].Sublist (sortByCount vars) := by
    have hf := selSort_filter_top a.count (vars.length - 1) vars htop
    rw [← sortByCount_eq] at hf
    have h1 : ([a, b].filter fun v => decide (v.count = a.count)).Sublist
        (vars.filter fun v => decide (v.count = a.count)) := hab.filter _
    have h2 : [a, b].filter (fun v => decide (v.count = a.count)) = [a, b] := by
      simp [htie]
    rw [h2, ← hf] at h1
    exact h1.trans (List.filter_sublist _)
  refine ⟨hsub, ?_, ?_⟩
  · intro hmin hnd hshort hsym hreg
    obtain ⟨hnd2, hla⟩ := reseed_sorted_lookup cfg vars hnd hshort hsym a.name
    obtain ⟨-, hlb⟩ := reseed_sorted_lookup cfg vars hnd hshort hsym b.name
    rw [hla, hlb]
    rw [hlb] at hreg
    exact register_order (sortByCount vars) cfg.REG_MIN _ a b hmin hnd2 hsub hreg
  · intro l hp
    rw [sortByCount_eq]
    exact selSort_of_sorted _ l hp

/-- C16 (amended) on the records `a:2, b:1, c:2`: `a` and `c` share the
largest count and stay in this order (`a, c, b`). -/
theorem C16_top_ties_keep_first_seen_order_witness :
    ([(⟨['a'], 2⟩ : VarUsage), ⟨['c'], 2⟩].Sublist [⟨['a'], 2⟩, ⟨['b'], 1⟩, ⟨['c'], 2⟩]
        ∧ (⟨['a'], 2⟩ : VarUsage).count = (⟨['c'], 2⟩ : VarUsage).count
        ∧ ∀ v ∈ [(⟨['a'], 2⟩ : VarUsage), ⟨['b'], 1⟩, ⟨['c'], 2⟩],
            v.count ≤ (⟨['a'], 2⟩ : VarUsage).count)
      ∧ [(⟨['a'], 2⟩ : VarUsage), ⟨['c'], 2⟩].Sublist
          (sortByCount [⟨['a'], 2⟩, ⟨['b'], 1⟩, ⟨['c'], 2⟩])
      ∧ sortByCount [⟨['a'], 2⟩, ⟨['b'], 1⟩, ⟨['c'], 2⟩]
          = [⟨['a'], 2⟩, ⟨['c'], 2⟩, ⟨['b'], 1⟩] :=
  ⟨⟨by decide, by decide, by decide⟩,
    (C16_top_ties_keep_first_seen_order sampleConfig [⟨['a'], 2⟩, ⟨['b'], 1⟩, ⟨['c'], 2⟩]
      ⟨['a'], 2⟩ ⟨['c'], 2⟩ (by decide) (by decide) (by decide)).1,
    by decide⟩

/-- C17 (code at the failing input): with all nineteen permanent registers
taken, the assignment `a = z + 1` needs a register for the new variable `z`;
the allocation fails (`-1`), yet the statement compiler goes on, writes
`daddiu r20, r0, #1`, `daddu r21, r-1, r20`, `daddu r1, r21, r0` and returns
1.  The declaration `int a = z` likewise writes `daddu r1, r-1, r0`.  Only a
failure for the left-hand variable (`int z = 5 + 3`) writes nothing and
returns 0. -/
theorem C17_rhs_allocation_failure_still_emits :
    GetRegisterOfTheSymbol fullTable ['z'] = -1
      ∧ (AllocateRegisterForTheSymbol sampleConfig fullTable ['z']).1 = -1
      ∧ GenerateAssemblyStatement sampleConfig 10
          (some { type := StmtType.STMT_ASSIGN, lhs := ['a'], rhs := "z + 1".toList, raw := [] })
          { temp_next := temp_start, sym := fullTable, out := [] }
        = some (1, { temp_next := 22, sym := fullTable,
                     out := ["daddiu r20, r0, #1\n", "daddu r21, r-1, r20\n",
                             "daddu r1, r21, r0\n"] })
      ∧ GenerateAssemblyStatement sampleConfig 10
          (some { type := StmtType.STMT_DECL, lhs := ['a'], rhs := ['z'], raw := [] })
          { temp_next := temp_start, sym := fullTable, out := [] }
        = some (1, { temp_next := 20, sym := fullTable, out := ["daddu r1, r-1, r0\n"] })
      ∧ GenerateAssemblyStatement sampleConfig 10
          (some { type := StmtType.STMT_DECL, lhs := ['z'], rhs := "5 + 3".toList, raw := [] })
          { temp_next := temp_start, sym := fullTable, out := [] }
        = some (0, { temp_next := 20, sym := fullTable, out := [] }) := by
  decide

/-- C18: starting from a reset symbol table (with room for one symbol,
`0 ≤ REG_MIN ≤ REG_MAX`, names of five characters kept whole, and `REG_MIN`
not the temporary `r22`), `GenerateAssemblyStatement` on the declaration with
lhs `total` and rhs `5 + 3` returns 1, binds `total` to `REG_MIN` and writes
exactly `daddiu r20, r0, #5`, `daddiu r21, r0, #3`, `daddu r22, r20, r21`,
`daddu r<REG_MIN>, r22, r0` (for every fuel of at least 4).  In general, for
every declaration with an initializer whose variable gets a register and
whose expression is compiled, the final `daddu r<lhs>, r<res>, r0` is written
if and only if the result register differs from the register of the
variable. -/
theorem C18_declaration_with_initializer (cfg : Config) (fuel : Nat) (st : CompState)
    (raw : List Char)
    (hsym : st.sym = SymbolInit cfg) (hmin : 0 ≤ cfg.REG_MIN) (hmax : cfg.REG_MIN ≤ cfg.REG_MAX)
    (hcap : 1 ≤ cfg.MAX_SYMBOLS) (hlen : 5 < cfg.MAX_NAME_LEN) (htemp : cfg.REG_MIN ≠ 22) :
    (∃ st' : CompState,
        GenerateAssemblyStatement cfg (fuel + 4)
            (some { type := StmtType.STMT_DECL, lhs := "total".toList, rhs := "5 + 3".toList,
                    raw := raw }) st = some (1, st')
          ∧ GetRegisterOfTheSymbol st'.sym "total".toList = cfg.REG_MIN
          ∧ st'.out = st.out ++ ["daddiu r20, r0, #5\n", "daddiu r21, r0, #3\n",
              "daddu r22, r20, r21\n", "daddu r" ++ toString cfg.REG_MIN ++ ", r22, r0\n"])
      ∧ ∀ (s : Statement) (st0 st2 : CompState) (fuel0 : Nat) (rres : Int) (p : List Char),
          s.type = StmtType.STMT_DECL → s.rhs ≠ [] →
          (AllocateRegisterForTheSymbol cfg st0.sym s.lhs).1 ≠ -1 →
          Parse_E cfg fuel0 s.rhs
              { temp_next := temp_start,
                sym := (AllocateRegisterForTheSymbol cfg st0.sym s.lhs).2,
                out := st0.out } = some (rres, p, st2) →
          GenerateAssemblyStatement cfg fuel0 (some s) st0
            = some (1,
                if rres ≠ (AllocateRegisterForTheSymbol cfg st0.sym s.lhs).1 then
                  { st2 with out := st2.out ++
                      ["daddu r" ++ toString (AllocateRegisterForTheSymbol cfg st0.sym s.lhs).1
                        ++ ", r" ++ toString rres ++ ", r0\n"] }
                else st2) := by
  constructor
  · have htake : "total".toList.take (cfg.MAX_NAME_LEN - 1) = "total".toList :=
      List.take_of_length_le (by simp; omega)
    have hne : cfg.REG_MIN ≠ -1 := by omega
    have hne2 : (22 : Int) ≠ cfg.REG_MIN := fun h => htemp h.symm
    refine ⟨{ temp_next := 23,
              sym := { table := [{ name := "total".toList, reg := cfg.REG_MIN }],
                       next_reg := cfg.REG_MIN + 1 },
              out := st.out ++ ["daddiu r20, r0, #5\n", "daddiu r21, r0, #3\n",
                "daddu r22, r20, r21\n", "daddu r" ++ toString cfg.REG_MIN ++ ", r22, r0\n"] },
      ?_, ?_, rfl⟩
    · unfold GenerateAssemblyStatement AssemblyGenerateDeclaration ResetTempRegister
      simp only [hsym, allocate_first cfg _ hmax hcap, htake, if_true, ne_eq,
        not_true_eq_false, if_false, hne]
      have hrhs : "5 + 3".toList ≠ [] := by decide
      rw [if_pos hrhs]
      have := Parse_E_five_plus_three cfg fuel
        { table := [{ name := "total".toList, reg := cfg.REG_MIN }], next_reg := cfg.REG_MIN + 1 }
        st.out
      simp only [temp_start] at this ⊢
      rw [this]
      simp only [hne2, not_false_eq_true, if_true, List.append_assoc, List.singleton_append,
        List.cons_append, List.nil_append]
      have hs : ∀ X : String, X ++ ", r" ++ toString (22 : Int) ++ ", r0\n" = X ++ ", r22, r0\n" := by
        intro X
        rw [String.append_assoc, String.append_assoc]
        rfl
      rw [hs]
    · show lookupSlots [{ name := "total".toList, reg := cfg.REG_MIN }] "total".toList = _
      simp [lookupSlots]
  · intro s st0 st2 fuel0 rres p hty hrhs halloc hparse
    unfold GenerateAssemblyStatement AssemblyGenerateDeclaration ResetTempRegister
    simp only [hty, if_true, ne_eq, not_true_eq_false, if_false, halloc, hrhs,
      not_false_eq_true]
    rw [hparse]
    simp only
    split_ifs <;> rfl

/-- C18 on the initial table of `sampleConfig`: `total` is bound to `r1` and
the four lines are written. -/
theorem C18_declaration_with_initializer_witness :
    (({ temp_next := 26, sym := SymbolInit sampleConfig, out := [] } : CompState).sym
          = SymbolInit sampleConfig
        ∧ 0 ≤ sampleConfig.REG_MIN ∧ sampleConfig.REG_MIN ≤ sampleConfig.REG_MAX
        ∧ 1 ≤ sampleConfig.MAX_SYMBOLS ∧ 5 < sampleConfig.MAX_NAME_LEN
        ∧ sampleConfig.REG_MIN ≠ 22)
      ∧ (∃ st' : CompState,
          GenerateAssemblyStatement sampleConfig (0 + 4)
              (some { type := StmtType.STMT_DECL, lhs := "total".toList, rhs := "5 + 3".toList,
                      raw := "int total = 5 + 3;".toList })
              { temp_next := 26, sym := SymbolInit sampleConfig, out := [] } = some (1, st')
            ∧ GetRegisterOfTheSymbol st'.sym "total".toList = sampleConfig.REG_MIN
            ∧ st'.out = ([] : List String) ++ ["daddiu r20, r0, #5\n", "daddiu r21, r0, #3\n",
                "daddu r22, r20, r21\n",
                "daddu r" ++ toString sampleConfig.REG_MIN ++ ", r22, r0\n"])
      ∧ GenerateAssemblyStatement sampleConfig 4
          (some { type := StmtType.STMT_DECL, lhs := "total".toList, rhs := "5 + 3".toList,
                  raw := "int total = 5 + 3;".toList })
          { temp_next := 26, sym := SymbolInit sampleConfig, out := [] }
        = some (1, { temp_next := 23,
                     sym := { table := [{ name := "total".toList, reg := 1 }], next_reg := 2 },
                     out := ["daddiu r20, r0, #5\n", "daddiu r21, r0, #3\n",
                             "daddu r22, r20, r21\n", "daddu r1, r22, r0\n"] }) :=
  ⟨⟨rfl, by decide, by decide, by decide, by decide, by decide⟩,
    (C18_declaration_with_initializer sampleConfig 0
      { temp_next := 26, sym := SymbolInit sampleConfig, out := [] }
      "int total = 5 + 3;".toList rfl (by decide) (by decide) (by decide) (by decide)
      (by decide)).1,
    by decide⟩

/-- C19: after a reset of the pool the `(k+1)`-th call of `NewTempRegister`
(so every call, counted from 1) returns register `20 + (k mod 11)`, which is
not the failure value `-1`, and leaves the cursor in `[20, 30]`; the twelfth
request returns `r20` again. -/
theorem C19_temporaries_wrap_around (k : Nat) :
    (NewTempRegister (tempNextAfter k)).1 = 20 + ((k % 11 : Nat) : Int)
      ∧ (NewTempRegister (tempNextAfter k)).1 ≠ -1
      ∧ 20 ≤ tempNextAfter (k + 1) ∧ tempNextAfter (k + 1) ≤ 30
      ∧ (NewTempRegister (tempNextAfter 11)).1 = 20 := by
  have h1 : (NewTempRegister (tempNextAfter k)).1 = tempNextAfter k := by
    unfold NewTempRegister
    simp only
    split_ifs <;> rfl
  rw [h1, tempNextAfter_eq, tempNextAfter_eq]
  refine ⟨rfl, ?_, ?_, ?_, by decide⟩ <;> omega

/-- C20: for every register and every `long long` value `v`,
`GenerateLoadImmediate` writes the line `daddiu r<reg>, r0, #<operand>`
where the operand is `v` in decimal when `-15 ≤ v ≤ 15`, `0x` and the
upper-case hexadecimal digits of `v` (no sign) when `v > 15`, and a minus
sign, `0X` and the hexadecimal digits of `|v|` when `v < -15`; the digits
read back in base sixteen give `|v|`. -/
theorem C20_load_immediate_operand (reg v : Int) (hlo : -(2 : Int) ^ 63 ≤ v)
    (hhi : v < (2 : Int) ^ 63) :
    (-15 ≤ v → v ≤ 15 →
        GenerateLoadImmediate reg v
          = "daddiu r" ++ toString reg ++ ", r0, #" ++ toString v ++ "\n")
      ∧ (15 < v →
        GenerateLoadImmediate reg v
          = "daddiu r" ++ toString reg ++ ", r0, #0x" ++ hexUpper v.natAbs ++ "\n")
      ∧ (v < -15 →
        GenerateLoadImmediate reg v
          = "daddiu r" ++ toString reg ++ ", r0, #-0X" ++ hexUpper v.natAbs ++ "\n")
      ∧ scanDigits 16 0 (hexUpper v.natAbs).toList = (v.natAbs, []) := by
  refine ⟨?_, ?_, ?_, scanDigits_hexUpper _⟩
  · intro h1 h2
    unfold GenerateLoadImmediate
    rw [if_neg (by omega), if_neg (by omega)]
  · intro h
    unfold GenerateLoadImmediate
    rw [if_pos h]
    have : v.toNat = v.natAbs := by omega
    rw [this]
  · intro h
    unfold GenerateLoadImmediate
    rw [if_neg (by omega), if_pos h]
    have hn : ((wrap64 (-v)) % 2 ^ 64).toNat = v.natAbs := by
      unfold wrap64
      omega
    rw [hn]
    have hs : "daddiu r" ++ toString reg ++ ", r0, #-" ++ "0X"
        = "daddiu r" ++ toString reg ++ ", r0, #-0X" := by
      rw [String.append_assoc]; rfl
    rw [hs]

/-- C20 at `-100` (a minus sign and hexadecimal `64`), with `10` (decimal)
and `100` (hexadecimal `64`, no sign) evaluated next to it. -/
theorem C20_load_immediate_operand_witness :
    (-(2 : Int) ^ 63 ≤ -100 ∧ (-100 : Int) < (2 : Int) ^ 63)
      ∧ ((-15 ≤ (-100 : Int) → (-100 : Int) ≤ 15 →
            GenerateLoadImmediate 5 (-100)
              = "daddiu r" ++ toString (5 : Int) ++ ", r0, #" ++ toString (-100 : Int) ++ "\n")
        ∧ (15 < (-100 : Int) →
            GenerateLoadImmediate 5 (-100)
              = "daddiu r" ++ toString (5 : Int) ++ ", r0, #0x"
                  ++ hexUpper (-100 : Int).natAbs ++ "\n")
        ∧ ((-100 : Int) < -15 →
            GenerateLoadImmediate 5 (-100)
              = "daddiu r" ++ toString (5 : Int) ++ ", r0, #-0X"
                  ++ hexUpper (-100 : Int).natAbs ++ "\n")
        ∧ scanDigits 16 0 (hexUpper (-100 : Int).natAbs).toList = ((-100 : Int).natAbs, []))
      ∧ GenerateLoadImmediate 5 (-100) = "daddiu r5, r0, #-0X64\n"
      ∧ GenerateLoadImmediate 5 100 = "daddiu r5, r0, #0x64\n"
      ∧ GenerateLoadImmediate 5 10 = "daddiu r5, r0, #10\n" :=
  ⟨by decide, C20_load_immediate_operand 5 (-100) (by decide) (by decide), by decide, by decide,
    by decide⟩

/-- C21: for every register `reg` in `[0, 31]` and every `v` in
`[-32768, 32767]`, the line that `GenerateLoadImmediate` prints is
`daddiu r<reg>, r0, #` followed by the operand (decimal, `0x` hexadecimal or
`-0X` hexadecimal) and a newline; the `%i` of the encoder reads that operand
back as `v` with nothing left over; the printed line, with its end of line
stripped as the encoder does, is encoded to `Encode_I_Type(0x19, 0, reg, v)`;
and the 16-bit immediate field of that word is `v mod 2^16`, whose
two's-complement value is `v`. -/
theorem C21_immediate_text_read_back (reg : Nat) (v : Int) (hreg : reg ≤ 31)
    (hlo : -32768 ≤ v) (hhi : v ≤ 32767) :
    (GenerateLoadImmediate (reg : Int) v).toList = loadLine reg v ++ ['\n']
      ∧ scanSigned (loadOperand v) = some (v, [])
      ∧ encodeLine (stripEol (GenerateLoadImmediate (reg : Int) v).toList)
          = some (Encode_I_Type 0x19 0 reg v)
      ∧ (extractFields (Encode_I_Type 0x19 0 reg v)).imm = (v % 2 ^ 16).toNat
      ∧ int16Value (extractFields (Encode_I_Type 0x19 0 reg v)).imm = v := by
  have hlo64 : -(2 : Int) ^ 63 ≤ v := by
    have : -(2 : Int) ^ 63 ≤ -32768 := by norm_num
    omega
  have hhi64 : v < (2 : Int) ^ 63 := by
    have : (32767 : Int) < (2 : Int) ^ 63 := by norm_num
    omega
  have hw := Encode_I_Type_eq 0x19 0 reg v (by decide) (by decide) hreg
  have h16 : (v % 2 ^ 16) = v % 65536 := by norm_num
  have hu : (v % 2 ^ 16).toNat < 65536 := by rw [h16]; omega
  have himm : (extractFields (Encode_I_Type 0x19 0 reg v)).imm = (v % 2 ^ 16).toNat := by
    rw [hw]
    generalize (v % 2 ^ 16).toNat = u at hu
    rw [extractFields_eq]; simp only; omega
  refine ⟨GenerateLoadImmediate_toList reg v, scanSigned_loadOperand v hlo64 hhi64, ?_, himm, ?_⟩
  · rw [stripEol_GenerateLoadImmediate reg v hreg]
    exact encodeLine_of_scanDaddiu _ _ _ reg 0 v (scanDaddiu_loadLine reg v hreg hlo64 hhi64)
      (register_token ⟨reg, by omega⟩).2.2 (register_token ⟨0, by omega⟩).2.2 hreg (by decide)
  · rw [himm, h16]
    unfold int16Value
    split_ifs <;> omega

/-- C21 at `-100` into `r5` (printed as `#-0X64`), with the three text forms
run through the encoder: `-100`, `100` (printed as `#0x64`) and `10`
(printed in decimal). -/
theorem C21_immediate_text_read_back_witness :
    (5 ≤ 31 ∧ (-32768 : Int) ≤ -100 ∧ (-100 : Int) ≤ 32767)
      ∧ ((GenerateLoadImmediate ((5 : Nat) : Int) (-100)).toList = loadLine 5 (-100) ++ ['\n']
        ∧ scanSigned (loadOperand (-100)) = some (-100, [])
        ∧ encodeLine (stripEol (GenerateLoadImmediate ((5 : Nat) : Int) (-100)).toList)
            = some (Encode_I_Type 0x19 0 5 (-100))
        ∧ (extractFields (Encode_I_Type 0x19 0 5 (-100))).imm = ((-100 : Int) % 2 ^ 16).toNat
        ∧ int16Value (extractFields (Encode_I_Type 0x19 0 5 (-100))).imm = -100)
      ∧ loadOperand (-100) = "-0X64".toList
      ∧ loadOperand 100 = "0x64".toList
      ∧ loadOperand 10 = "10".toList
      ∧ MachineFromAssembly (GenerateLoadImmediate 5 (-100)).toList
          = ["011001 00000 00101 1111111110011100 : 0x6405FF9C"]
      ∧ MachineFromAssembly (GenerateLoadImmediate 5 100).toList
          = ["011001 00000 00101 0000000001100100 : 0x64050064"]
      ∧ MachineFromAssembly (GenerateLoadImmediate 5 10).toList
          = ["011001 00000 00101 0000000000001010 : 0x6405000A"] :=
  ⟨by decide, C21_immediate_text_read_back 5 (-100) (by decide) (by decide) (by decide),
    by decide, by decide, by decide, by decide, by decide, by decide⟩

/-- C22 (code at the failing input): with `x` bound to `r1`, the assignment
`x = 100` makes `AssemblyGenerateAssignment` write the single line
`daddiu r1, r0, #100` and return 1: the operand is decimal, not the `0x64`
that `GenerateLoadImmediate` writes for the same register and value.
Likewise `x = -100` writes `#-100` (not `#-0X64`) and `x = 0x64` writes
`#100`; only for values from -15 to 15 (`x = 7`) do the two texts agree.  The
same literal inside an expression (`x = 100 + 1`) is loaded through
`GenerateLoadImmediate` and printed as `#0x64`. -/
theorem C22_literal_assignment_prints_decimal :
    AssemblyGenerateAssignment sampleConfig 0
        (some { type := StmtType.STMT_ASSIGN, lhs := ['x'], rhs := "100".toList, raw := [] })
        boundX
      = some (1, { boundX with out := ["daddiu r1, r0, #100\n"] })
      ∧ GenerateLoadImmediate 1 100 = "daddiu r1, r0, #0x64\n"
      ∧ AssemblyGenerateAssignment sampleConfig 0
          (some { type := StmtType.STMT_ASSIGN, lhs := ['x'], rhs := "-100".toList, raw := [] })
          boundX
        = some (1, { boundX with out := ["daddiu r1, r0, #-100\n"] })
      ∧ GenerateLoadImmediate 1 (-100) = "daddiu r1, r0, #-0X64\n"
      ∧ AssemblyGenerateAssignment sampleConfig 0
          (some { type := StmtType.STMT_ASSIGN, lhs := ['x'], rhs := "0x64".toList, raw := [] })
          boundX
        = some (1, { boundX with out := ["daddiu r1, r0, #100\n"] })
      ∧ AssemblyGenerateAssignment sampleConfig 0
          (some { type := StmtType.STMT_ASSIGN, lhs := ['x'], rhs := "7".toList, raw := [] })
          boundX
        = some (1, { boundX with out := [GenerateLoadImmediate 1 7] })
      ∧ GenerateAssemblyStatement sampleConfig 10
          (some { type := StmtType.STMT_ASSIGN, lhs := ['x'], rhs := "100".toList, raw := [] })
          boundX
        = some (1, { temp_next := 20, sym := boundX.sym, out := ["daddiu r1, r0, #100\n"] })
      ∧ GenerateAssemblyStatement sampleConfig 10
          (some { type := StmtType.STMT_ASSIGN, lhs := ['x'], rhs := "100 + 1".toList, raw := [] })
          boundX
        = some (1, { temp_next := 23, sym := boundX.sym,
                     out := ["daddiu r20, r0, #0x64\n", "daddiu r21, r0, #1\n",
                             "daddu r22, r20, r21\n", "daddu r1, r22, r0\n"] }) := by
  decide

set_option maxRecDepth 100000 in
/-- C23 (code at the failing input): with names kept to 31 characters,
`usageLong` has three distinct names, far fewer than `MAX_SYMBOLS`; its
32-character name occurs four times and its 31-character name three times.
After the counting phase no record is named by the 32-character name: each of
its occurrences appended a record with count 1 named by its first 31
characters, because the name is stored cut and searched whole.  The
31-character name so has five records, one with count 3 and four with count
1, and the records are not the names in first-seen order.  The short name `m`
is counted as it occurs (2). -/
theorem C23_long_name_counted_apart :
    (firstSeen [] ((usageNames usageLong).filter isCounted)).length = 3
      ∧ occurrences usageLong longName = 4
      ∧ occurrences usageLong name31 = 3
      ∧ occurrences usageLong ['m'] = 2
      ∧ countUsage sampleConfig usageLong
          = [⟨name31, 3⟩, ⟨['m'], 2⟩, ⟨name31, 1⟩, ⟨name31, 1⟩, ⟨name31, 1⟩, ⟨name31, 1⟩]
      ∧ longName ∉ (countUsage sampleConfig usageLong).map (fun v => v.name)
      ∧ firstSeen [] ((usageNames usageLong).filter isCounted) = [name31, ['m'], longName] := by
  decide

/-- C24: for every text `p` (of any shape) and every state, `Parse_E`
returns: from `3 * |p| + 3` units of fuel on it gives one and the same
result, whose pointer is a final part of `p` (the cursor has only advanced,
and not beyond the end) standing on the end of the text or on `;`.  Likewise
`Parse_T` returns from `3 * |p| + 2` units on, with the cursor on the end of
the text or on `+`, `-`, `;`.  Every iteration of the loop of `Parse_T` and
of the loop of `Parse_E` either stops there (on such a character, after the
whitespace) or goes on to the next iteration from a strictly shorter final
part of the text. -/
theorem C24_parse_terminates (cfg : Config) (p : List Char) (st : CompState) :
    (∃ res : ParseResult,
        (∀ fuel, 3 * p.length + 3 ≤ fuel → Parse_E cfg fuel p st = some res)
          ∧ res.2.1 <:+ p ∧ stopsExpr res.2.1 = true)
      ∧ (∃ res : ParseResult,
        (∀ fuel, 3 * p.length + 2 ≤ fuel → Parse_T cfg fuel p st = some res)
          ∧ res.2.1 <:+ p ∧ stopsTerm res.2.1 = true)
      ∧ (∀ left : Int,
        (stopsTerm (SkipSpacesPtr p) = true
          ∧ ∀ fuel, Parse_T_loop cfg (fuel + 1) left p st = some (left, SkipSpacesPtr p, st))
        ∨ ∃ (left1 : Int) (p1 : List Char) (st1 : CompState),
            p1.length < p.length ∧ p1 <:+ p
              ∧ ∀ fuel, 3 * p.length ≤ fuel + 2 →
                  Parse_T_loop cfg (fuel + 1) left p st = Parse_T_loop cfg fuel left1 p1 st1)
      ∧ (∀ left : Int,
        (stopsExpr (SkipSpacesPtr p) = true
          ∧ ∀ fuel, Parse_E_loop cfg (fuel + 1) left p st = some (left, SkipSpacesPtr p, st))
        ∨ ∃ (left1 : Int) (p1 : List Char) (st1 : CompState),
            p1.length < p.length ∧ p1 <:+ p
              ∧ ∀ fuel, 3 * p.length ≤ fuel + 1 →
                  Parse_E_loop cfg (fuel + 1) left p st
                    = Parse_E_loop cfg fuel left1 p1 st1) := by
  refine ⟨(parse_returns cfg p.length).2.2.2.2 p st (Nat.le_refl _),
    (parse_returns cfg p.length).2.2.1 p st (Nat.le_refl _), fun left => ?_, fun left => ?_⟩
  · refine Parse_T_loop_iteration cfg p.length (fun q st1 h => ?_) left p st (Nat.le_refl _)
    have hq := (parse_returns cfg (p.length - 1)).1 q st1 (by omega)
    have e : 3 * (p.length - 1) + 1 = 3 * p.length - 2 := by omega
    rw [e] at hq
    exact hq
  · refine Parse_E_loop_iteration cfg p.length (fun q st1 h => ?_) left p st (Nat.le_refl _)
    have hq := (parse_returns cfg (p.length - 1)).2.2.1 q st1 (by omega)
    have e : 3 * (p.length - 1) + 2 = 3 * p.length - 1 := by omega
    rw [e] at hq
    exact hq

/-- C24 on the malformed text `(a + * b ? 2` (an unclosed parenthesis, an
operator without operand, an unknown character), with `a ) ) * ( ; b` and
`a ) ? - b` evaluated next to it: `Parse_E` stops on the end of the text or
on `;`, `Parse_T` on `-`. -/
theorem C24_parse_terminates_witness :
    (∃ res : ParseResult,
        (∀ fuel, 3 * "(a + * b ? 2".toList.length + 3 ≤ fuel →
            Parse_E sampleConfig fuel "(a + * b ? 2".toList boundABC = some res)
          ∧ res.2.1 <:+ "(a + * b ? 2".toList ∧ stopsExpr res.2.1 = true)
      ∧ Parse_E sampleConfig 39 "(a + * b ? 2".toList boundABC
          = some (21, [], { temp_next := 22, sym := boundABC.sym,
                            out := ["dmul r20, r0, r2\n", "daddu r21, r1, r20\n"] })
      ∧ Parse_E sampleConfig 42 "a ) ) * ( ; b".toList boundABC
          = some (20, "; b".toList, { temp_next := 21, sym := boundABC.sym,
                                      out := ["dmul r20, r1, r0\n"] })
      ∧ Parse_T sampleConfig 29 "a ) ? - b".toList boundABC
          = some (1, "- b".toList, boundABC) :=
  ⟨(C24_parse_terminates sampleConfig "(a + * b ? 2".toList boundABC).1, by decide, by decide,
    by decide⟩

end Compiler
